import Mathlib

/-!
# golb: replica selection, liveness and routing

A shallow embedding of the Go packages `pkg/node`, `pkg/strategy` and
`cmd/server`, followed by theorems about them.

Conventions of the embedding

* A Go `string` is a Lean `String`; a Go `map[string]T` is an association list
  with pairwise distinct keys, read with `List.lookup`; a `nil` map is `none`.
* Go's `int` is 64 bits wide. Values stay in `Int`, and the one place where an
  addition can leave the range (`w.count[w.cursor] += 1`) wraps explicitly.
  Cursors are indices that the code only ever writes as `(c + 1) % len`, so
  they are natural numbers.
* A `*node.Node` of a pool is the `Node` value it points to (`NewServer` builds
  pools without nil entries); the liveness flag a strategy reads is the `alive`
  field of that value. Liveness that changes between two calls is a different
  pool value of the same length.
* Strings are compared character by character, which agrees with Go's
  byte-wise comparison on valid UTF-8.
* Mutexes and log output have no effect on the values computed and are left
  out. A run-time panic (index out of range, call of a nil function) is an
  explicit outcome.
* Loops that the source does not bound by a decreasing variable carry a fuel
  argument; `none` means that the loop was still running when the fuel ran out.
  A loop that is still running at every amount of fuel never returns.
* `RoundRobin.scan` and `WeightedRoundRobin.scan` are the two loops once more
  with a counter of the candidates examined; dropping the counter gives the
  loops back (`RoundRobin.scan_erase`, `WeightedRoundRobin.weighted_scan_erase`).
* `log.Fatalf` ends the process: a `NewServer` that reaches it returns `none`.
-/

namespace Golb

/-! ## Go standard library: `strconv.Atoi`, `fmt.Sprintf("%d", _)`, `strings.HasPrefix` -/

/-- Smallest value of Go's 64-bit `int`. -/
def minInt : Int := -9223372036854775808

/-- Largest value of Go's 64-bit `int`. -/
def maxInt : Int := 9223372036854775807

/-- Two's-complement wrap-around of a 64-bit signed addition result. -/
def wrapInt (v : Int) : Int := (v + 9223372036854775808) % 18446744073709551616 - 9223372036854775808

/-- The digit loop of `strconv.Atoi`: `ch -= '0'; if ch > 9 { error }; n = n*10 + ch`. -/
def strconv.digits : List Char → Nat → Option Nat
  | [], n => some n
  | ch :: rest, n =>
    if 48 ≤ ch.toNat ∧ ch.toNat ≤ 57 then strconv.digits rest (n * 10 + (ch.toNat - 48)) else none

/-- The unsigned part of `strconv.Atoi`: at least one character, all of them decimal digits. -/
def strconv.magnitude : List Char → Option Nat
  | [] => none
  | ch :: rest => strconv.digits (ch :: rest) 0

/-- The range check of `strconv.Atoi`: a value outside `int` is an error (`ErrRange`). -/
def strconv.inRange (v : Int) : Option Int :=
  if minInt ≤ v ∧ v ≤ maxInt then some v else none

/-- Go's `strconv.Atoi` (standard library): an optional single sign `+` or `-`,
then one or more decimal digits, and a value that fits `int`; everything else
is an error, here `none`. -/
def strconv.Atoi (s : String) : Option Int :=
  match s.data with
  | [] => none
  | '-' :: rest => (strconv.magnitude rest).bind (fun m => strconv.inRange (-(m : Int)))
  | '+' :: rest => (strconv.magnitude rest).bind (fun m => strconv.inRange (m : Int))
  | cs => (strconv.magnitude cs).bind (fun m => strconv.inRange (m : Int))

/-- Decimal digits of a natural number, most significant first; `fuel` bounds the number of digits. -/
def fmt.decimal : Nat → Nat → List Char
  | 0, n => [Char.ofNat (48 + n % 10)]
  | fuel + 1, n =>
    if n < 10 then [Char.ofNat (48 + n)] else fmt.decimal fuel (n / 10) ++ [Char.ofNat (48 + n % 10)]

/-- Go's `fmt.Sprintf("%d", v)` (standard library): the decimal digits of `v`, after a `-` when `v < 0`. -/
def fmt.Sprintf_d (v : Int) : String :=
  if v < 0 then String.mk ('-' :: fmt.decimal v.natAbs v.natAbs) else String.mk (fmt.decimal v.natAbs v.natAbs)

/-- Go's `strings.HasPrefix(s, p)` (standard library): `s` begins with `p`. -/
def strings.HasPrefix (s p : String) : Bool := p.data.isPrefixOf s.data

/-! ## `pkg/node` -/

/-- The type `node.Node`: `Url`, `Metadata` (a map that may be nil) and the
liveness flag `alive`. The reverse proxy is built from `Url` alone and the
read-write mutex guards `alive`; neither carries state of its own. -/
structure Node where
  Url : String
  Metadata : Option (List (String × String))
  alive : Bool
deriving DecidableEq, Repr

/-- `(*Node).GetMetadata`: the value stored under `key`, or `defaultVal`. -/
def Node.GetMetadata (n : Node) (key defaultVal : String) : String :=
  match n.Metadata with
  | none => defaultVal
  | some m =>
    match m.lookup key with
    | some val => val
    | none => defaultVal

/-- `(*Node).GetMetadataInt`: the value stored under `key` read as an `int`, or `defaultVal`. -/
def Node.GetMetadataInt (n : Node) (key : String) (defaultVal : Int) : Int :=
  match n.Metadata with
  | none => defaultVal
  | some _ =>
    let val := n.GetMetadata key (fmt.Sprintf_d defaultVal)
    match strconv.Atoi val with
    | none => defaultVal
    | some finalVal => finalVal

/-- `(*Node).SetLiveness`: stores `value` and returns the old flag. -/
def Node.SetLiveness (n : Node) (value : Bool) : Bool × Node :=
  let old := n.alive
  (old, { n with alive := value })

/-- `(*Node).IsAlive`: the liveness flag. -/
def Node.IsAlive (n : Node) : Bool := n.alive

/-! ## `pkg/strategy` -/

/-- What a call of `Next` hands back: `(node, nil)`, `(nil, err)`, or a run-time panic. -/
inductive Result where
  | ok (n : Node)
  | err (msg : String)
  | panic
deriving DecidableEq, Repr

/-- The type `strategy.RoundRobin`: the cursor `current`. -/
structure RoundRobin where
  current : Nat
deriving DecidableEq, Repr

/-- The code of `RoundRobin.Next` after its loop: the test
`choosen == nil || index == len(servers)` and the two returns. -/
def RoundRobin.finish (servers : List Node) (index : Nat) (choosen : Option Node) (current : Nat) :
    Result × RoundRobin :=
  match choosen with
  | none => (Result.err "no available servers", ⟨current⟩)
  | some n =>
    if index = servers.length then (Result.err "no available servers", ⟨current⟩)
    else (Result.ok n, ⟨current⟩)

/-- The loop `for index < len(servers)` of `RoundRobin.Next`, one iteration per
unit of fuel, followed by the code after the loop. -/
def RoundRobin.loop (servers : List Node) : Nat → Nat → Option Node → Nat → Option (Result × RoundRobin)
  | 0, _, _, _ => none
  | fuel + 1, index, choosen, current =>
    if index < servers.length then
      match servers[current]? with
      | none => some (Result.panic, ⟨current⟩)
      | some n =>
        if n.IsAlive then
          some (RoundRobin.finish servers index (some n) ((current + 1) % servers.length))
        else
          RoundRobin.loop servers fuel (index + 1) (some n) ((current + 1) % servers.length)
    else
      some (RoundRobin.finish servers index choosen current)

/-- `(*RoundRobin).Next`. The loop increments `index` in every iteration that
does not leave it, so `len(servers) + 1` units of fuel cover every run (see
`RoundRobin.Next_isSome`). -/
def RoundRobin.Next (r : RoundRobin) (servers : List Node) : Option (Result × RoundRobin) :=
  RoundRobin.loop servers (servers.length + 1) 0 none r.current

/-- Consecutive calls of `RoundRobin.Next` on one strategy; `pools` lists the
pool as it is presented to each call (the replicas with their liveness at that
moment). Returns the results in call order and the final strategy. -/
def RoundRobin.run (r : RoundRobin) : List (List Node) → Option (List Result × RoundRobin)
  | [] => some ([], r)
  | servers :: rest =>
    match r.Next servers with
    | none => none
    | some (res, r') =>
      match RoundRobin.run r' rest with
      | none => none
      | some (results, r'') => some (res :: results, r'')

/-- The type `strategy.WeightedRoundRobin`: the counters `count` (nil until the
first call) and `cursor`. -/
structure WeightedRoundRobin where
  count : Option (List Int)
  cursor : Nat
deriving DecidableEq, Repr

/-- The code of `WeightedRoundRobin.Next` after its loop. -/
def WeightedRoundRobin.finish (servers : List Node) (index : Nat) (choosen : Option Node)
    (count : List Int) (cursor : Nat) : Result × WeightedRoundRobin :=
  match choosen with
  | none => (Result.err "no available servers", ⟨some count, cursor⟩)
  | some n =>
    if index = servers.length then (Result.err "no available servers", ⟨some count, cursor⟩)
    else (Result.ok n, ⟨some count, cursor⟩)

/-- The loop `for index < len(servers)` of `WeightedRoundRobin.Next`, one
iteration per unit of fuel, followed by the code after the loop. -/
def WeightedRoundRobin.loop (servers : List Node) :
    Nat → Nat → Option Node → List Int → Nat → Option (Result × WeightedRoundRobin)
  | 0, _, _, _, _ => none
  | fuel + 1, index, choosen, count, cursor =>
    if index < servers.length then
      match servers[cursor]? with
      | none => some (Result.panic, ⟨some count, cursor⟩)
      | some n =>
        let capacity := n.GetMetadataInt "weight" 1
        if !n.IsAlive then
          if cursor < count.length then
            WeightedRoundRobin.loop servers fuel (index + 1) (some n) (count.set cursor 0)
              ((cursor + 1) % servers.length)
          else some (Result.panic, ⟨some count, cursor⟩)
        else
          match count[cursor]? with
          | none => some (Result.panic, ⟨some count, cursor⟩)
          | some c =>
            if c ≤ capacity then
              some (Result.ok n, ⟨some (count.set cursor (wrapInt (c + 1))), cursor⟩)
            else
              WeightedRoundRobin.loop servers fuel index (some n) (count.set cursor 0)
                ((cursor + 1) % servers.length)
    else
      some (WeightedRoundRobin.finish servers index choosen count cursor)

/-- `(*WeightedRoundRobin).Next`, run for at most `fuel` loop tests: the lazy
allocation of `count`, then the loop. -/
def WeightedRoundRobin.Next (fuel : Nat) (w : WeightedRoundRobin) (servers : List Node) :
    Option (Result × WeightedRoundRobin) :=
  match w.count with
  | none => WeightedRoundRobin.loop servers fuel 0 none (List.replicate servers.length 0) 0
  | some count => WeightedRoundRobin.loop servers fuel 0 none count w.cursor

/-- Consecutive calls of `WeightedRoundRobin.Next` on one strategy, each with
`fuel` loop tests; `pools` lists the pool as it is presented to each call. -/
def WeightedRoundRobin.run (fuel : Nat) (w : WeightedRoundRobin) :
    List (List Node) → Option (List Result × WeightedRoundRobin)
  | [] => some ([], w)
  | servers :: rest =>
    match w.Next fuel servers with
    | none => none
    | some (res, w') =>
      match WeightedRoundRobin.run fuel w' rest with
      | none => none
      | some (results, w'') => some (res :: results, w'')

/-- The loop of `RoundRobin.Next` once more, counting in `steps` the candidates
it examines, that is, the executions of `choosen = servers[r.current]`. -/
def RoundRobin.scan (servers : List Node) :
    Nat → Nat → Option Node → Nat → Nat → Option (Result × RoundRobin × Nat)
  | 0, _, _, _, _ => none
  | fuel + 1, index, choosen, current, steps =>
    if index < servers.length then
      match servers[current]? with
      | none => some (Result.panic, ⟨current⟩, steps)
      | some n =>
        if n.IsAlive then
          some ((RoundRobin.finish servers index (some n) ((current + 1) % servers.length)).1,
            (RoundRobin.finish servers index (some n) ((current + 1) % servers.length)).2,
            steps + 1)
        else
          RoundRobin.scan servers fuel (index + 1) (some n) ((current + 1) % servers.length)
            (steps + 1)
    else
      some ((RoundRobin.finish servers index choosen current).1,
        (RoundRobin.finish servers index choosen current).2, steps)

/-- `(*RoundRobin).Next` together with the number of candidates it examined. -/
def RoundRobin.NextSteps (r : RoundRobin) (servers : List Node) :
    Option (Result × RoundRobin × Nat) :=
  RoundRobin.scan servers (servers.length + 1) 0 none r.current 0

/-- The loop of `WeightedRoundRobin.Next` once more, counting in `steps` the
candidates it examines, that is, the executions of `choosen = servers[w.cursor]`. -/
def WeightedRoundRobin.scan (servers : List Node) :
    Nat → Nat → Option Node → List Int → Nat → Nat → Option (Result × WeightedRoundRobin × Nat)
  | 0, _, _, _, _, _ => none
  | fuel + 1, index, choosen, count, cursor, steps =>
    if index < servers.length then
      match servers[cursor]? with
      | none => some (Result.panic, ⟨some count, cursor⟩, steps)
      | some n =>
        let capacity := n.GetMetadataInt "weight" 1
        if !n.IsAlive then
          if cursor < count.length then
            WeightedRoundRobin.scan servers fuel (index + 1) (some n) (count.set cursor 0)
              ((cursor + 1) % servers.length) (steps + 1)
          else some (Result.panic, ⟨some count, cursor⟩, steps + 1)
        else
          match count[cursor]? with
          | none => some (Result.panic, ⟨some count, cursor⟩, steps + 1)
          | some c =>
            if c ≤ capacity then
              some (Result.ok n, ⟨some (count.set cursor (wrapInt (c + 1))), cursor⟩, steps + 1)
            else
              WeightedRoundRobin.scan servers fuel index (some n) (count.set cursor 0)
                ((cursor + 1) % servers.length) (steps + 1)
    else
      some ((WeightedRoundRobin.finish servers index choosen count cursor).1,
        (WeightedRoundRobin.finish servers index choosen count cursor).2, steps)

/-- `(*WeightedRoundRobin).Next` together with the number of candidates it examined. -/
def WeightedRoundRobin.NextSteps (fuel : Nat) (w : WeightedRoundRobin) (servers : List Node) :
    Option (Result × WeightedRoundRobin × Nat) :=
  match w.count with
  | none => WeightedRoundRobin.scan servers fuel 0 none (List.replicate servers.length 0) 0 0
  | some count => WeightedRoundRobin.scan servers fuel 0 none count w.cursor 0

/-- The interface `BalancingStrategy` with its two implementations. -/
inductive BalancingStrategy where
  | roundRobin (r : RoundRobin)
  | weightedRoundRobin (w : WeightedRoundRobin)
deriving DecidableEq, Repr

/-- Dynamic dispatch of `Next` through the interface. -/
def BalancingStrategy.Next (fuel : Nat) : BalancingStrategy → List Node →
    Option (Result × BalancingStrategy)
  | BalancingStrategy.roundRobin r, servers =>
    (r.Next servers).map (fun p => (p.1, BalancingStrategy.roundRobin p.2))
  | BalancingStrategy.weightedRoundRobin w, servers =>
    (w.Next fuel servers).map (fun p => (p.1, BalancingStrategy.weightedRoundRobin p.2))

/-- The constant `sRoundRobin`. -/
def sRoundRobin : String := "RoundRobin"

/-- The constant `sWeightedRoundRobin`. -/
def sWeightedRoundRobin : String := "WeightedRoundRobin"

/-- The constant `sUnknown`. -/
def sUnknown : String := "Unknown"

/-- The package variable `strategies` as `init` leaves it: a factory under
`sRoundRobin` and one under `sWeightedRoundRobin`. A factory builds the object
that its `&T{...}` literal describes. -/
def strategies : List (String × (Unit → BalancingStrategy)) :=
  [ (sRoundRobin, fun _ => BalancingStrategy.roundRobin { current := 0 }),
    (sWeightedRoundRobin, fun _ => BalancingStrategy.weightedRoundRobin { count := none, cursor := 0 }) ]

/-- The strategy objects allocated so far; the address of an object is its position. -/
abbrev Heap := List BalancingStrategy

/-- Allocation by a `&T{...}` literal: the object goes to a new address. -/
def Heap.alloc (heap : Heap) (obj : BalancingStrategy) : Nat × Heap :=
  (heap.length, heap ++ [obj])

/-- `LoadStrategy`: the address of the object built by the factory stored under
`name`, or by the `sRoundRobin` factory when there is none; `none` is the panic
of calling a nil function. -/
def LoadStrategy (name : String) (heap : Heap) : Option (Nat × Heap) :=
  match strategies.lookup name with
  | none =>
    match strategies.lookup sRoundRobin with
    | none => none
    | some f => some (heap.alloc (f ()))
  | some s => some (heap.alloc (s ()))

/-! ## `cmd/server` -/

/-- The type `server.NodeList` without its health checker, which runs in the
background and reaches the pool only through `SetLiveness`. -/
structure NodeList where
  Nodes : List Node
  Name : String
  Strategy : BalancingStrategy
deriving DecidableEq, Repr

/-- The type `server.Server`: the field `NodeList`, a map from matcher to node
list, given as its entries in the order in which `range` yields them. -/
structure Server where
  NodeList : List (String × NodeList)
deriving DecidableEq, Repr

/-- The loop of `findServiceList` over the entries in iteration order. -/
def findServiceList.loop (reqPath : String) : List (String × NodeList) → Option NodeList
  | [] => none
  | (matcher, sl) :: rest =>
    if strings.HasPrefix reqPath matcher then some sl else findServiceList.loop reqPath rest

/-- `(*Server).findServiceList`: the first node list in iteration order whose
matcher is a beginning of `reqPath`, or the error. -/
def Server.findServiceList (s : Server) (reqPath : String) : Except String Golb.NodeList :=
  match findServiceList.loop reqPath s.NodeList with
  | some sl => Except.ok sl
  | none => Except.error ("could not find a matcher for url: '" ++ reqPath ++ "'")

/-- The write through the pointer that `findServiceList` returned: the strategy
of the first matching entry is replaced. -/
def Server.storeStrategy (reqPath : String) (st : BalancingStrategy) :
    List (String × Golb.NodeList) → List (String × Golb.NodeList)
  | [] => []
  | (matcher, sl) :: rest =>
    if strings.HasPrefix reqPath matcher then (matcher, { sl with Strategy := st }) :: rest
    else (matcher, sl) :: Server.storeStrategy reqPath st rest

/-- What `ServeHTTP` does with a request: write a status header, hand the
request to a replica, or panic. -/
inductive Response where
  | status (code : Nat)
  | forward (n : Node)
  | panic
deriving DecidableEq, Repr

/-- The constant `http.StatusNotFound`. -/
def StatusNotFound : Nat := 404

/-- The constant `http.StatusInternalServerError`. -/
def StatusInternalServerError : Nat := 500

/-- `(*Server).ServeHTTP` for a request with path `reqPath`; `fuel` bounds the
loop of the strategy. Returns the response and the server with the strategy
state after the call. -/
def Server.ServeHTTP (fuel : Nat) (s : Server) (reqPath : String) : Option (Response × Server) :=
  match s.findServiceList reqPath with
  | Except.error _ => some (Response.status StatusNotFound, s)
  | Except.ok sl =>
    match sl.Strategy.Next fuel sl.Nodes with
    | none => none
    | some (Result.err _, st) =>
      some (Response.status StatusInternalServerError, ⟨Server.storeStrategy reqPath st s.NodeList⟩)
    | some (Result.ok next, st) =>
      some (Response.forward next, ⟨Server.storeStrategy reqPath st s.NodeList⟩)
    | some (Result.panic, st) =>
      some (Response.panic, ⟨Server.storeStrategy reqPath st s.NodeList⟩)


/-! ## `internal/config`, `internal/health` and `NewServer` -/

/-- The type `config.Replica`. -/
structure config.Replica where
  Url : String
  Metadata : Option (List (String × String))
deriving DecidableEq, Repr

/-- The type `config.Service`. -/
structure config.Service where
  Name : String
  Matcher : String
  Strategy : String
  Replicas : List config.Replica
deriving DecidableEq, Repr

/-- The type `config.Config`. -/
structure config.Config where
  Port : Int
  Services : List config.Service
  Strategy : String
deriving DecidableEq, Repr

/-- `health.NewChecker`: an error for an empty node list, otherwise a checker
over these nodes. -/
def health.NewChecker (servers : List Node) : Except String (List Node) :=
  if servers.length = 0 then Except.error "A node list expected, gotten an empty list"
  else Except.ok servers

/-- The inner loop of `NewServer`: one node per replica, built by the literal
`&node.Node{Url, Proxy, Metadata}`, which leaves `alive` at its zero value
`false`. `urlParse` stands for `url.Parse` of the standard library; `none` is
the exit of `log.Fatalf` when it fails. -/
def NewServer.nodes (urlParse : String → Option String) : List config.Replica → Option (List Node)
  | [] => some []
  | replica :: rest =>
    match urlParse replica.Url with
    | none => none
    | some ur =>
      match NewServer.nodes urlParse rest with
      | none => none
      | some servers => some ({ Url := ur, Metadata := replica.Metadata, alive := false } :: servers)

/-- The map assignment `nodeMap[key] = value`. -/
def mapStore (key : String) (value : NodeList) : List (String × NodeList) → List (String × NodeList)
  | [] => [(key, value)]
  | (k, v) :: rest =>
    if k = key then (key, value) :: rest else (k, v) :: mapStore key value rest

/-- The outer loop of `NewServer` over the services; `none` is the exit of
`log.Fatalf`. The node list of a service holds the strategy object that
`LoadStrategy` allocated for it. -/
def NewServer.services (urlParse : String → Option String) :
    List config.Service → List (String × NodeList) → Heap → Option (List (String × NodeList) × Heap)
  | [], nodeMap, heap => some (nodeMap, heap)
  | service :: rest, nodeMap, heap =>
    match NewServer.nodes urlParse service.Replicas with
    | none => none
    | some servers =>
      match health.NewChecker servers with
      | Except.error _ => none
      | Except.ok _ =>
        match LoadStrategy service.Strategy heap with
        | none => none
        | some (addr, heap') =>
          match heap'[addr]? with
          | none => none
          | some strategy =>
            NewServer.services urlParse rest
              (mapStore service.Matcher
                { Nodes := servers, Name := service.Name, Strategy := strategy } nodeMap)
              heap'

/-- `NewServer`: the server over the map that the loop over the services
fills. The health checkers it starts run in the background and do nothing
before their first tick. -/
def NewServer (urlParse : String → Option String) (conf : config.Config) (heap : Heap) :
    Option (Server × Heap) :=
  match NewServer.services urlParse conf.Services [] heap with
  | none => none
  | some (nodeMap, heap') => some ({ NodeList := nodeMap }, heap')

/-! ## Auxiliary notions used in the statements -/

/-- Position in the pool of the `m`-th replica among those that are not at position `d`. -/
def skipIdx (d m : Nat) : Nat := if m < d then m else m + 1

/-- The cursor of a fresh `RoundRobin` before call `j` on a pool of `N` replicas
of which only the one at position `d` is dead. -/
def cursorSkipping (N d j : Nat) : Nat :=
  if j = 0 then 0 else (skipIdx d ((j - 1) % (N - 1)) + 1) % N

/-- Two pool values show the same replicas: they differ at most in liveness. -/
def SameReplicas (p q : List Node) : Prop :=
  p.map (fun n => (n.Url, n.Metadata)) = q.map (fun n => (n.Url, n.Metadata))

/-- The states of a `WeightedRoundRobin` that calls of `Next` on the replicas of
`servers`, with any liveness at each call, reach from a fresh strategy. -/
inductive WeightedRoundRobin.Reachable (servers : List Node) : WeightedRoundRobin → Prop where
  | fresh : WeightedRoundRobin.Reachable servers { count := none, cursor := 0 }
  | call (fuel : Nat) (w w' : WeightedRoundRobin) (pool : List Node) (res : Result) :
      WeightedRoundRobin.Reachable servers w → SameReplicas pool servers →
      w.Next fuel pool = some (res, w') → WeightedRoundRobin.Reachable servers w'

/-- Shape of the counters during a call on a pool of `N` replicas: one counter
per replica, the cursor in range, and every counter away from the cursor at 0. -/
def WeightedRoundRobin.Shape (N : Nat) (count : List Int) (cursor : Nat) : Prop :=
  count.length = N ∧ (N ≠ 0 → cursor < N) ∧ ∀ i c, i ≠ cursor → count[i]? = some c → c = 0

/-- Shape of a strategy between calls: counters not yet allocated, or of the shape above. -/
def WeightedRoundRobin.Inv (N : Nat) (w : WeightedRoundRobin) : Prop :=
  match w.count with
  | none => True
  | some count => WeightedRoundRobin.Shape N count w.cursor

/-- A strategy state from which `Next` on a pool of `N` replicas indexes in
range: a `RoundRobin` cursor below `N`, or a `WeightedRoundRobin` in shape. -/
def BalancingStrategy.Safe (N : Nat) : BalancingStrategy → Prop
  | BalancingStrategy.roundRobin r => N ≠ 0 → r.current < N
  | BalancingStrategy.weightedRoundRobin w => WeightedRoundRobin.Inv N w

/-- A node list whose strategy is ready to select: a `RoundRobin` cursor in
range, or a `WeightedRoundRobin` state reached from a fresh strategy by calls on
the replicas of the list, all of them of non-negative weight. -/
def NodeList.Ready (sl : NodeList) : Prop :=
  match sl.Strategy with
  | BalancingStrategy.roundRobin r => sl.Nodes ≠ [] → r.current < sl.Nodes.length
  | BalancingStrategy.weightedRoundRobin w =>
    WeightedRoundRobin.Reachable sl.Nodes w ∧
      ∀ n, n ∈ sl.Nodes → 0 ≤ n.GetMetadataInt "weight" 1

/-- The servers reached from `s0` by requests that returned, the registry being
ranged over in any iteration order at each request. Liveness is not written:
no probe has succeeded. -/
inductive Server.Served (s0 : Server) : Server → Prop where
  | start : Server.Served s0 s0
  | request (fuel : Nat) (s s1 s2 : Server) (reqPath : String) (resp : Response) :
      Server.Served s0 s → s1.NodeList.Perm s.NodeList →
      s1.ServeHTTP fuel reqPath = some (resp, s2) → Server.Served s0 s2

/-- The registry entry that `NewServer` makes of a service: its matcher as
key, its name, one dead node per replica with the parsed address and the
metadata of the replica, and the fresh strategy that `LoadStrategy` gives for
its strategy name. -/
def NewServer.Built (urlParse : String → Option String) (service : config.Service)
    (e : String × NodeList) : Prop :=
  e.1 = service.Matcher ∧ e.2.Name = service.Name ∧
  e.2.Nodes.map (fun n => (some n.Url, n.Metadata, n.alive))
    = service.Replicas.map (fun r => (urlParse r.Url, r.Metadata, false)) ∧
  e.2.Strategy = (if service.Strategy = "WeightedRoundRobin"
    then BalancingStrategy.weightedRoundRobin { count := none, cursor := 0 }
    else BalancingStrategy.roundRobin { current := 0 })

/-! ## Concrete pools -/

/-- Replica `R1` with weight 1, alive. -/
def R1 : Node := { Url := "http://r1:8081", Metadata := some [("weight", "1")], alive := true }

/-- Replica `R2` with weight 3, alive. -/
def R2 : Node := { Url := "http://r2:8082", Metadata := some [("weight", "3")], alive := true }

/-- Replica `R3` without metadata, alive. -/
def R3 : Node := { Url := "http://r3:8083", Metadata := none, alive := true }

/-- The pool `[(R1, weight 1), (R2, weight 3)]`, both replicas alive. -/
def poolR1R2 : List Node := [R1, R2]

/-- A pool of three alive replicas. -/
def poolAlive3 : List Node := [R1, R2, R3]

/-- A pool of three replicas, the middle one dead. -/
def poolMiddleDead : List Node := [R1, { R2 with alive := false }, R3]

/-- A pool of two alive replicas of weight 1, one explicitly and one by default. -/
def poolUnit : List Node := [R1, R3]

/-- A pool of one alive replica of weight 1. -/
def poolSingle : List Node := [R1]

/-- A pool of one alive replica whose weight is -1. -/
def poolNegative : List Node :=
  [{ Url := "http://r4:8084", Metadata := some [("weight", "-1")], alive := true }]

/-- A pool of one alive replica whose weight is the largest `int`. -/
def poolMaxWeight : List Node :=
  [{ Url := "http://r5:8085", Metadata := some [("weight", "9223372036854775807")], alive := true }]

/-- Node list of a service `api` over `R1`. -/
def listApi : NodeList :=
  { Nodes := [R1], Name := "api", Strategy := BalancingStrategy.roundRobin { current := 0 } }

/-- Node list of a service `api-v1` over `R2`. -/
def listApiV1 : NodeList :=
  { Nodes := [R2], Name := "api-v1", Strategy := BalancingStrategy.roundRobin { current := 0 } }

/-- A configuration with a `RoundRobin` service at `/api` and a
`WeightedRoundRobin` service at `/img`. -/
def sampleConfig : config.Config :=
  { Port := 8080,
    Services :=
      [ { Name := "api", Matcher := "/api", Strategy := "RoundRobin",
          Replicas := [{ Url := "http://r1:8081", Metadata := none },
                       { Url := "http://r2:8082", Metadata := none }] },
        { Name := "img", Matcher := "/img", Strategy := "WeightedRoundRobin",
          Replicas := [{ Url := "http://r3:8083", Metadata := some [("weight", "3")] }] } ],
    Strategy := "RoundRobin" }

/-- The server that `NewServer` builds from `sampleConfig`. -/
def sampleServer : Server :=
  { NodeList :=
      [ ("/api",
          { Nodes := [{ Url := "http://r1:8081", Metadata := none, alive := false },
                      { Url := "http://r2:8082", Metadata := none, alive := false }],
            Name := "api",
            Strategy := BalancingStrategy.roundRobin { current := 0 } }),
        ("/img",
          { Nodes := [{ Url := "http://r3:8083", Metadata := some [("weight", "3")],
                        alive := false }],
            Name := "img",
            Strategy := BalancingStrategy.weightedRoundRobin { count := none, cursor := 0 } }) ] }

/-- Node list of a `WeightedRoundRobin` service over the one alive replica of weight -1. -/
def listNegative : NodeList :=
  { Nodes := poolNegative, Name := "api",
    Strategy := BalancingStrategy.weightedRoundRobin { count := none, cursor := 0 } }

/-! ## Arithmetic of cursors -/

theorem succ_mod_add (c j N : Nat) : ((c + 1) % N + j) % N = (c + (j + 1)) % N := by
  rw [Nat.add_mod, Nat.mod_mod, ← Nat.add_mod]
  congr 1
  omega

theorem add_mod_reach (c i N : Nat) (hc : c < N) (hi : i < N) :
    (c + (i + N - c) % N) % N = i := by
  rw [Nat.add_mod, Nat.mod_mod, ← Nat.add_mod]
  have h : c + (i + N - c) = i + N := by omega
  rw [h, Nat.add_mod_right, Nat.mod_eq_of_lt hi]

/-! ## `RoundRobin.Next`: one call -/

/-- The loop of `RoundRobin.Next` ends within `len(servers) - index + 1` tests. -/
theorem RoundRobin.loop_isSome (servers : List Node) :
    ∀ (fuel index : Nat) (choosen : Option Node) (current : Nat),
      0 < fuel → servers.length < index + fuel →
      (RoundRobin.loop servers fuel index choosen current).isSome = true := by
  intro fuel
  induction fuel with
  | zero => intro index choosen current h0; omega
  | succ fuel ih =>
    intro index choosen current _ h
    unfold RoundRobin.loop
    split
    · split
      · rfl
      · split
        · rfl
        · exact ih _ _ _ (by omega) (by omega)
    · rfl

/-- Totality: `RoundRobin.Next` returns on every strategy state and every pool. -/
theorem RoundRobin.Next_isSome (r : RoundRobin) (servers : List Node) :
    (r.Next servers).isSome = true :=
  RoundRobin.loop_isSome servers _ _ _ _ (by omega) (by omega)

/-- The loop passes `k` dead candidates and returns the alive one after them. -/
theorem RoundRobin.loop_skip (servers : List Node) (k : Nat) :
    ∀ (fuel index : Nat) (choosen : Option Node) (current : Nat) (n : Node),
      current < servers.length → index + k < servers.length → k < fuel →
      (∀ j, j < k → ∀ m, servers[(current + j) % servers.length]? = some m → m.alive = false) →
      servers[(current + k) % servers.length]? = some n → n.alive = true →
      RoundRobin.loop servers fuel index choosen current
        = some (Result.ok n, ⟨(current + k + 1) % servers.length⟩) := by
  induction k with
  | zero =>
    intro fuel index choosen current n hc hi hf _ hn ha
    obtain ⟨fuel, rfl⟩ : ∃ f, fuel = f + 1 := ⟨fuel - 1, by omega⟩
    rw [Nat.add_zero, Nat.mod_eq_of_lt hc] at hn
    have hi' : index < servers.length := by omega
    have hne : index ≠ servers.length := by omega
    simp [RoundRobin.loop, hn, Node.IsAlive, ha, RoundRobin.finish, hi', hne]
  | succ k ih =>
    intro fuel index choosen current n hc hi hf hdead hn ha
    obtain ⟨fuel, rfl⟩ : ∃ f, fuel = f + 1 := ⟨fuel - 1, by omega⟩
    obtain ⟨m, hm⟩ : ∃ m, servers[current]? = some m :=
      ⟨servers[current], List.getElem?_eq_getElem hc⟩
    have hmd : m.alive = false :=
      hdead 0 (by omega) m (by simpa [Nat.mod_eq_of_lt hc] using hm)
    have hlt : (current + 1) % servers.length < servers.length := Nat.mod_lt _ (by omega)
    have hi' : index < servers.length := by omega
    have hrec := ih fuel (index + 1) (some m) ((current + 1) % servers.length) n hlt
      (by omega) (by omega)
      (fun j hj m' h' => hdead (j + 1) (by omega) m' (by rw [← succ_mod_add]; exact h'))
      (by rw [succ_mod_add]; exact hn) ha
    rw [Nat.add_assoc, succ_mod_add] at hrec
    simp only [RoundRobin.loop, hi', if_true, hm, Node.IsAlive, hmd]
    simpa using hrec

/-- The loop passes the `k` candidates that are left, all dead, and fails. -/
theorem RoundRobin.loop_dead (servers : List Node) (k : Nat) :
    ∀ (fuel index : Nat) (choosen : Option Node) (current : Nat),
      (servers ≠ [] → current < servers.length) → index + k = servers.length → k < fuel →
      (∀ j, j < k → ∀ m, servers[(current + j) % servers.length]? = some m → m.alive = false) →
      RoundRobin.loop servers fuel index choosen current
        = some (Result.err "no available servers", ⟨(current + k) % servers.length⟩) := by
  induction k with
  | zero =>
    intro fuel index choosen current hc hi hf _
    obtain ⟨fuel, rfl⟩ : ∃ f, fuel = f + 1 := ⟨fuel - 1, by omega⟩
    have hi' : ¬ index < servers.length := by omega
    have hcur : current % servers.length = current := by
      by_cases h0 : servers = []
      · simp [h0]
      · exact Nat.mod_eq_of_lt (hc h0)
    have hidx : index = servers.length := by omega
    cases choosen <;> simp [RoundRobin.loop, RoundRobin.finish, hcur, hidx]
  | succ k ih =>
    intro fuel index choosen current hc hi hf hdead
    obtain ⟨fuel, rfl⟩ : ∃ f, fuel = f + 1 := ⟨fuel - 1, by omega⟩
    have hne : servers ≠ [] := by
      intro h0
      simp [h0] at hi
    have hc' := hc hne
    obtain ⟨m, hm⟩ : ∃ m, servers[current]? = some m :=
      ⟨servers[current], List.getElem?_eq_getElem hc'⟩
    have hmd : m.alive = false :=
      hdead 0 (by omega) m (by simpa [Nat.mod_eq_of_lt hc'] using hm)
    have hlt : (current + 1) % servers.length < servers.length := Nat.mod_lt _ (by omega)
    have hi' : index < servers.length := by omega
    have hrec := ih fuel (index + 1) (some m) ((current + 1) % servers.length) (fun _ => hlt)
      (by omega) (by omega)
      (fun j hj m' h' => hdead (j + 1) (by omega) m' (by rw [← succ_mod_add]; exact h'))
    rw [succ_mod_add] at hrec
    simp only [RoundRobin.loop, hi', if_true, hm, Node.IsAlive, hmd]
    simpa using hrec

/-- From every in-range cursor, a pool with an alive replica has a first alive
candidate in scan order. -/
theorem exists_first_alive (servers : List Node) (c : Nat) (hc : c < servers.length)
    (h : ∃ n, n ∈ servers ∧ n.alive = true) :
    ∃ k n, k < servers.length ∧ servers[(c + k) % servers.length]? = some n ∧ n.alive = true ∧
      ∀ j, j < k → ∀ m, servers[(c + j) % servers.length]? = some m → m.alive = false := by
  classical
  obtain ⟨n, hn, ha⟩ := h
  obtain ⟨i, hi, hin⟩ := List.getElem_of_mem hn
  have hex : ∃ k, ∃ n, servers[(c + k) % servers.length]? = some n ∧ n.alive = true :=
    ⟨(i + servers.length - c) % servers.length, n, by
      rw [add_mod_reach c i _ hc hi, List.getElem?_eq_getElem hi, hin], ha⟩
  have hle : Nat.find hex ≤ (i + servers.length - c) % servers.length :=
    Nat.find_min' hex ⟨n, by
      rw [add_mod_reach c i _ hc hi, List.getElem?_eq_getElem hi, hin], ha⟩
  obtain ⟨n', hn', ha'⟩ := Nat.find_spec hex
  refine ⟨Nat.find hex, n', ?_, hn', ha', ?_⟩
  · exact lt_of_le_of_lt hle (Nat.mod_lt _ (by omega))
  · intro j hj m hm
    have := Nat.find_min hex hj
    by_contra hcon
    exact this ⟨m, hm, by simpa using hcon⟩

/-- One call of `RoundRobin.Next` from an in-range cursor on a pool with an
alive replica: the first alive candidate at offset `k`, cursor past it. -/
theorem RoundRobin.Next_alive (r : RoundRobin) (servers : List Node)
    (hc : r.current < servers.length) (h : ∃ n, n ∈ servers ∧ n.alive = true) :
    ∃ k n, k < servers.length ∧ servers[(r.current + k) % servers.length]? = some n ∧
      n.alive = true ∧
      (∀ j, j < k → ∀ m, servers[(r.current + j) % servers.length]? = some m → m.alive = false) ∧
      r.Next servers = some (Result.ok n, ⟨(r.current + k + 1) % servers.length⟩) := by
  obtain ⟨k, n, hk, hn, ha, hdead⟩ := exists_first_alive servers r.current hc h
  exact ⟨k, n, hk, hn, ha, hdead,
    RoundRobin.loop_skip servers k _ 0 none r.current n hc (by omega) (by omega) hdead hn ha⟩

/-- One call of `RoundRobin.Next` on a pool without an alive replica fails and
leaves the cursor where it was. -/
theorem RoundRobin.Next_dead (r : RoundRobin) (servers : List Node)
    (hc : servers ≠ [] → r.current < servers.length) (h : ∀ n, n ∈ servers → n.alive = false) :
    r.Next servers = some (Result.err "no available servers", r) := by
  have := RoundRobin.loop_dead servers servers.length (servers.length + 1) 0 none r.current hc
    (by omega) (by omega) (fun j _ m hm => h m (List.getElem?_mem hm))
  rw [RoundRobin.Next, this]
  have hcur : (r.current + servers.length) % servers.length = r.current := by
    by_cases h0 : servers = []
    · simp [h0]
    · rw [Nat.add_mod_right, Nat.mod_eq_of_lt (hc h0)]
  rw [hcur]

/-! ## `RoundRobin.Next`: consecutive calls -/

/-- Consecutive calls on an unchanged pool follow any trace of single calls:
if call `j` starts at cursor `cur j`, returns `f j` and leaves `cur (j + 1)`,
then `k` calls from `cur s` return `f s, ..., f (s + k - 1)`. -/
theorem RoundRobin.run_trace (servers : List Node) (cur : Nat → Nat) (f : Nat → Node)
    (h : ∀ j, RoundRobin.Next ⟨cur j⟩ servers = some (Result.ok (f j), ⟨cur (j + 1)⟩)) :
    ∀ k s, RoundRobin.run ⟨cur s⟩ (List.replicate k servers)
      = some ((List.range k).map (fun j => Result.ok (f (s + j))), ⟨cur (s + k)⟩) := by
  intro k
  induction k with
  | zero => intro s; simp [RoundRobin.run]
  | succ k ih =>
    intro s
    have hs : s + 1 + k = s + (k + 1) := by omega
    simp only [List.replicate_succ, RoundRobin.run, h s, ih (s + 1), hs]
    rw [List.range_succ_eq_map, List.map_cons, List.map_map]
    simp only [Nat.add_zero, Option.some.injEq, Prod.mk.injEq, List.cons.injEq, true_and, and_true]
    apply List.map_congr_left
    intro j _
    simp only [Function.comp, Nat.succ_eq_add_one]
    congr 2
    omega

/-- C1. On a pool of `N ≥ 1` replicas that are all alive and stay alive, the
calls of `RoundRobin.Next` on a fresh strategy (cursor 0) all succeed and call
number `k` (counting from 0) returns `pool[k mod N]`, leaving the cursor at
`(k + 1) mod N`. In particular the first `N` calls return the pool itself, in
pool order, and the call after them returns `pool[0]` again. -/
theorem RoundRobin.all_alive_cycle (servers : List Node) (hN : 0 < servers.length)
    (halive : ∀ n, n ∈ servers → n.alive = true) :
    (∀ k, RoundRobin.run ⟨0⟩ (List.replicate k servers)
      = some ((List.range k).map
          (fun j => Result.ok (servers.get ⟨j % servers.length, Nat.mod_lt j hN⟩)),
        ⟨k % servers.length⟩)) ∧
    RoundRobin.run ⟨0⟩ (List.replicate servers.length servers)
      = some (servers.map Result.ok, ⟨0⟩) ∧
    RoundRobin.run ⟨0⟩ (List.replicate (servers.length + 1) servers)
      = some (servers.map Result.ok ++ [Result.ok (servers.get ⟨0, hN⟩)], ⟨1 % servers.length⟩) := by
  have step : ∀ j, RoundRobin.Next ⟨j % servers.length⟩ servers
      = some (Result.ok (servers.get ⟨j % servers.length, Nat.mod_lt j hN⟩),
        ⟨(j + 1) % servers.length⟩) := by
    intro j
    have hlt := Nat.mod_lt j hN
    have hget : servers[(j % servers.length + 0) % servers.length]?
        = some (servers.get ⟨j % servers.length, hlt⟩) := by
      rw [Nat.add_zero, Nat.mod_mod, List.getElem?_eq_getElem hlt]
      rfl
    have := RoundRobin.loop_skip servers 0 (servers.length + 1) 0 none (j % servers.length) _
      hlt (by omega) (by omega) (fun i hi => absurd hi (Nat.not_lt_zero i)) hget
      (halive _ (List.get_mem _ _ _))
    rw [RoundRobin.Next, this, Nat.add_zero, Nat.mod_add_mod]
  have all : ∀ k, RoundRobin.run ⟨0⟩ (List.replicate k servers)
      = some ((List.range k).map
          (fun j => Result.ok (servers.get ⟨j % servers.length, Nat.mod_lt j hN⟩)),
        ⟨k % servers.length⟩) := by
    intro k
    have := RoundRobin.run_trace servers (fun j => j % servers.length)
      (fun j => servers.get ⟨j % servers.length, Nat.mod_lt j hN⟩) step k 0
    simpa using this
  have first : (List.range servers.length).map
      (fun j => Result.ok (servers.get ⟨j % servers.length, Nat.mod_lt j hN⟩))
        = servers.map Result.ok := by
    apply List.ext_getElem
    · simp
    · intro i h1 h2
      have hi : i < servers.length := by simpa using h2
      simp [Nat.mod_eq_of_lt hi]
  refine ⟨all, ?_, ?_⟩
  · rw [all, first, Nat.mod_self]
  · rw [all, List.range_succ, List.map_append, first]
    simp [Nat.mod_self]


/-- All calls fail on pools of one length whose replicas are all dead, and the cursor stays. -/
theorem RoundRobin.run_dead (N : Nat) (pools : List (List Node)) :
    ∀ r : RoundRobin, (N ≠ 0 → r.current < N) →
      (∀ p, p ∈ pools → p.length = N ∧ ∀ n, n ∈ p → n.alive = false) →
      r.run pools = some (List.replicate pools.length (Result.err "no available servers"), r) := by
  induction pools with
  | nil => intro r _ _; simp [RoundRobin.run]
  | cons p rest ih =>
    intro r hc h
    obtain ⟨hlen, hdead⟩ := h p (List.mem_cons_self _ _)
    have hstep := RoundRobin.Next_dead r p
      (fun hne => by rw [hlen]; exact hc (by rw [← hlen]; simpa using hne)) hdead
    have hrest := ih r hc (fun q hq => h q (List.mem_cons_of_mem _ hq))
    simp [RoundRobin.run, hstep, hrest, List.replicate_succ]

/-- C2. For every pool (the empty one included) and every in-range cursor,
`RoundRobin.Next` returns, and it returns the error "no available servers"
exactly when no replica of the pool is alive; a replica it returns is a member
of the pool and alive; it never panics and leaves the cursor in range. When all
replicas are dead, every call of every sequence of calls fails. -/
theorem RoundRobin.Next_fails_iff (r : RoundRobin) (servers : List Node)
    (hc : servers ≠ [] → r.current < servers.length) :
    (∃ res r', r.Next servers = some (res, r') ∧
      (res = Result.err "no available servers" ↔ ∀ n, n ∈ servers → n.alive = false) ∧
      ((∃ msg, res = Result.err msg) ↔ ∀ n, n ∈ servers → n.alive = false) ∧
      (∀ n, res = Result.ok n → n ∈ servers ∧ n.alive = true) ∧
      res ≠ Result.panic ∧
      (servers ≠ [] → r'.current < servers.length)) ∧
    ((∀ n, n ∈ servers → n.alive = false) →
      ∀ pools : List (List Node),
        (∀ p, p ∈ pools → p.length = servers.length ∧ ∀ n, n ∈ p → n.alive = false) →
        r.run pools
          = some (List.replicate pools.length (Result.err "no available servers"), r)) := by
  constructor
  · by_cases hall : ∀ n, n ∈ servers → n.alive = false
    · refine ⟨_, _, RoundRobin.Next_dead r servers hc hall, ?_, ?_, ?_, ?_, hc⟩
      · exact ⟨fun _ => hall, fun _ => rfl⟩
      · exact ⟨fun _ => hall, fun _ => ⟨_, rfl⟩⟩
      · intro n hn; cases hn
      · intro h; cases h
    · have hex : ∃ n, n ∈ servers ∧ n.alive = true := by
        by_contra hno
        apply hall
        intro n hn
        by_contra hna
        exact hno ⟨n, hn, by simpa using hna⟩
      have hne : servers ≠ [] := by
        obtain ⟨n, hn, _⟩ := hex
        exact List.ne_nil_of_mem hn
      obtain ⟨k, n, hk, hn, ha, _, hnext⟩ := RoundRobin.Next_alive r servers (hc hne) hex
      refine ⟨_, _, hnext, ?_, ?_, ?_, ?_, ?_⟩
      · constructor
        · intro h; cases h
        · intro h; exact absurd h hall
      · constructor
        · rintro ⟨msg, h⟩; cases h
        · intro h; exact absurd h hall
      · intro n' h'
        cases h'
        exact ⟨List.getElem?_mem hn, ha⟩
      · intro h; cases h
      · intro _
        exact Nat.mod_lt _ (by omega)
  · intro hall pools hp
    exact RoundRobin.run_dead servers.length pools r
      (fun h0 => hc (by intro h; apply h0; simp [h])) hp


/-! ## `RoundRobin.Next`: one dead replica -/

theorem mod_succ_cases (a M : Nat) (hM : 0 < M) :
    (a + 1) % M = if a % M + 1 = M then 0 else a % M + 1 := by
  have hlt := Nat.mod_lt a hM
  rw [Nat.add_mod]
  split
  · next h =>
    by_cases h1 : M = 1
    · subst h1; simp [Nat.mod_one]
    · rw [Nat.mod_eq_of_lt (a := 1) (by omega), h, Nat.mod_self]
  · next h =>
    by_cases h1 : M = 1
    · subst h1; omega
    · rw [Nat.mod_eq_of_lt (a := 1) (by omega), Nat.mod_eq_of_lt (by omega)]

theorem succ_mod_cases (x N : Nat) (hx : x < N) :
    (x + 1) % N = if x + 1 = N then 0 else x + 1 := by
  have := mod_succ_cases x N (by omega)
  rwa [Nat.mod_eq_of_lt hx] at this

/-- The cursor before a call is either the position of the replica that the
call is to return, or the dead position right before it. -/
theorem cursorSkipping_cases (N d j : Nat) (hN : 2 ≤ N) (hd : d < N) :
    cursorSkipping N d j = skipIdx d (j % (N - 1)) ∨
      (cursorSkipping N d j = d ∧ skipIdx d (j % (N - 1)) = (d + 1) % N) := by
  have hd1 := succ_mod_cases d N hd
  cases j with
  | zero =>
    simp only [cursorSkipping, skipIdx, Nat.zero_mod, if_true]
    rw [hd1]
    split_ifs <;> omega
  | succ j =>
    have hm := Nat.mod_lt j (show 0 < N - 1 by omega)
    have h1 := mod_succ_cases j (N - 1) (by omega)
    have hsk : skipIdx d (j % (N - 1)) < N := by
      unfold skipIdx; split_ifs <;> omega
    have h2 := succ_mod_cases _ N hsk
    simp only [cursorSkipping, Nat.add_sub_cancel, Nat.succ_ne_zero, if_false]
    rw [h1, h2, hd1]
    generalize j % (N - 1) = m at *
    unfold skipIdx
    split_ifs <;> omega

theorem skipIdx_lt (N d m : Nat) (hm : m < N - 1) : skipIdx d m < N := by
  unfold skipIdx; split_ifs <;> omega

theorem skipIdx_ne (d m : Nat) : skipIdx d m ≠ d := by
  unfold skipIdx; split_ifs <;> omega

/-- The `m`-th element of the pool without position `d` sits at position `skipIdx d m`. -/
theorem getElem?_skipIdx (servers : List Node) (d m : Nat) (h : m < (servers.eraseIdx d).length) :
    servers[skipIdx d m]? = some ((servers.eraseIdx d).get ⟨m, h⟩) := by
  have := List.getElem?_eraseIdx servers d m
  rw [List.getElem?_eq_getElem h] at this
  unfold skipIdx
  split_ifs at this ⊢ <;> exact this.symm

/-- C3. On a pool of `N ≥ 2` replicas of which exactly the one at position `d`
is dead, with liveness unchanged, the calls of `RoundRobin.Next` on a fresh
strategy all succeed, and call number `j` (counting from 0) returns element
`j mod (N - 1)` of the pool without position `d`, that is, the alive replicas
cyclically in pool order. No call returns `pool[d]`, and every window of `N - 1`
consecutive calls returns a rotation of the alive replicas, each exactly once. -/
theorem RoundRobin.one_dead_cycle (servers : List Node) (d : Nat)
    (hN : 2 ≤ servers.length) (hd : d < servers.length)
    (hdead : ∀ n, servers[d]? = some n → n.alive = false)
    (halive : ∀ i n, i ≠ d → servers[i]? = some n → n.alive = true) (k : Nat) :
    ∃ (hpos : 0 < (servers.eraseIdx d).length) (results : List Result) (r' : RoundRobin),
      RoundRobin.run ⟨0⟩ (List.replicate k servers) = some (results, r') ∧
      results = (List.range k).map (fun j => Result.ok
        ((servers.eraseIdx d).get ⟨j % (servers.eraseIdx d).length, Nat.mod_lt j hpos⟩)) ∧
      (∀ res, res ∈ results → ∃ n, res = Result.ok n ∧ n.alive = true ∧ servers[d]? ≠ some n) ∧
      (∀ s, s + (servers.length - 1) ≤ k →
        (results.drop s).take (servers.length - 1)
          = ((servers.eraseIdx d).rotate s).map Result.ok) := by
  have hM : servers.length - 1 = (servers.eraseIdx d).length := (List.length_eraseIdx_of_lt hd).symm
  have hpos : 0 < (servers.eraseIdx d).length := by omega
  have hf : ∀ j, servers[skipIdx d (j % (servers.length - 1))]?
      = some ((servers.eraseIdx d).get ⟨j % (servers.eraseIdx d).length, Nat.mod_lt j hpos⟩) := by
    intro j
    rw [hM]
    exact getElem?_skipIdx servers d _ (Nat.mod_lt j hpos)
  have hfa : ∀ j, ((servers.eraseIdx d).get
      ⟨j % (servers.eraseIdx d).length, Nat.mod_lt j hpos⟩).alive = true :=
    fun j => halive _ _ (skipIdx_ne d _) (hf j)
  have step : ∀ j, RoundRobin.Next ⟨cursorSkipping servers.length d j⟩ servers
      = some (Result.ok ((servers.eraseIdx d).get
          ⟨j % (servers.eraseIdx d).length, Nat.mod_lt j hpos⟩),
        ⟨cursorSkipping servers.length d (j + 1)⟩) := by
    intro j
    have hnext : cursorSkipping servers.length d (j + 1)
        = (skipIdx d (j % (servers.length - 1)) + 1) % servers.length := by
      simp [cursorSkipping]
    have hsk := skipIdx_lt servers.length d (j % (servers.length - 1))
      (Nat.mod_lt j (by omega))
    rcases cursorSkipping_cases servers.length d j hN hd with hA | ⟨hB, hB'⟩
    · have := RoundRobin.loop_skip servers 0 (servers.length + 1) 0 none
        (cursorSkipping servers.length d j) _ (by rw [hA]; exact hsk) (by omega) (by omega)
        (fun i hi => absurd hi (Nat.not_lt_zero i))
        (by rw [Nat.add_zero, hA, Nat.mod_eq_of_lt hsk]; exact hf j) (hfa j)
      rw [RoundRobin.Next, this, hnext, hA]
    · have := RoundRobin.loop_skip servers 1 (servers.length + 1) 0 none
        (cursorSkipping servers.length d j) _ (by rw [hB]; exact hd) (by omega) (by omega)
        (fun i hi m hm => by
          have hi0 : i = 0 := by omega
          subst hi0
          rw [Nat.add_zero, hB, Nat.mod_eq_of_lt hd] at hm
          exact hdead m hm)
        (by rw [hB, ← hB']; exact hf j) (hfa j)
      rw [RoundRobin.Next, this, hnext, hB, hB', Nat.add_assoc, ← succ_mod_add]
  have all := RoundRobin.run_trace servers (cursorSkipping servers.length d)
    (fun j => (servers.eraseIdx d).get ⟨j % (servers.eraseIdx d).length, Nat.mod_lt j hpos⟩)
    step k 0
  simp only [Nat.zero_add] at all
  refine ⟨hpos, _, _, all, rfl, ?_, ?_⟩
  · intro res hres
    obtain ⟨j, _, rfl⟩ := List.mem_map.mp hres
    refine ⟨_, rfl, hfa j, ?_⟩
    intro hcon
    have := hdead _ hcon
    rw [hfa j] at this
    cases this
  · intro s hs
    apply List.ext_getElem
    · simp only [List.length_take, List.length_drop, List.length_map, List.length_range,
        List.length_rotate]
      omega
    · intro t h1 h2
      have ht : t < (servers.eraseIdx d).length := by
        simpa [List.length_rotate] using h2
      simp only [List.getElem_take, List.getElem_drop, List.getElem_map, List.getElem_range,
        List.getElem_rotate, List.get_eq_getElem]
      congr 2
      rw [Nat.add_comm]


/-! ## `WeightedRoundRobin.Next`: one call -/

/-- Resetting the counter at the cursor leaves all counters at 0 when the others were. -/
theorem set_zero_allZero (count : List Int) (cursor : Nat)
    (h : ∀ (i : Nat) (c : Int), i ≠ cursor → count[i]? = some c → c = 0) :
    ∀ (i : Nat) (c : Int), (count.set cursor 0)[i]? = some c → c = 0 := by
  intro i c hic
  by_cases hi : cursor = i
  · subst hi
    by_cases hl : cursor < count.length
    · rw [List.getElem?_set_self hl] at hic
      exact (Option.some.inj hic).symm
    · rw [List.getElem?_eq_none (by simpa using hl)] at hic
      cases hic
  · rw [List.getElem?_set_ne hi] at hic
    exact h i c (fun h' => hi h'.symm) hic

/-- With all counters at 0 and non-negative weights, the loop returns the first
alive candidate, or fails after passing the `k` candidates left, all dead. -/
theorem WeightedRoundRobin.loop_zero (servers : List Node)
    (hw : ∀ n, n ∈ servers → 0 ≤ n.GetMetadataInt "weight" 1) (k : Nat) :
    ∀ (fuel index : Nat) (choosen : Option Node) (count : List Int) (cursor : Nat),
      index + k = servers.length → k < fuel → count.length = servers.length →
      (∀ (i : Nat) (c : Int), count[i]? = some c → c = 0) → (servers ≠ [] → cursor < servers.length) →
      ∃ res w', WeightedRoundRobin.loop servers fuel index choosen count cursor = some (res, w') ∧
        ((∃ n, res = Result.ok n ∧ n ∈ servers ∧ n.alive = true) ∨
         (res = Result.err "no available servers" ∧
           ∀ j, j < k → ∀ m, servers[(cursor + j) % servers.length]? = some m → m.alive = false)) := by
  induction k with
  | zero =>
    intro fuel index choosen count cursor hi hf _ _ _
    obtain ⟨fuel, rfl⟩ : ∃ f, fuel = f + 1 := ⟨fuel - 1, by omega⟩
    have hi' : ¬ index < servers.length := by omega
    have hidx : index = servers.length := by omega
    refine ⟨Result.err "no available servers", ⟨some count, cursor⟩, ?_, Or.inr ⟨rfl, ?_⟩⟩
    · cases choosen <;> simp [WeightedRoundRobin.loop, WeightedRoundRobin.finish, hidx]
    · intro j hj; omega
  | succ k ih =>
    intro fuel index choosen count cursor hi hf hlen hzero hc
    obtain ⟨fuel, rfl⟩ : ∃ f, fuel = f + 1 := ⟨fuel - 1, by omega⟩
    have hne : servers ≠ [] := by
      intro h0
      simp [h0] at hi
    have hc' := hc hne
    obtain ⟨m, hm⟩ : ∃ m, servers[cursor]? = some m :=
      ⟨servers[cursor], List.getElem?_eq_getElem hc'⟩
    have hmem : m ∈ servers := List.getElem?_mem hm
    have hi' : index < servers.length := by omega
    have hcl : cursor < count.length := by omega
    by_cases ha : m.alive = true
    · obtain ⟨c, hcnt⟩ : ∃ c, count[cursor]? = some c :=
        ⟨count[cursor], List.getElem?_eq_getElem hcl⟩
      have hc0 : c = 0 := hzero _ _ hcnt
      subst hc0
      refine ⟨Result.ok m, ⟨some (count.set cursor (wrapInt (0 + 1))), cursor⟩, ?_,
        Or.inl ⟨m, rfl, hmem, ha⟩⟩
      simp [WeightedRoundRobin.loop, hi', hm, Node.IsAlive, ha, hcnt, hw m hmem]
    · have hmd : m.alive = false := by simpa using ha
      have hlt : (cursor + 1) % servers.length < servers.length := Nat.mod_lt _ (by omega)
      obtain ⟨res, w', hloop, hres⟩ := ih fuel (index + 1) (some m) (count.set cursor 0)
        ((cursor + 1) % servers.length) (by omega) (by omega) (by simpa using hlen)
        (set_zero_allZero count cursor (fun i c _ h => hzero i c h))
        (fun _ => hlt)
      refine ⟨res, w', ?_, ?_⟩
      · simp [WeightedRoundRobin.loop, hi', hm, Node.IsAlive, hmd, hcl, hloop]
      · rcases hres with hok | ⟨herr, hdead⟩
        · exact Or.inl hok
        · refine Or.inr ⟨herr, ?_⟩
          intro j hj m' hm'
          cases j with
          | zero =>
            rw [Nat.add_zero, Nat.mod_eq_of_lt hc', hm] at hm'
            cases hm'
            exact hmd
          | succ j =>
            exact hdead j (by omega) m' (by rw [succ_mod_add]; exact hm')

/-- The scan positions `cursor, cursor + 1, ...` (mod `N`) reach every replica within `N` steps. -/
theorem dead_of_scan (servers : List Node) (c : Nat) (hc : c < servers.length)
    (h : ∀ j, j < servers.length → ∀ m, servers[(c + j) % servers.length]? = some m →
      m.alive = false) :
    ∀ n, n ∈ servers → n.alive = false := by
  intro n hn
  obtain ⟨i, hi, hin⟩ := List.getElem_of_mem hn
  exact h ((i + servers.length - c) % servers.length) (Nat.mod_lt _ (by omega)) n
    (by rw [add_mod_reach c i _ hc hi, List.getElem?_eq_getElem hi, hin])

/-- Resetting the counter at the cursor and advancing the cursor keeps the shape. -/
theorem WeightedRoundRobin.Shape.advance {N : Nat} {count : List Int} {cursor : Nat}
    (h : WeightedRoundRobin.Shape N count cursor) (hN : 0 < N) :
    WeightedRoundRobin.Shape N (count.set cursor 0) ((cursor + 1) % N) := by
  obtain ⟨hlen, _, hz⟩ := h
  refine ⟨by simpa using hlen, fun _ => Nat.mod_lt _ hN, ?_⟩
  intro i c _ hic
  exact set_zero_allZero count cursor hz i c hic

/-- A call that returns leaves the counters in shape and does not panic. -/
theorem WeightedRoundRobin.loop_shape (servers : List Node) :
    ∀ (fuel index : Nat) (choosen : Option Node) (count : List Int) (cursor : Nat)
      (res : Result) (w' : WeightedRoundRobin),
      WeightedRoundRobin.Shape servers.length count cursor →
      WeightedRoundRobin.loop servers fuel index choosen count cursor = some (res, w') →
      WeightedRoundRobin.Inv servers.length w' ∧ res ≠ Result.panic := by
  intro fuel
  induction fuel with
  | zero => intro index choosen count cursor res w' _ h; simp [WeightedRoundRobin.loop] at h
  | succ fuel ih =>
    intro index choosen count cursor res w' hs h
    by_cases hi : index < servers.length
    · have hN : 0 < servers.length := by omega
      have hc : cursor < servers.length := hs.2.1 (by omega)
      have hcl : cursor < count.length := by rw [hs.1]; exact hc
      obtain ⟨m, hm⟩ : ∃ m, servers[cursor]? = some m :=
        ⟨servers[cursor], List.getElem?_eq_getElem hc⟩
      obtain ⟨c, hcnt⟩ : ∃ c, count[cursor]? = some c :=
        ⟨count[cursor], List.getElem?_eq_getElem hcl⟩
      by_cases ha : m.alive = true
      · by_cases hcap : c ≤ m.GetMetadataInt "weight" 1
        · simp [WeightedRoundRobin.loop, hi, hm, Node.IsAlive, ha, hcnt, hcap] at h
          obtain ⟨rfl, rfl⟩ := h
          refine ⟨⟨by simpa using hs.1, hs.2.1, ?_⟩, by simp⟩
          intro i c' hic hget
          rw [List.getElem?_set_ne (fun h' => hic h'.symm)] at hget
          exact hs.2.2 i c' hic hget
        · simp [WeightedRoundRobin.loop, hi, hm, Node.IsAlive, ha, hcnt, hcap] at h
          exact ih _ _ _ _ _ _ (hs.advance hN) h
      · have hmd : m.alive = false := by simpa using ha
        simp [WeightedRoundRobin.loop, hi, hm, Node.IsAlive, hmd, hcl] at h
        exact ih _ _ _ _ _ _ (hs.advance hN) h
    · simp only [WeightedRoundRobin.loop, hi, if_false, Option.some.injEq] at h
      unfold WeightedRoundRobin.finish at h
      split at h
      · cases h; exact ⟨hs, by simp⟩
      · split at h <;> (cases h; exact ⟨hs, by simp⟩)

/-- The shape before the loop of `Next`, for a strategy in shape. -/
theorem WeightedRoundRobin.Next_shape (N : Nat) (w : WeightedRoundRobin) (servers : List Node)
    (fuel : Nat) (res : Result) (w' : WeightedRoundRobin) (hlen : servers.length = N)
    (hinv : WeightedRoundRobin.Inv N w) (h : w.Next fuel servers = some (res, w')) :
    WeightedRoundRobin.Inv N w' ∧ res ≠ Result.panic := by
  subst hlen
  unfold WeightedRoundRobin.Next at h
  unfold WeightedRoundRobin.Inv at hinv
  split at h
  · refine WeightedRoundRobin.loop_shape servers _ _ _ _ _ _ _ ⟨by simp, fun h0 => by omega, ?_⟩ h
    intro i c _ hic
    rw [List.getElem?_replicate] at hic
    split at hic
    · exact (Option.some.inj hic).symm
    · cases hic
  · next count hcount =>
    rw [hcount] at hinv
    exact WeightedRoundRobin.loop_shape servers _ _ _ _ _ _ _ hinv h

theorem SameReplicas.length_eq {p q : List Node} (h : SameReplicas p q) : p.length = q.length := by
  have := congrArg List.length h
  simpa using this

/-- Every reachable strategy is in shape. -/
theorem WeightedRoundRobin.Reachable.inv {servers : List Node} {w : WeightedRoundRobin}
    (h : WeightedRoundRobin.Reachable servers w) : WeightedRoundRobin.Inv servers.length w := by
  induction h with
  | fresh => simp [WeightedRoundRobin.Inv]
  | call fuel w w' pool res _ hsame hnext ih =>
    exact (WeightedRoundRobin.Next_shape _ w pool fuel res w' hsame.length_eq ih hnext).1

/-- One call of `WeightedRoundRobin.Next` on a strategy in shape, with
non-negative weights and `len(servers) + 2` loop tests: it returns an alive
member of the pool, or it fails and every replica is dead. -/
theorem WeightedRoundRobin.Next_cases (servers : List Node) (w : WeightedRoundRobin) (fuel : Nat)
    (hw : ∀ n, n ∈ servers → 0 ≤ n.GetMetadataInt "weight" 1)
    (hinv : WeightedRoundRobin.Inv servers.length w) (hfuel : servers.length + 2 ≤ fuel) :
    ∃ res w', w.Next fuel servers = some (res, w') ∧
      ((∃ n, res = Result.ok n ∧ n ∈ servers ∧ n.alive = true) ∨
       (res = Result.err "no available servers" ∧ ∀ n, n ∈ servers → n.alive = false)) := by
  have hzrep : ∀ (i : Nat) (c : Int), (List.replicate servers.length (0 : Int))[i]? = some c → c = 0 := by
    intro i c hic
    rw [List.getElem?_replicate] at hic
    split at hic
    · exact (Option.some.inj hic).symm
    · cases hic
  have all_dead_nil : servers = [] → ∀ n, n ∈ servers → n.alive = false := by
    intro h0 n hn
    rw [h0] at hn
    cases hn
  unfold WeightedRoundRobin.Next
  unfold WeightedRoundRobin.Inv at hinv
  split
  · obtain ⟨res, w', hloop, hres⟩ := WeightedRoundRobin.loop_zero servers hw servers.length fuel 0
      none (List.replicate servers.length 0) 0 (by omega) (by omega) (by simp) hzrep
      (fun hne => List.length_pos.mpr hne)
    refine ⟨res, w', hloop, ?_⟩
    rcases hres with hok | ⟨herr, hdead⟩
    · exact Or.inl hok
    · refine Or.inr ⟨herr, ?_⟩
      by_cases h0 : servers = []
      · exact all_dead_nil h0
      · exact dead_of_scan servers 0 (List.length_pos.mpr h0) hdead
  · next count hcount =>
    rw [hcount] at hinv
    obtain ⟨hlen, hcur, hz⟩ := hinv
    by_cases h0 : servers = []
    · have hcz : ∀ (i : Nat) (c : Int), count[i]? = some c → c = 0 := by
        intro i c hic
        have : count = [] := List.length_eq_zero.mp (by rw [hlen, h0]; rfl)
        rw [this] at hic
        cases hic
      obtain ⟨res, w', hloop, hres⟩ := WeightedRoundRobin.loop_zero servers hw servers.length
        fuel 0 none count w.cursor (by omega) (by omega) hlen hcz (fun hne => absurd h0 hne)
      refine ⟨res, w', hloop, ?_⟩
      rcases hres with hok | ⟨herr, _⟩
      · exact Or.inl hok
      · exact Or.inr ⟨herr, all_dead_nil h0⟩
    · have hN : 0 < servers.length := List.length_pos.mpr h0
      have hc : w.cursor < servers.length := hcur (by omega)
      have hcl : w.cursor < count.length := by rw [hlen]; exact hc
      obtain ⟨fuel, rfl⟩ : ∃ f, fuel = f + 1 := ⟨fuel - 1, by omega⟩
      obtain ⟨m, hm⟩ : ∃ m, servers[w.cursor]? = some m :=
        ⟨servers[w.cursor], List.getElem?_eq_getElem hc⟩
      obtain ⟨c, hcnt⟩ : ∃ c, count[w.cursor]? = some c :=
        ⟨count[w.cursor], List.getElem?_eq_getElem hcl⟩
      have hmem : m ∈ servers := List.getElem?_mem hm
      have hlt : (w.cursor + 1) % servers.length < servers.length := Nat.mod_lt _ hN
      have hzs := set_zero_allZero count w.cursor hz
      by_cases ha : m.alive = true
      · by_cases hcap : c ≤ m.GetMetadataInt "weight" 1
        · exact ⟨Result.ok m, ⟨some (count.set w.cursor (wrapInt (c + 1))), w.cursor⟩,
            by simp [WeightedRoundRobin.loop, hN, hm, Node.IsAlive, ha, hcnt, hcap],
            Or.inl ⟨m, rfl, hmem, ha⟩⟩
        · obtain ⟨res, w', hloop, hres⟩ := WeightedRoundRobin.loop_zero servers hw servers.length
            fuel 0 (some m) (count.set w.cursor 0) ((w.cursor + 1) % servers.length)
            (by omega) (by omega) (by simpa using hlen) hzs (fun _ => hlt)
          refine ⟨res, w', by
            simp [WeightedRoundRobin.loop, hN, hm, Node.IsAlive, ha, hcnt, hcap, hloop], ?_⟩
          rcases hres with hok | ⟨herr, hdead⟩
          · exact Or.inl hok
          · exact Or.inr ⟨herr, dead_of_scan servers _ hlt hdead⟩
      · have hmd : m.alive = false := by simpa using ha
        obtain ⟨res, w', hloop, hres⟩ := WeightedRoundRobin.loop_zero servers hw
          (servers.length - 1) fuel 1 (some m) (count.set w.cursor 0)
          ((w.cursor + 1) % servers.length)
          (by omega) (by omega) (by simpa using hlen) hzs (fun _ => hlt)
        refine ⟨res, w', by
          simp [WeightedRoundRobin.loop, hN, hm, Node.IsAlive, hmd, hcl, hloop], ?_⟩
        rcases hres with hok | ⟨herr, hdead⟩
        · exact Or.inl hok
        · refine Or.inr ⟨herr, dead_of_scan servers w.cursor hc ?_⟩
          intro j hj m' hm'
          cases j with
          | zero =>
            rw [Nat.add_zero, Nat.mod_eq_of_lt hc, hm] at hm'
            cases hm'
            exact hmd
          | succ j =>
            exact hdead j (by omega) m' (by rw [succ_mod_add]; exact hm')

/-- C5. For every pool (the empty one included) whose replicas have a
non-negative weight and every state of a `WeightedRoundRobin` reachable from a
fresh strategy by calls on the replicas of that pool, `Next` returns within
`len(servers) + 2` loop tests; it returns the error "no available servers"
exactly when no replica of the pool is alive, a replica it returns is a member
of the pool and alive, and it does not panic. -/
theorem WeightedRoundRobin.weighted_Next_fails_iff (servers : List Node) (w : WeightedRoundRobin)
    (fuel : Nat) (hw : ∀ n, n ∈ servers → 0 ≤ n.GetMetadataInt "weight" 1)
    (hr : WeightedRoundRobin.Reachable servers w) (hfuel : servers.length + 2 ≤ fuel) :
    ∃ res w', w.Next fuel servers = some (res, w') ∧
      (res = Result.err "no available servers" ↔ ∀ n, n ∈ servers → n.alive = false) ∧
      ((∃ msg, res = Result.err msg) ↔ ∀ n, n ∈ servers → n.alive = false) ∧
      (∀ n, res = Result.ok n → n ∈ servers ∧ n.alive = true) ∧
      res ≠ Result.panic := by
  obtain ⟨res, w', hnext, hres⟩ := WeightedRoundRobin.Next_cases servers w fuel hw hr.inv hfuel
  refine ⟨res, w', hnext, ?_⟩
  rcases hres with ⟨n, rfl, hmem, ha⟩ | ⟨rfl, hdead⟩
  · have hnot : ¬ ∀ n, n ∈ servers → n.alive = false := by
      intro h
      have := h n hmem
      rw [ha] at this
      cases this
    refine ⟨⟨fun h => (by cases h), fun h => absurd h hnot⟩,
      ⟨fun h => (by obtain ⟨_, h⟩ := h; cases h), fun h => absurd h hnot⟩, ?_, by simp⟩
    intro n' h'
    cases h'
    exact ⟨hmem, ha⟩
  · exact ⟨⟨fun _ => hdead, fun _ => rfl⟩, ⟨fun _ => hdead, fun _ => ⟨_, rfl⟩⟩,
      fun n h => (by cases h), by simp⟩


/-! ## Witnesses on concrete pools -/

/-- Instance of C1: four calls on a pool of three alive replicas. -/
theorem RoundRobin.all_alive_cycle_witness :
    RoundRobin.run ⟨0⟩ (List.replicate 4 poolAlive3)
      = some ([Result.ok R1, Result.ok R2, Result.ok R3, Result.ok R1], ⟨1⟩) :=
  (RoundRobin.all_alive_cycle poolAlive3 (by decide) (by decide)).2.2

/-- Instance of C2: one call from cursor 2 on the pool whose middle replica is dead. -/
theorem RoundRobin.Next_fails_iff_witness :
    ∃ res r', RoundRobin.Next ⟨2⟩ poolMiddleDead = some (res, r') ∧
      (res = Result.err "no available servers" ↔ ∀ n, n ∈ poolMiddleDead → n.alive = false) ∧
      ((∃ msg, res = Result.err msg) ↔ ∀ n, n ∈ poolMiddleDead → n.alive = false) ∧
      (∀ n, res = Result.ok n → n ∈ poolMiddleDead ∧ n.alive = true) ∧
      res ≠ Result.panic ∧
      (poolMiddleDead ≠ [] → r'.current < poolMiddleDead.length) :=
  (RoundRobin.Next_fails_iff ⟨2⟩ poolMiddleDead (fun _ => by decide)).1

/-- Instance of C3: five calls on the pool whose middle replica is dead. -/
theorem RoundRobin.one_dead_cycle_witness :
    ∃ (hpos : 0 < (poolMiddleDead.eraseIdx 1).length) (results : List Result) (r' : RoundRobin),
      RoundRobin.run ⟨0⟩ (List.replicate 5 poolMiddleDead) = some (results, r') ∧
      results = (List.range 5).map (fun j => Result.ok
        ((poolMiddleDead.eraseIdx 1).get
          ⟨j % (poolMiddleDead.eraseIdx 1).length, Nat.mod_lt j hpos⟩)) ∧
      (∀ res, res ∈ results →
        ∃ n, res = Result.ok n ∧ n.alive = true ∧ poolMiddleDead[1]? ≠ some n) ∧
      (∀ s, s + (poolMiddleDead.length - 1) ≤ 5 →
        (results.drop s).take (poolMiddleDead.length - 1)
          = ((poolMiddleDead.eraseIdx 1).rotate s).map Result.ok) :=
  RoundRobin.one_dead_cycle poolMiddleDead 1 (by decide) (by decide)
    (by intro n h; cases h; rfl)
    (by
      intro i n hi h
      match i, hi, h with
      | 0, _, h => cases h; rfl
      | 1, hi, _ => exact absurd rfl hi
      | 2, _, h => cases h; rfl
      | i + 3, _, h => cases h)
    5

/-- Instance of C5: the third call on the pool `[R1, R2]`, after two calls that returned `R1`. -/
theorem WeightedRoundRobin.weighted_Next_fails_iff_witness :
    ∃ res w', WeightedRoundRobin.Next 4 ⟨some [2, 0], 0⟩ poolR1R2 = some (res, w') ∧
      (res = Result.err "no available servers" ↔ ∀ n, n ∈ poolR1R2 → n.alive = false) ∧
      ((∃ msg, res = Result.err msg) ↔ ∀ n, n ∈ poolR1R2 → n.alive = false) ∧
      (∀ n, res = Result.ok n → n ∈ poolR1R2 ∧ n.alive = true) ∧
      res ≠ Result.panic :=
  WeightedRoundRobin.weighted_Next_fails_iff poolR1R2 ⟨some [2, 0], 0⟩ 4 (by decide)
    (WeightedRoundRobin.Reachable.call 4 ⟨some [1, 0], 0⟩ ⟨some [2, 0], 0⟩ poolR1R2 (Result.ok R1)
      (WeightedRoundRobin.Reachable.call 4 ⟨none, 0⟩ ⟨some [1, 0], 0⟩ poolR1R2 (Result.ok R1)
        WeightedRoundRobin.Reachable.fresh rfl (by decide))
      rfl (by decide))
    (by decide)

/-! ## `WeightedRoundRobin.Next`: the length of a turn -/

/-- C4, the code at the pool `[(R1, weight 1), (R2, weight 3)]`: from a fresh
`WeightedRoundRobin` the first four calls return `R1, R1, R2, R2`, and the
first eight `R1, R1, R2, R2, R2, R2, R1, R1`: a turn lasts weight + 1 calls. -/
theorem WeightedRoundRobin.turn_is_weight_plus_one :
    WeightedRoundRobin.run 4 ⟨none, 0⟩ (List.replicate 4 poolR1R2)
      = some ([Result.ok R1, Result.ok R1, Result.ok R2, Result.ok R2], ⟨some [0, 2], 1⟩) ∧
    WeightedRoundRobin.run 4 ⟨none, 0⟩ (List.replicate 8 poolR1R2)
      = some ([Result.ok R1, Result.ok R1, Result.ok R2, Result.ok R2, Result.ok R2,
          Result.ok R2, Result.ok R1, Result.ok R1], ⟨some [2, 0], 0⟩) := by
  constructor <;> decide


/-! ## `cmd/server`: resolution and routing -/

/-- `strings.HasPrefix s p` holds exactly when `s` is `p` followed by some rest. -/
theorem strings.HasPrefix_iff (s p : String) :
    strings.HasPrefix s p = true ↔ ∃ rest : String, s = p ++ rest := by
  unfold strings.HasPrefix
  rw [List.isPrefixOf_iff_prefix]
  constructor
  · rintro ⟨t, ht⟩
    exact ⟨⟨t⟩, String.ext (by rw [String.data_append, ht])⟩
  · rintro ⟨rest, rfl⟩
    exact ⟨rest.data, by rw [String.data_append]⟩

theorem findServiceList.loop_none (reqPath : String) (entries : List (String × NodeList)) :
    findServiceList.loop reqPath entries = none ↔
      ∀ matcher sl, (matcher, sl) ∈ entries → strings.HasPrefix reqPath matcher = false := by
  induction entries with
  | nil => simp [findServiceList.loop]
  | cons e rest ih =>
    obtain ⟨m, l⟩ := e
    by_cases h : strings.HasPrefix reqPath m = true
    · simp only [findServiceList.loop, h, ↓reduceIte]
      constructor
      · intro h'; cases h'
      · intro h'
        have := h' m l (List.mem_cons_self _ _)
        rw [h] at this
        cases this
    · have hf : strings.HasPrefix reqPath m = false := by simpa using h
      simp only [findServiceList.loop, hf, Bool.false_eq_true, ↓reduceIte, ih]
      constructor
      · intro h' matcher sl hmem
        rcases List.mem_cons.mp hmem with heq | hmem
        · cases heq; exact hf
        · exact h' matcher sl hmem
      · intro h' matcher sl hmem
        exact h' matcher sl (List.mem_cons_of_mem _ hmem)

theorem findServiceList.loop_some (reqPath : String) (entries : List (String × NodeList))
    (sl : NodeList) (h : findServiceList.loop reqPath entries = some sl) :
    ∃ matcher, (matcher, sl) ∈ entries ∧ strings.HasPrefix reqPath matcher = true := by
  induction entries with
  | nil => simp [findServiceList.loop] at h
  | cons e rest ih =>
    obtain ⟨m, l⟩ := e
    by_cases hp : strings.HasPrefix reqPath m = true
    · simp only [findServiceList.loop, hp, ↓reduceIte, Option.some.injEq] at h
      subst h
      exact ⟨m, List.mem_cons_self _ _, hp⟩
    · have hf : strings.HasPrefix reqPath m = false := by simpa using hp
      simp only [findServiceList.loop, hf, Bool.false_eq_true, ↓reduceIte] at h
      obtain ⟨matcher, hmem, hpre⟩ := ih h
      exact ⟨matcher, List.mem_cons_of_mem _ hmem, hpre⟩

/-- C7. For every registry, in every iteration order, and every request path,
`findServiceList` returns its error exactly when no configured matcher is a
beginning of the path; a node list it returns is stored in the registry under a
matcher that is a beginning of the path; and a registry with the empty matcher
resolves every path. -/
theorem Server.findServiceList_iff (s : Server) (reqPath : String) :
    ((∃ e, s.findServiceList reqPath = Except.error e) ↔
      ∀ matcher sl, (matcher, sl) ∈ s.NodeList → ¬ ∃ rest : String, reqPath = matcher ++ rest) ∧
    (∀ sl, s.findServiceList reqPath = Except.ok sl →
      ∃ matcher, (matcher, sl) ∈ s.NodeList ∧ ∃ rest : String, reqPath = matcher ++ rest) ∧
    (∀ sl, ("", sl) ∈ s.NodeList → ∃ sl', s.findServiceList reqPath = Except.ok sl') := by
  have hnone := findServiceList.loop_none reqPath s.NodeList
  have key : (∃ e, s.findServiceList reqPath = Except.error e) ↔
      ∀ matcher sl, (matcher, sl) ∈ s.NodeList →
        ¬ ∃ rest : String, reqPath = matcher ++ rest := by
    unfold Server.findServiceList
    cases hl : findServiceList.loop reqPath s.NodeList with
    | none =>
      simp only [Except.error.injEq, exists_eq', true_iff]
      intro matcher sl hmem hex
      have := (hnone.mp hl) matcher sl hmem
      rw [(strings.HasPrefix_iff _ _).mpr hex] at this
      cases this
    | some sl =>
      simp only [exists_false, false_iff, reduceCtorEq]
      intro hall
      obtain ⟨matcher, hmem, hpre⟩ := findServiceList.loop_some reqPath _ sl hl
      exact hall matcher sl hmem ((strings.HasPrefix_iff _ _).mp hpre)
  refine ⟨key, ?_, ?_⟩
  · intro sl h
    unfold Server.findServiceList at h
    cases hl : findServiceList.loop reqPath s.NodeList with
    | none => rw [hl] at h; cases h
    | some sl' =>
      rw [hl] at h
      cases h
      obtain ⟨matcher, hmem, hpre⟩ := findServiceList.loop_some reqPath _ sl hl
      exact ⟨matcher, hmem, (strings.HasPrefix_iff _ _).mp hpre⟩
  · intro sl hmem
    cases hf : s.findServiceList reqPath with
    | ok sl' => exact ⟨sl', rfl⟩
    | error e =>
      exfalso
      exact (key.mp ⟨e, hf⟩) "" sl hmem ⟨reqPath, by simp⟩

/-- The response of `ServeHTTP` against the results of `findServiceList` and of
`Next`: 404 and the server as it was exactly when `findServiceList` fails; when
it finds a node list, 500 exactly when `Next` of that list's strategy on that
list's nodes returns an error, and the hand-over to replica `n` exactly when
that call returns `n`. -/
theorem Server.ServeHTTP_cases (fuel : Nat) (s : Server) (reqPath : String) :
    ((∃ s', s.ServeHTTP fuel reqPath = some (Response.status 404, s')) ↔
      ∃ e, s.findServiceList reqPath = Except.error e) ∧
    ((∃ e, s.findServiceList reqPath = Except.error e) →
      s.ServeHTTP fuel reqPath = some (Response.status 404, s)) ∧
    (∀ sl, s.findServiceList reqPath = Except.ok sl →
      ((∃ s', s.ServeHTTP fuel reqPath = some (Response.status 500, s')) ↔
        ∃ msg st, sl.Strategy.Next fuel sl.Nodes = some (Result.err msg, st)) ∧
      (∀ n, (∃ s', s.ServeHTTP fuel reqPath = some (Response.forward n, s')) ↔
        ∃ st, sl.Strategy.Next fuel sl.Nodes = some (Result.ok n, st))) := by
  unfold Server.ServeHTTP
  cases hf : s.findServiceList reqPath with
  | error e =>
    refine ⟨⟨fun _ => ⟨e, rfl⟩, fun _ => ⟨s, rfl⟩⟩, fun _ => rfl, ?_⟩
    intro sl h; cases h
  | ok sl =>
    refine ⟨?_, ?_, ?_⟩
    · constructor
      · rintro ⟨s', h⟩
        simp only at h
        split at h <;> simp [StatusInternalServerError] at h
      · rintro ⟨e, h⟩; cases h
    · rintro ⟨e, h⟩; cases h
    · intro sl' h
      cases h
      simp only
      cases hn : sl.Strategy.Next fuel sl.Nodes with
      | none => simp
      | some p =>
        obtain ⟨res, st⟩ := p
        cases res <;> simp [StatusInternalServerError]


/-! ## `pkg/node`: liveness and metadata -/

/-- C8. `SetLiveness v` returns what `IsAlive` reported before the call, and
afterwards `IsAlive` reports `v`, with `Url` and `Metadata` unchanged. On an
alive replica `SetLiveness false` returns `true` and a following
`SetLiveness true` returns `false`. -/
theorem Node.SetLiveness_spec (n : Node) (v : Bool) :
    (n.SetLiveness v).1 = n.IsAlive ∧
    (n.SetLiveness v).2.IsAlive = v ∧
    (n.SetLiveness v).2.Url = n.Url ∧
    (n.SetLiveness v).2.Metadata = n.Metadata ∧
    (Node.SetLiveness { n with alive := true } false).1 = true ∧
    (Node.SetLiveness (Node.SetLiveness { n with alive := true } false).2 true).1 = false ∧
    (Node.SetLiveness (Node.SetLiveness { n with alive := true } false).2 true).2.IsAlive = true :=
  ⟨rfl, rfl, rfl, rfl, rfl, rfl, rfl⟩

theorem digitChar_toNat (d : Nat) (h : d < 10) : (Char.ofNat (48 + d)).toNat = 48 + d := by
  interval_cases d <;> rfl

theorem strconv.digits_append (xs ys : List Char) :
    ∀ acc, strconv.digits (xs ++ ys) acc = (strconv.digits xs acc).bind (strconv.digits ys) := by
  induction xs with
  | nil => intro acc; rfl
  | cons c rest ih =>
    intro acc
    simp only [List.cons_append, strconv.digits]
    split
    · exact ih _
    · rfl

theorem strconv.digits_single (d acc : Nat) (h : d < 10) :
    strconv.digits [Char.ofNat (48 + d)] acc = some (acc * 10 + d) := by
  simp [strconv.digits, digitChar_toNat d h]
  omega

/-- Reading the decimal digits of `n` gives `n` back. -/
theorem fmt.decimal_digits (fuel : Nat) :
    ∀ n, n ≤ fuel → strconv.digits (fmt.decimal fuel n) 0 = some n := by
  induction fuel with
  | zero =>
    intro n h
    have : n = 0 := by omega
    subst this
    rfl
  | succ fuel ih =>
    intro n h
    unfold fmt.decimal
    split
    · next hlt =>
      rw [strconv.digits_single n 0 hlt]
      simp
    · next hge =>
      rw [strconv.digits_append, ih (n / 10) (by omega)]
      simp only [Option.bind]
      rw [strconv.digits_single (n % 10) (n / 10) (Nat.mod_lt _ (by omega))]
      congr 1
      omega

/-- The decimal digits of a number begin with a digit. -/
theorem fmt.decimal_head (fuel n : Nat) :
    ∃ c rest, fmt.decimal fuel n = c :: rest ∧ 48 ≤ c.toNat ∧ c.toNat ≤ 57 := by
  induction fuel generalizing n with
  | zero =>
    refine ⟨_, [], rfl, ?_⟩
    rw [digitChar_toNat _ (Nat.mod_lt _ (by omega))]
    have := Nat.mod_lt n (show 0 < 10 by omega)
    omega
  | succ fuel ih =>
    unfold fmt.decimal
    split
    · next hlt =>
      refine ⟨_, [], rfl, ?_⟩
      rw [digitChar_toNat _ hlt]
      omega
    · obtain ⟨c, rest, hc, hb⟩ := ih (n / 10)
      exact ⟨c, rest ++ [Char.ofNat (48 + n % 10)], by rw [hc]; rfl, hb⟩

/-- `strconv.Atoi` reads back what `fmt.Sprintf("%d", v)` writes, subject to the range of `int`. -/
theorem strconv.Atoi_Sprintf_d (v : Int) : strconv.Atoi (fmt.Sprintf_d v) = strconv.inRange v := by
  obtain ⟨c, rest, hc, hlo, hhi⟩ := fmt.decimal_head v.natAbs v.natAbs
  have hdig := fmt.decimal_digits v.natAbs v.natAbs (Nat.le_refl _)
  have hmag : strconv.magnitude (fmt.decimal v.natAbs v.natAbs) = some v.natAbs := by
    rw [hc] at hdig ⊢
    exact hdig
  by_cases hneg : v < 0
  · have hs : fmt.Sprintf_d v = String.mk ('-' :: fmt.decimal v.natAbs v.natAbs) := by
      simp [fmt.Sprintf_d, hneg]
    rw [hs]
    show (strconv.magnitude (fmt.decimal v.natAbs v.natAbs)).bind
      (fun m => strconv.inRange (-(m : Int))) = strconv.inRange v
    rw [hmag]
    simp only [Option.bind]
    congr 1
    omega
  · have hs : fmt.Sprintf_d v = String.mk (c :: rest) := by
      simp [fmt.Sprintf_d, hneg, hc]
    have h1 : c ≠ '-' := by
      intro h; subst h; revert hlo; decide
    have h2 : c ≠ '+' := by
      intro h; subst h; revert hlo; decide
    rw [hs]
    unfold strconv.Atoi
    simp only
    split
    · next heq => cases heq
    · next heq => cases heq; exact absurd rfl h1
    · next heq => cases heq; exact absurd rfl h2
    · rw [← hc, hmag]
      simp only [Option.bind]
      congr 1
      omega

theorem strconv.inRange_some (v k : Int) (h : strconv.inRange v = some k) :
    k = v ∧ minInt ≤ k ∧ k ≤ maxInt := by
  unfold strconv.inRange at h
  split at h
  · next hr => cases h; exact ⟨rfl, hr⟩
  · cases h

/-- What `strconv.Atoi` returns fits `int`. -/
theorem strconv.Atoi_range (s : String) (k : Int) (h : strconv.Atoi s = some k) :
    minInt ≤ k ∧ k ≤ maxInt := by
  unfold strconv.Atoi at h
  split at h
  · cases h
  all_goals
    cases hm : strconv.magnitude _ with
    | none => rw [hm] at h; cases h
    | some m =>
      rw [hm] at h
      exact (strconv.inRange_some _ k h).2

/-- C9. `GetMetadataInt key d` is total and returns: `d` when the metadata map
is nil or has no entry for `key`; the integer `k` when the entry is the decimal
representation of an integer `k` in the range of `int`, and more generally
whenever `strconv.Atoi` reads the entry as `k`, which is then in the range of
`int`; and `d` when `strconv.Atoi` rejects the entry, as it does for "", "abc",
"1.5" and for digits out of range. -/
theorem Node.GetMetadataInt_spec (n : Node) (key : String) (d : Int) :
    (n.Metadata = none → n.GetMetadataInt key d = d) ∧
    (∀ m, n.Metadata = some m → m.lookup key = none → n.GetMetadataInt key d = d) ∧
    (∀ m k, n.Metadata = some m → m.lookup key = some (fmt.Sprintf_d k) →
      minInt ≤ k → k ≤ maxInt → n.GetMetadataInt key d = k) ∧
    (∀ m v k, n.Metadata = some m → m.lookup key = some v → strconv.Atoi v = some k →
      n.GetMetadataInt key d = k ∧ minInt ≤ k ∧ k ≤ maxInt) ∧
    (∀ m v, n.Metadata = some m → m.lookup key = some v → strconv.Atoi v = none →
      n.GetMetadataInt key d = d) ∧
    (strconv.Atoi "" = none ∧ strconv.Atoi "abc" = none ∧ strconv.Atoi "1.5" = none ∧
      strconv.Atoi "9223372036854775808" = none ∧ strconv.Atoi "-9223372036854775809" = none ∧
      strconv.Atoi "3" = some 3 ∧ strconv.Atoi "-12" = some (-12)) := by
  have hparse : ∀ m v k, n.Metadata = some m → m.lookup key = some v → strconv.Atoi v = some k →
      n.GetMetadataInt key d = k := by
    intro m v k hm hl ha
    simp [Node.GetMetadataInt, Node.GetMetadata, hm, hl, ha]
  refine ⟨?_, ?_, ?_, ?_, ?_, ?_⟩
  · intro hm
    simp [Node.GetMetadataInt, hm]
  · intro m hm hl
    simp only [Node.GetMetadataInt, Node.GetMetadata, hm, hl, strconv.Atoi_Sprintf_d]
    cases hr : strconv.inRange d with
    | none => rfl
    | some k => exact (strconv.inRange_some d k hr).1
  · intro m k hm hl hlo hhi
    apply hparse m _ k hm hl
    rw [strconv.Atoi_Sprintf_d]
    simp [strconv.inRange, hlo, hhi]
  · intro m v k hm hl ha
    exact ⟨hparse m v k hm hl ha, strconv.Atoi_range v k ha⟩
  · intro m v hm hl ha
    simp [Node.GetMetadataInt, Node.GetMetadata, hm, hl, ha]
  · decide

/-! ## `LoadStrategy` -/

/-- C10. For every name `LoadStrategy` returns a strategy, at an address that
no object allocated before has: a fresh `WeightedRoundRobin` (counters nil,
cursor 0) exactly when the name is "WeightedRoundRobin", and a fresh
`RoundRobin` (cursor 0) for every other name, such as "RoundRobin", "" and
"Unknown". The objects allocated before stay as they were, so two calls return
two objects with separate state. -/
theorem LoadStrategy_spec (name : String) (heap : Heap) :
    (∃ addr heap', LoadStrategy name heap = some (addr, heap') ∧
      addr = heap.length ∧
      heap'[addr]? = some (if name = "WeightedRoundRobin"
        then BalancingStrategy.weightedRoundRobin { count := none, cursor := 0 }
        else BalancingStrategy.roundRobin { current := 0 }) ∧
      (∀ a, a < heap.length → heap'[a]? = heap[a]?) ∧
      (∀ name2, ∃ addr2 heap'', LoadStrategy name2 heap' = some (addr2, heap'') ∧
        addr2 ≠ addr ∧ heap''[addr]? = heap'[addr]?)) ∧
    LoadStrategy "RoundRobin" heap
      = some (heap.length, heap ++ [BalancingStrategy.roundRobin { current := 0 }]) ∧
    LoadStrategy "" heap
      = some (heap.length, heap ++ [BalancingStrategy.roundRobin { current := 0 }]) ∧
    LoadStrategy "Unknown" heap
      = some (heap.length, heap ++ [BalancingStrategy.roundRobin { current := 0 }]) ∧
    LoadStrategy "WeightedRoundRobin" heap
      = some (heap.length,
          heap ++ [BalancingStrategy.weightedRoundRobin { count := none, cursor := 0 }]) := by
  have gen : ∀ (nm : String) (hp : Heap), LoadStrategy nm hp
      = some (hp.length, hp ++ [if nm = "WeightedRoundRobin"
        then BalancingStrategy.weightedRoundRobin { count := none, cursor := 0 }
        else BalancingStrategy.roundRobin { current := 0 }]) := by
    intro nm hp
    by_cases h1 : nm = "RoundRobin"
    · subst h1; rfl
    · by_cases h2 : nm = "WeightedRoundRobin"
      · subst h2; rfl
      · have b1 : (nm == "RoundRobin") = false := by simpa using h1
        have b2 : (nm == "WeightedRoundRobin") = false := by simpa using h2
        simp [LoadStrategy, strategies, List.lookup, sRoundRobin, sWeightedRoundRobin, b1, b2, h2,
          Heap.alloc]
  refine ⟨⟨_, _, gen name heap, rfl, by simp, ?_, ?_⟩, ?_, ?_, ?_, ?_⟩
  · intro a ha
    exact List.getElem?_append_left ha
  · intro name2
    refine ⟨_, _, gen name2 _, by simp, ?_⟩
    exact List.getElem?_append_left (by simp)
  all_goals exact gen _ heap


/-! ## `WeightedRoundRobin.Next` against `RoundRobin.Next`, and negative weights -/

/-- C11, the code on a pool of two alive replicas of weight 1 (one explicitly,
one by default): two calls on a fresh `RoundRobin` return `R1, R3`, two calls on
a fresh `WeightedRoundRobin` return `R1, R1`. -/
theorem WeightedRoundRobin.differs_from_RoundRobin :
    (∀ n, n ∈ poolUnit → n.GetMetadataInt "weight" 1 = 1) ∧
    RoundRobin.run ⟨0⟩ (List.replicate 2 poolUnit)
      = some ([Result.ok R1, Result.ok R3], ⟨0⟩) ∧
    WeightedRoundRobin.run 3 ⟨none, 0⟩ (List.replicate 2 poolUnit)
      = some ([Result.ok R1, Result.ok R1], ⟨some [2, 0], 0⟩) := by
  decide

/-- On the pool with one alive replica of weight -1 the loop never leaves its
first state: the counter 0 exceeds the weight, is reset to 0, and the cursor
and `index` stay at 0. -/
theorem WeightedRoundRobin.loop_negative (fuel : Nat) :
    ∀ choosen, WeightedRoundRobin.loop poolNegative fuel 0 choosen [0] 0 = none := by
  induction fuel with
  | zero => intro choosen; rfl
  | succ fuel ih =>
    intro choosen
    have hw : (poolNegative[0]).GetMetadataInt "weight" 1 = -1 := by decide
    have hstep : WeightedRoundRobin.loop poolNegative (fuel + 1) 0 choosen [0] 0
        = WeightedRoundRobin.loop poolNegative fuel 0 (some poolNegative[0]) [0] 0 := by
      simp [WeightedRoundRobin.loop, poolNegative, Node.IsAlive] at hw ⊢
      simp [hw]
    rw [hstep]
    exact ih _

/-- C18, the code on the pool with one alive replica of weight -1: a call of
`Next` on a fresh `WeightedRoundRobin` is still in its loop after any number of
loop tests, so it never returns. -/
theorem WeightedRoundRobin.negative_weight_spins (fuel : Nat) :
    WeightedRoundRobin.Next fuel ⟨none, 0⟩ poolNegative = none :=
  WeightedRoundRobin.loop_negative fuel none


/-! ## `RoundRobin.Next`: the candidates of one call -/

/-- Dropping the counter from `RoundRobin.scan` gives `RoundRobin.loop`. -/
theorem RoundRobin.scan_erase (servers : List Node) :
    ∀ (fuel index : Nat) (choosen : Option Node) (current steps : Nat),
      (RoundRobin.scan servers fuel index choosen current steps).map (fun x => (x.1, x.2.1))
        = RoundRobin.loop servers fuel index choosen current := by
  intro fuel
  induction fuel with
  | zero => intro index choosen current steps; rfl
  | succ fuel ih =>
    intro index choosen current steps
    unfold RoundRobin.scan RoundRobin.loop
    split
    · split
      · rfl
      · split
        · rfl
        · exact ih _ _ _ _
    · rfl

/-- The scan passes `k` dead candidates and returns the alive one after them:
`k + 1` candidates examined. -/
theorem RoundRobin.scan_skip (servers : List Node) (k : Nat) :
    ∀ (fuel index : Nat) (choosen : Option Node) (current steps : Nat) (n : Node),
      current < servers.length → index + k < servers.length → k < fuel →
      (∀ j, j < k → ∀ m, servers[(current + j) % servers.length]? = some m → m.alive = false) →
      servers[(current + k) % servers.length]? = some n → n.alive = true →
      RoundRobin.scan servers fuel index choosen current steps
        = some (Result.ok n, ⟨(current + k + 1) % servers.length⟩, steps + k + 1) := by
  induction k with
  | zero =>
    intro fuel index choosen current steps n hc hi hf _ hn ha
    obtain ⟨fuel, rfl⟩ : ∃ f, fuel = f + 1 := ⟨fuel - 1, by omega⟩
    rw [Nat.add_zero, Nat.mod_eq_of_lt hc] at hn
    have hi' : index < servers.length := by omega
    have hne : index ≠ servers.length := by omega
    simp [RoundRobin.scan, hn, Node.IsAlive, ha, RoundRobin.finish, hi', hne]
  | succ k ih =>
    intro fuel index choosen current steps n hc hi hf hdead hn ha
    obtain ⟨fuel, rfl⟩ : ∃ f, fuel = f + 1 := ⟨fuel - 1, by omega⟩
    obtain ⟨m, hm⟩ : ∃ m, servers[current]? = some m :=
      ⟨servers[current], List.getElem?_eq_getElem hc⟩
    have hmd : m.alive = false :=
      hdead 0 (by omega) m (by simpa [Nat.mod_eq_of_lt hc] using hm)
    have hlt : (current + 1) % servers.length < servers.length := Nat.mod_lt _ (by omega)
    have hi' : index < servers.length := by omega
    have hrec := ih fuel (index + 1) (some m) ((current + 1) % servers.length) (steps + 1) n hlt
      (by omega) (by omega)
      (fun j hj m' h' => hdead (j + 1) (by omega) m' (by rw [← succ_mod_add]; exact h'))
      (by rw [succ_mod_add]; exact hn) ha
    rw [Nat.add_assoc, succ_mod_add] at hrec
    have hsteps : steps + 1 + k + 1 = steps + (k + 1) + 1 := by omega
    rw [hsteps] at hrec
    simp only [RoundRobin.scan, hi', if_true, hm, Node.IsAlive, hmd]
    simpa using hrec

/-- The scan passes the `k` candidates that are left, all dead, and fails: `k`
candidates examined. -/
theorem RoundRobin.scan_dead (servers : List Node) (k : Nat) :
    ∀ (fuel index : Nat) (choosen : Option Node) (current steps : Nat),
      (servers ≠ [] → current < servers.length) → index + k = servers.length → k < fuel →
      (∀ j, j < k → ∀ m, servers[(current + j) % servers.length]? = some m → m.alive = false) →
      RoundRobin.scan servers fuel index choosen current steps
        = some (Result.err "no available servers", ⟨(current + k) % servers.length⟩,
            steps + k) := by
  induction k with
  | zero =>
    intro fuel index choosen current steps hc hi hf _
    obtain ⟨fuel, rfl⟩ : ∃ f, fuel = f + 1 := ⟨fuel - 1, by omega⟩
    have hcur : current % servers.length = current := by
      by_cases h0 : servers = []
      · simp [h0]
      · exact Nat.mod_eq_of_lt (hc h0)
    have hidx : index = servers.length := by omega
    cases choosen <;> simp [RoundRobin.scan, RoundRobin.finish, hcur, hidx]
  | succ k ih =>
    intro fuel index choosen current steps hc hi hf hdead
    obtain ⟨fuel, rfl⟩ : ∃ f, fuel = f + 1 := ⟨fuel - 1, by omega⟩
    have hne : servers ≠ [] := by
      intro h0
      simp [h0] at hi
    have hc' := hc hne
    obtain ⟨m, hm⟩ : ∃ m, servers[current]? = some m :=
      ⟨servers[current], List.getElem?_eq_getElem hc'⟩
    have hmd : m.alive = false :=
      hdead 0 (by omega) m (by simpa [Nat.mod_eq_of_lt hc'] using hm)
    have hlt : (current + 1) % servers.length < servers.length := Nat.mod_lt _ (by omega)
    have hi' : index < servers.length := by omega
    have hrec := ih fuel (index + 1) (some m) ((current + 1) % servers.length) (steps + 1)
      (fun _ => hlt) (by omega) (by omega)
      (fun j hj m' h' => hdead (j + 1) (by omega) m' (by rw [← succ_mod_add]; exact h'))
    rw [succ_mod_add] at hrec
    have hsteps : steps + 1 + k = steps + (k + 1) := by omega
    rw [hsteps] at hrec
    simp only [RoundRobin.scan, hi', if_true, hm, Node.IsAlive, hmd]
    simpa using hrec

/-- C16. One call of `RoundRobin.Next` on a non-empty pool of length `N` from a
cursor `c < N`, liveness fixed. If `k < N` is the least offset at which
`pool[(c + k) mod N]` is alive, the call returns that replica, leaves the cursor
at `(c + k + 1) mod N` and has examined `k + 1` candidates; such a `k` exists
when some replica is alive. If no replica is alive the call fails, has examined
exactly `N` candidates and leaves the cursor at `c`. -/
theorem RoundRobin.Next_single_step (r : RoundRobin) (servers : List Node)
    (hc : r.current < servers.length) :
    (∀ k n, k < servers.length → servers[(r.current + k) % servers.length]? = some n →
      n.alive = true →
      (∀ j, j < k → ∀ m, servers[(r.current + j) % servers.length]? = some m → m.alive = false) →
      r.Next servers = some (Result.ok n, ⟨(r.current + k + 1) % servers.length⟩) ∧
      r.NextSteps servers
        = some (Result.ok n, ⟨(r.current + k + 1) % servers.length⟩, k + 1)) ∧
    ((∃ n, n ∈ servers ∧ n.alive = true) →
      ∃ k n, k < servers.length ∧ servers[(r.current + k) % servers.length]? = some n ∧
        n.alive = true ∧
        (∀ j, j < k → ∀ m, servers[(r.current + j) % servers.length]? = some m →
          m.alive = false)) ∧
    ((∀ n, n ∈ servers → n.alive = false) →
      r.Next servers = some (Result.err "no available servers", r) ∧
      r.NextSteps servers = some (Result.err "no available servers", r, servers.length)) := by
  refine ⟨?_, ?_, ?_⟩
  · intro k n hk hn ha hdead
    have hs := RoundRobin.scan_skip servers k (servers.length + 1) 0 none r.current 0 n hc
      (by omega) (by omega) hdead hn ha
    rw [Nat.zero_add] at hs
    refine ⟨?_, hs⟩
    have := RoundRobin.scan_erase servers (servers.length + 1) 0 none r.current 0
    rw [hs] at this
    exact this.symm
  · intro h
    exact exists_first_alive servers r.current hc h
  · intro hall
    have hs := RoundRobin.scan_dead servers servers.length (servers.length + 1) 0 none r.current 0
      (fun _ => hc) (by omega) (by omega) (fun j _ m hm => hall m (List.getElem?_mem hm))
    rw [Nat.zero_add, Nat.add_mod_right, Nat.mod_eq_of_lt hc] at hs
    refine ⟨?_, hs⟩
    have := RoundRobin.scan_erase servers (servers.length + 1) 0 none r.current 0
    rw [hs] at this
    exact this.symm

/-- Instance of C16: one call from cursor 1 on the pool whose middle replica is dead. -/
theorem RoundRobin.Next_single_step_witness :
    RoundRobin.Next ⟨1⟩ poolMiddleDead = some (Result.ok R3, ⟨0⟩) ∧
    RoundRobin.NextSteps ⟨1⟩ poolMiddleDead = some (Result.ok R3, ⟨0⟩, 2) :=
  (RoundRobin.Next_single_step ⟨1⟩ poolMiddleDead (by decide)).1 1 R3 (by decide) (by decide)
    (by decide) (by
      intro j hj m hm
      have hj0 : j = 0 := by omega
      subst hj0
      cases hm
      rfl)


/-! ## `RoundRobin.Next`: two consecutive calls -/

theorem add_mod_self_zero (p m N : Nat) (hp : p < N) (hm : m < N) (h : (p + m) % N = p) :
    m = 0 := by
  by_cases hlt : p + m < N
  · rw [Nat.mod_eq_of_lt hlt] at h
    omega
  · have h2 : (p + m) % N = p + m - N := by
      rw [Nat.mod_eq_sub_mod (by omega), Nat.mod_eq_of_lt (by omega)]
    omega

/-- Two consecutive calls from an in-range cursor on a pool with two alive
positions return the replicas at two different positions. -/
theorem RoundRobin.two_calls_positions (r : RoundRobin) (servers : List Node)
    (hc : r.current < servers.length)
    (h2 : ∃ (i j : Nat) (ni nj : Node), i ≠ j ∧ servers[i]? = some ni ∧ servers[j]? = some nj ∧
      ni.alive = true ∧ nj.alive = true) :
    ∃ (p1 p2 : Nat) (n1 n2 : Node) (r1 r2 : RoundRobin), p1 ≠ p2 ∧ servers[p1]? = some n1 ∧ servers[p2]? = some n2 ∧
      n1.alive = true ∧ n2.alive = true ∧
      r.Next servers = some (Result.ok n1, r1) ∧ r1.Next servers = some (Result.ok n2, r2) := by
  obtain ⟨i, j, ni, nj, hij, hi, hj, hai, haj⟩ := h2
  have hN : 0 < servers.length := by omega
  obtain ⟨k, n1, hk, hn1, ha1, _, hnext1⟩ :=
    RoundRobin.Next_alive r servers hc ⟨ni, List.getElem?_mem hi, hai⟩
  have hc1 : (r.current + k + 1) % servers.length < servers.length := Nat.mod_lt _ hN
  obtain ⟨k', n2, hk', hn2, ha2, hdead2, hnext2⟩ :=
    RoundRobin.Next_alive ⟨(r.current + k + 1) % servers.length⟩ servers hc1
      ⟨ni, List.getElem?_mem hi, hai⟩
  simp only at hn2 hdead2 hnext2
  have hp1 : (r.current + k) % servers.length < servers.length := Nat.mod_lt _ hN
  -- the second position, as an offset from the first
  have hpos2 : ((r.current + k + 1) % servers.length + k') % servers.length
      = ((r.current + k) % servers.length + (k' + 1)) % servers.length := by
    rw [Nat.add_mod, Nat.mod_mod, ← Nat.add_mod, Nat.mod_add_mod]
    congr 1
    omega
  refine ⟨(r.current + k) % servers.length,
    ((r.current + k + 1) % servers.length + k') % servers.length, n1, n2, _, _, ?_, hn1, hn2,
    ha1, ha2, hnext1, hnext2⟩
  intro heq
  rw [hpos2] at heq
  have hk1 : ¬ k' + 1 < servers.length := by
    intro hlt
    have := add_mod_self_zero _ (k' + 1) _ hp1 hlt heq.symm
    omega
  -- one of the two alive positions is not the first one, and lies before offset k'
  have other : ∀ q nq, q ≠ (r.current + k) % servers.length → servers[q]? = some nq →
      nq.alive = true → False := by
    intro q nq hq hget hal
    have hqlt : q < servers.length := by
      by_contra hge
      rw [List.getElem?_eq_none (by omega)] at hget
      cases hget
    have hreach := add_mod_reach ((r.current + k + 1) % servers.length) q _ hc1 hqlt
    have hoff := Nat.mod_lt (q + servers.length - (r.current + k + 1) % servers.length) hN
    by_cases hlast : (q + servers.length - (r.current + k + 1) % servers.length)
        % servers.length < k'
    · have hd := hdead2 _ hlast nq (by rw [hreach]; exact hget)
      rw [hal] at hd
      cases hd
    · have hoffeq : (q + servers.length - (r.current + k + 1) % servers.length)
          % servers.length = k' := by omega
      rw [hoffeq] at hreach
      apply hq
      rw [← hreach, hpos2]
      exact heq.symm
  by_cases hi1 : i = (r.current + k) % servers.length
  · exact other j nj (fun h => hij (by rw [hi1, h])) hj haj
  · exact other i ni hi1 hi hai

/-- C12. On a pool of pairwise distinct replicas of which at least two are
alive, from every in-range cursor and with liveness unchanged, two consecutive
calls of `RoundRobin.Next` succeed and return two different replicas, both
alive members of the pool. Hence a server whose registry holds this pool as one
`RoundRobin` service at "/api" hands two consecutive requests for "/api/x" to
two different replicas. -/
theorem RoundRobin.two_calls_differ (r : RoundRobin) (servers : List Node)
    (hc : r.current < servers.length) (hnodup : servers.Nodup)
    (h2 : ∃ (i j : Nat) (ni nj : Node), i ≠ j ∧ servers[i]? = some ni ∧ servers[j]? = some nj ∧
      ni.alive = true ∧ nj.alive = true)
    (fuel : Nat) (name : String) :
    (∃ n1 n2 r1 r2, r.Next servers = some (Result.ok n1, r1) ∧
      r1.Next servers = some (Result.ok n2, r2) ∧ n1 ≠ n2 ∧
      n1 ∈ servers ∧ n2 ∈ servers ∧ n1.alive = true ∧ n2.alive = true) ∧
    (∃ n1 n2 s1 s2,
      Server.ServeHTTP fuel
          ⟨[("/api", ⟨servers, name, BalancingStrategy.roundRobin r⟩)]⟩ "/api/x"
        = some (Response.forward n1, s1) ∧
      Server.ServeHTTP fuel s1 "/api/x" = some (Response.forward n2, s2) ∧ n1 ≠ n2) := by
  obtain ⟨p1, p2, n1, n2, r1, r2, hp, h1, h2', ha1, ha2, hnext1, hnext2⟩ :=
    RoundRobin.two_calls_positions r servers hc h2
  have hne : n1 ≠ n2 := by
    intro heq
    subst heq
    have hl1 : p1 < servers.length := by
      by_contra hge
      rw [List.getElem?_eq_none (by omega)] at h1
      cases h1
    have hl2 : p2 < servers.length := by
      by_contra hge
      rw [List.getElem?_eq_none (by omega)] at h2'
      cases h2'
    rw [List.getElem?_eq_getElem hl1] at h1
    rw [List.getElem?_eq_getElem hl2] at h2'
    have : servers[p1] = servers[p2] := by
      rw [Option.some.inj h1, Option.some.inj h2']
    exact hp ((hnodup.getElem_inj_iff).mp this)
  refine ⟨⟨n1, n2, r1, r2, hnext1, hnext2, hne, List.getElem?_mem h1, List.getElem?_mem h2',
    ha1, ha2⟩, ?_⟩
  have hpre : strings.HasPrefix "/api/x" "/api" = true := by decide
  refine ⟨n1, n2,
    ⟨[("/api", ⟨servers, name, BalancingStrategy.roundRobin r1⟩)]⟩,
    ⟨[("/api", ⟨servers, name, BalancingStrategy.roundRobin r2⟩)]⟩, ?_, ?_, hne⟩
  · simp [Server.ServeHTTP, Server.findServiceList, findServiceList.loop, hpre,
      BalancingStrategy.Next, hnext1, Server.storeStrategy]
  · simp [Server.ServeHTTP, Server.findServiceList, findServiceList.loop, hpre,
      BalancingStrategy.Next, hnext2, Server.storeStrategy]

/-- Instance of C12: the pool `[R1, R2]` behind a fresh `RoundRobin` at "/api". -/
theorem RoundRobin.two_calls_differ_witness :
    (∃ n1 n2 r1 r2, RoundRobin.Next ⟨0⟩ poolR1R2 = some (Result.ok n1, r1) ∧
      r1.Next poolR1R2 = some (Result.ok n2, r2) ∧ n1 ≠ n2 ∧
      n1 ∈ poolR1R2 ∧ n2 ∈ poolR1R2 ∧ n1.alive = true ∧ n2.alive = true) ∧
    (∃ n1 n2 s1 s2,
      Server.ServeHTTP 3
          ⟨[("/api", ⟨poolR1R2, "api", BalancingStrategy.roundRobin ⟨0⟩⟩)]⟩ "/api/x"
        = some (Response.forward n1, s1) ∧
      Server.ServeHTTP 3 s1 "/api/x" = some (Response.forward n2, s2) ∧ n1 ≠ n2) :=
  RoundRobin.two_calls_differ ⟨0⟩ poolR1R2 (by decide) (by decide)
    ⟨0, 1, R1, R2, by decide, rfl, rfl, rfl, rfl⟩ 3 "api"


/-! ## The cursor stays in range -/

/-- One call of `RoundRobin.Next` from an in-range cursor returns without panic
and leaves the cursor in range. -/
theorem RoundRobin.Next_in_range (r : RoundRobin) (servers : List Node)
    (hc : r.current < servers.length) :
    ∃ res r', r.Next servers = some (res, r') ∧ res ≠ Result.panic ∧
      r'.current < servers.length := by
  by_cases hex : ∃ n, n ∈ servers ∧ n.alive = true
  · obtain ⟨k, n, _, _, _, _, hnext⟩ := RoundRobin.Next_alive r servers hc hex
    exact ⟨_, _, hnext, by simp, Nat.mod_lt _ (by omega)⟩
  · have hall : ∀ n, n ∈ servers → n.alive = false := by
      intro n hn
      by_contra hna
      exact hex ⟨n, hn, by simpa using hna⟩
    exact ⟨_, _, RoundRobin.Next_dead r servers (fun _ => hc) hall, by simp, hc⟩

/-- Consecutive calls of `RoundRobin.Next` on pools of length `N` from an
in-range cursor all return without panic and leave the cursor in range. -/
theorem RoundRobin.run_in_range (N : Nat) (pools : List (List Node)) :
    ∀ r : RoundRobin, r.current < N → (∀ p, p ∈ pools → p.length = N) →
      ∃ results r', r.run pools = some (results, r') ∧ r'.current < N ∧
        ∀ res, res ∈ results → res ≠ Result.panic := by
  induction pools with
  | nil => intro r hc _; exact ⟨[], r, rfl, hc, fun res h => by cases h⟩
  | cons p rest ih =>
    intro r hc hp
    have hlen := hp p (List.mem_cons_self _ _)
    obtain ⟨res, r1, hnext, hnp, hc1⟩ := RoundRobin.Next_in_range r p (by rw [hlen]; exact hc)
    rw [hlen] at hc1
    obtain ⟨results, r', hrun, hc', hall⟩ := ih r1 hc1 (fun q hq => hp q (List.mem_cons_of_mem _ hq))
    refine ⟨res :: results, r', by simp [RoundRobin.run, hnext, hrun], hc', ?_⟩
    intro x hx
    rcases List.mem_cons.mp hx with rfl | hx
    · exact hnp
    · exact hall x hx

/-- A call of `WeightedRoundRobin.Next` that returns leaves the counters allocated. -/
theorem WeightedRoundRobin.loop_count_some (servers : List Node) :
    ∀ (fuel index : Nat) (choosen : Option Node) (count : List Int) (cursor : Nat)
      (res : Result) (w' : WeightedRoundRobin),
      WeightedRoundRobin.loop servers fuel index choosen count cursor = some (res, w') →
      w'.count ≠ none := by
  intro fuel
  induction fuel with
  | zero => intro index choosen count cursor res w' h; simp [WeightedRoundRobin.loop] at h
  | succ fuel ih =>
    intro index choosen count cursor res w' h
    unfold WeightedRoundRobin.loop at h
    split at h
    · split at h
      · cases h; simp
      · simp only at h
        split at h
        · split at h
          · exact ih _ _ _ _ _ _ h
          · cases h; simp
        · split at h
          · cases h; simp
          · split at h
            · cases h; simp
            · exact ih _ _ _ _ _ _ h
    · unfold WeightedRoundRobin.finish at h
      split at h
      · cases h; simp
      · split at h <;> (cases h; simp)

theorem WeightedRoundRobin.Next_count_some (fuel : Nat) (w : WeightedRoundRobin)
    (servers : List Node) (res : Result) (w' : WeightedRoundRobin)
    (h : w.Next fuel servers = some (res, w')) : w'.count ≠ none := by
  unfold WeightedRoundRobin.Next at h
  split at h <;> exact WeightedRoundRobin.loop_count_some servers _ _ _ _ _ _ _ h

/-- Consecutive calls of `WeightedRoundRobin.Next` on pools of length `N`: when
they return, none has panicked, the strategy is in shape and its cursor in range. -/
theorem WeightedRoundRobin.run_shape (N : Nat) (hN : 0 < N) (fuel : Nat)
    (pools : List (List Node)) :
    ∀ (w : WeightedRoundRobin) (results : List Result) (w' : WeightedRoundRobin),
      WeightedRoundRobin.Inv N w → w.cursor < N → (∀ p, p ∈ pools → p.length = N) →
      WeightedRoundRobin.run fuel w pools = some (results, w') →
      WeightedRoundRobin.Inv N w' ∧ w'.cursor < N ∧ (pools ≠ [] → w'.count ≠ none) ∧
        ∀ res, res ∈ results → res ≠ Result.panic := by
  induction pools with
  | nil =>
    intro w results w' hinv hc _ h
    simp only [WeightedRoundRobin.run, Option.some.injEq, Prod.mk.injEq] at h
    obtain ⟨rfl, rfl⟩ := h
    exact ⟨hinv, hc, fun h => absurd rfl h, fun res h => by cases h⟩
  | cons p rest ih =>
    intro w results w' hinv hc hp h
    have hlen := hp p (List.mem_cons_self _ _)
    unfold WeightedRoundRobin.run at h
    cases hnext : w.Next fuel p with
    | none => rw [hnext] at h; cases h
    | some x =>
      obtain ⟨res, w1⟩ := x
      rw [hnext] at h
      simp only at h
      obtain ⟨hinv1, hnp⟩ := WeightedRoundRobin.Next_shape N w p fuel res w1 hlen hinv hnext
      have hsome := WeightedRoundRobin.Next_count_some fuel w p res w1 hnext
      have hc1 : w1.cursor < N := by
        unfold WeightedRoundRobin.Inv at hinv1
        cases hcnt : w1.count with
        | none => exact absurd hcnt hsome
        | some c =>
          rw [hcnt] at hinv1
          exact hinv1.2.1 (by omega)
      cases hrun : WeightedRoundRobin.run fuel w1 rest with
      | none => rw [hrun] at h; cases h
      | some y =>
        obtain ⟨results1, w2⟩ := y
        rw [hrun] at h
        simp only [Option.some.injEq, Prod.mk.injEq] at h
        obtain ⟨rfl, rfl⟩ := h
        obtain ⟨hinv2, hc2, hsome2, hall⟩ :=
          ih w1 results1 w2 hinv1 hc1 (fun q hq => hp q (List.mem_cons_of_mem _ hq)) hrun
        refine ⟨hinv2, hc2, fun _ => ?_, ?_⟩
        · by_cases hrest : rest = []
          · subst hrest
            simp only [WeightedRoundRobin.run, Option.some.injEq, Prod.mk.injEq] at hrun
            rw [← hrun.2]
            exact hsome
          · exact hsome2 hrest
        · intro x hx
          rcases List.mem_cons.mp hx with rfl | hx
          · exact hnp
          · exact hall x hx

/-- Consecutive calls of `WeightedRoundRobin.Next` on pools of length `N` with
non-negative weights all return, given `N + 2` loop tests each. -/
theorem WeightedRoundRobin.run_returns (N : Nat) (fuel : Nat) (hfuel : N + 2 ≤ fuel)
    (pools : List (List Node)) :
    ∀ w : WeightedRoundRobin, WeightedRoundRobin.Inv N w →
      (∀ p, p ∈ pools → p.length = N ∧ ∀ n, n ∈ p → 0 ≤ n.GetMetadataInt "weight" 1) →
      ∃ results w', WeightedRoundRobin.run fuel w pools = some (results, w') := by
  induction pools with
  | nil => intro w _ _; exact ⟨[], w, rfl⟩
  | cons p rest ih =>
    intro w hinv hp
    obtain ⟨hlen, hw⟩ := hp p (List.mem_cons_self _ _)
    obtain ⟨res, w1, hnext, _⟩ := WeightedRoundRobin.Next_cases p w fuel hw (by rw [hlen]; exact hinv)
      (by omega)
    have hinv1 := (WeightedRoundRobin.Next_shape N w p fuel res w1 hlen hinv hnext).1
    obtain ⟨results, w', hrun⟩ := ih w1 hinv1 (fun q hq => hp q (List.mem_cons_of_mem _ hq))
    exact ⟨res :: results, w', by simp [WeightedRoundRobin.run, hnext, hrun]⟩

/-- C13. On pools of one length `N ≥ 1`, with any liveness at each call, every
sequence of calls on a fresh strategy keeps the cursor in `[0, N)`. For
`RoundRobin` all calls return and none panics. For `WeightedRoundRobin`, after
every sequence of calls that have returned, the cursor is in range, the counters
have length `N`, no call has panicked and no further call panics, whether it
returns or not; the calls do return when the weights are non-negative. -/
theorem cursor_stays_in_range (N : Nat) (hN : 0 < N) (pools : List (List Node))
    (hp : ∀ p, p ∈ pools → p.length = N) :
    (∃ results r', RoundRobin.run ⟨0⟩ pools = some (results, r') ∧ r'.current < N ∧
      ∀ res, res ∈ results → res ≠ Result.panic) ∧
    (∀ fuel results w', WeightedRoundRobin.run fuel ⟨none, 0⟩ pools = some (results, w') →
      w'.cursor < N ∧ (∀ count, w'.count = some count → count.length = N) ∧
      (pools ≠ [] → w'.count ≠ none) ∧
      (∀ res, res ∈ results → res ≠ Result.panic) ∧
      (∀ fuel' pool res st, pool.length = N → w'.Next fuel' pool = some (res, st) →
        res ≠ Result.panic)) ∧
    ((∀ p, p ∈ pools → ∀ n, n ∈ p → 0 ≤ n.GetMetadataInt "weight" 1) →
      ∀ fuel, N + 2 ≤ fuel →
        ∃ results w', WeightedRoundRobin.run fuel ⟨none, 0⟩ pools = some (results, w')) := by
  refine ⟨RoundRobin.run_in_range N pools ⟨0⟩ hN hp, ?_, ?_⟩
  · intro fuel results w' hrun
    obtain ⟨hinv, hc, hsome, hall⟩ := WeightedRoundRobin.run_shape N hN fuel pools ⟨none, 0⟩
      results w' (by simp [WeightedRoundRobin.Inv]) hN hp hrun
    refine ⟨hc, ?_, hsome, hall, ?_⟩
    · intro count hcount
      unfold WeightedRoundRobin.Inv at hinv
      rw [hcount] at hinv
      exact hinv.1
    · intro fuel' pool res st hlen hnext
      exact (WeightedRoundRobin.Next_shape N w' pool fuel' res st hlen hinv hnext).2
  · intro hw fuel hfuel
    exact WeightedRoundRobin.run_returns N fuel hfuel pools ⟨none, 0⟩
      (by simp [WeightedRoundRobin.Inv]) (fun p hpm => ⟨hp p hpm, hw p hpm⟩)

/-- Instance of C13: two calls on three replicas, the middle one dead at the second call. -/
theorem cursor_stays_in_range_witness :
    (∃ results r', RoundRobin.run ⟨0⟩ [poolAlive3, poolMiddleDead] = some (results, r') ∧
      r'.current < 3 ∧ ∀ res, res ∈ results → res ≠ Result.panic) ∧
    (∀ fuel results w',
      WeightedRoundRobin.run fuel ⟨none, 0⟩ [poolAlive3, poolMiddleDead] = some (results, w') →
      w'.cursor < 3 ∧ (∀ count, w'.count = some count → count.length = 3) ∧
      ([poolAlive3, poolMiddleDead] ≠ [] → w'.count ≠ none) ∧
      (∀ res, res ∈ results → res ≠ Result.panic) ∧
      (∀ fuel' pool res st, pool.length = 3 → w'.Next fuel' pool = some (res, st) →
        res ≠ Result.panic)) ∧
    ((∀ p, p ∈ [poolAlive3, poolMiddleDead] → ∀ n, n ∈ p → 0 ≤ n.GetMetadataInt "weight" 1) →
      ∀ fuel, 3 + 2 ≤ fuel →
        ∃ results w',
          WeightedRoundRobin.run fuel ⟨none, 0⟩ [poolAlive3, poolMiddleDead]
            = some (results, w')) :=
  cursor_stays_in_range 3 (by decide) [poolAlive3, poolMiddleDead] (by decide)


/-! ## `findServiceList` and the iteration order of the registry -/

/-- C14 as stated fails: the registry with "/api" bound to one node list and
"/api/v1" to another resolves the path "/api/v1/x" to the first in one
iteration order and to the second in the other. -/
theorem findServiceList_depends_on_order :
    List.Perm [("/api", listApi), ("/api/v1", listApiV1)]
      [("/api/v1", listApiV1), ("/api", listApi)] ∧
    Server.findServiceList ⟨[("/api", listApi), ("/api/v1", listApiV1)]⟩ "/api/v1/x"
      = Except.ok listApi ∧
    Server.findServiceList ⟨[("/api/v1", listApiV1), ("/api", listApi)]⟩ "/api/v1/x"
      = Except.ok listApiV1 ∧
    listApi ≠ listApiV1 :=
  ⟨List.Perm.swap _ _ [], rfl, rfl, by decide⟩

/-- C14 as amended. For every registry content and every request path,
`findServiceList` returns the same result, node list or error, in every
iteration order of the registry, provided that all configured prefixes that are
prefixes of the path are bound to the same node list, as is the case when at
most one configured prefix is a prefix of the path. -/
theorem Server.findServiceList_order_free (entries1 entries2 : List (String × Golb.NodeList))
    (reqPath : String) (hperm : entries1.Perm entries2)
    (hsame : ∀ m1 sl1 m2 sl2, (m1, sl1) ∈ entries1 → (m2, sl2) ∈ entries1 →
      (∃ rest : String, reqPath = m1 ++ rest) → (∃ rest : String, reqPath = m2 ++ rest) →
      sl1 = sl2) :
    Server.findServiceList ⟨entries1⟩ reqPath = Server.findServiceList ⟨entries2⟩ reqPath := by
  unfold Server.findServiceList
  simp only
  cases h1 : findServiceList.loop reqPath entries1 with
  | none =>
    have hno := (findServiceList.loop_none reqPath entries1).mp h1
    have h2 : findServiceList.loop reqPath entries2 = none :=
      (findServiceList.loop_none reqPath entries2).mpr
        (fun m sl hmem => hno m sl (hperm.mem_iff.mpr hmem))
    rw [h2]
  | some sl1 =>
    obtain ⟨m1, hm1, hp1⟩ := findServiceList.loop_some reqPath entries1 sl1 h1
    cases h2 : findServiceList.loop reqPath entries2 with
    | none =>
      have hno := (findServiceList.loop_none reqPath entries2).mp h2
      have := hno m1 sl1 (hperm.mem_iff.mp hm1)
      rw [hp1] at this
      cases this
    | some sl2 =>
      obtain ⟨m2, hm2, hp2⟩ := findServiceList.loop_some reqPath entries2 sl2 h2
      have := hsame m1 sl1 m2 sl2 hm1 (hperm.mem_iff.mpr hm2)
        ((strings.HasPrefix_iff _ _).mp hp1) ((strings.HasPrefix_iff _ _).mp hp2)
      rw [this]

/-- Instance of the amended C14: "/api" and "/img" in both orders, path "/api/x". -/
theorem Server.findServiceList_order_free_witness :
    Server.findServiceList ⟨[("/api", listApi), ("/img", listApiV1)]⟩ "/api/x"
      = Server.findServiceList ⟨[("/img", listApiV1), ("/api", listApi)]⟩ "/api/x" :=
  Server.findServiceList_order_free [("/api", listApi), ("/img", listApiV1)]
    [("/img", listApiV1), ("/api", listApi)] "/api/x" (List.Perm.swap _ _ [])
    (by
      have hno : strings.HasPrefix "/api/x" "/img" = false := by decide
      intro m1 sl1 m2 sl2 h1 h2 hp1 hp2
      have e1 := (strings.HasPrefix_iff _ _).mpr hp1
      have e2 := (strings.HasPrefix_iff _ _).mpr hp2
      simp only [List.mem_cons, Prod.mk.injEq, List.mem_singleton, List.not_mem_nil,
        or_false] at h1 h2
      rcases h1 with ⟨rfl, rfl⟩ | ⟨rfl, rfl⟩
      · rcases h2 with ⟨rfl, rfl⟩ | ⟨rfl, rfl⟩
        · rfl
        · rw [hno] at e2; cases e2
      · rw [hno] at e1; cases e1)


/-! ## `WeightedRoundRobin.Next`: the candidates of one call -/

/-- Dropping the counter from `WeightedRoundRobin.scan` gives `WeightedRoundRobin.loop`. -/
theorem WeightedRoundRobin.weighted_scan_erase (servers : List Node) :
    ∀ (fuel index : Nat) (choosen : Option Node) (count : List Int) (cursor steps : Nat),
      (WeightedRoundRobin.scan servers fuel index choosen count cursor steps).map
          (fun x => (x.1, x.2.1))
        = WeightedRoundRobin.loop servers fuel index choosen count cursor := by
  intro fuel
  induction fuel with
  | zero => intro index choosen count cursor steps; rfl
  | succ fuel ih =>
    intro index choosen count cursor steps
    unfold WeightedRoundRobin.scan WeightedRoundRobin.loop
    split
    · split
      · rfl
      · simp only
        split
        · split
          · exact ih _ _ _ _ _
          · rfl
        · split
          · rfl
          · split
            · rfl
            · exact ih _ _ _ _ _
    · rfl

theorem WeightedRoundRobin.NextSteps_erase (fuel : Nat) (w : WeightedRoundRobin)
    (servers : List Node) :
    (w.NextSteps fuel servers).map (fun x => (x.1, x.2.1)) = w.Next fuel servers := by
  unfold WeightedRoundRobin.NextSteps WeightedRoundRobin.Next
  split <;> exact WeightedRoundRobin.weighted_scan_erase servers _ _ _ _ _ _

/-- Every candidate examined costs one loop test. -/
theorem WeightedRoundRobin.scan_steps_le (servers : List Node) :
    ∀ (fuel index : Nat) (choosen : Option Node) (count : List Int) (cursor steps : Nat)
      (res : Result) (w' : WeightedRoundRobin) (m : Nat),
      WeightedRoundRobin.scan servers fuel index choosen count cursor steps = some (res, w', m) →
      m ≤ steps + fuel := by
  intro fuel
  induction fuel with
  | zero => intro index choosen count cursor steps res w' m h; simp [WeightedRoundRobin.scan] at h
  | succ fuel ih =>
    intro index choosen count cursor steps res w' m h
    unfold WeightedRoundRobin.scan at h
    split at h
    · split at h
      · cases h; omega
      · simp only at h
        split at h
        · split at h
          · have := ih _ _ _ _ _ _ _ _ h; omega
          · cases h; omega
        · split at h
          · cases h; omega
          · split at h
            · cases h; omega
            · have := ih _ _ _ _ _ _ _ _ h; omega
    · cases h; omega

/-- More loop tests do not change what a call that returns has done. -/
theorem WeightedRoundRobin.scan_mono (servers : List Node) (d : Nat) :
    ∀ (fuel index : Nat) (choosen : Option Node) (count : List Int) (cursor steps : Nat)
      (x : Result × WeightedRoundRobin × Nat),
      WeightedRoundRobin.scan servers fuel index choosen count cursor steps = some x →
      WeightedRoundRobin.scan servers (fuel + d) index choosen count cursor steps = some x := by
  intro fuel
  induction fuel with
  | zero => intro index choosen count cursor steps x h; simp [WeightedRoundRobin.scan] at h
  | succ fuel ih =>
    intro index choosen count cursor steps x h
    have hf : fuel + 1 + d = (fuel + d) + 1 := by omega
    rw [hf]
    unfold WeightedRoundRobin.scan at h ⊢
    split
    · next hi =>
      rw [if_pos hi] at h
      split
      · next hs => rw [hs] at h; exact h
      · next n hs =>
        rw [hs] at h
        simp only at h ⊢
        split
        · next hd =>
          rw [if_pos hd] at h
          split
          · next hl => rw [if_pos hl] at h; exact ih _ _ _ _ _ _ h
          · next hl => rw [if_neg hl] at h; exact h
        · next hd =>
          rw [if_neg hd] at h
          split
          · next hc => rw [hc] at h; exact h
          · next c hc =>
            rw [hc] at h
            simp only at h ⊢
            split
            · next hcap => rw [if_pos hcap] at h; exact h
            · next hcap => rw [if_neg hcap] at h; exact ih _ _ _ _ _ _ h
    · next hi => rw [if_neg hi] at h; exact h

/-- With all counters at 0, non-negative weights and an alive candidate `j0`
positions ahead, the loop returns a replica within `j0 + 1` loop tests. -/
theorem WeightedRoundRobin.loop_zero_alive (servers : List Node)
    (hw : ∀ n, n ∈ servers → 0 ≤ n.GetMetadataInt "weight" 1) (j0 : Nat) :
    ∀ (fuel index : Nat) (choosen : Option Node) (count : List Int) (cursor : Nat),
      index + j0 < servers.length → j0 < fuel → count.length = servers.length →
      (∀ (i : Nat) (c : Int), count[i]? = some c → c = 0) → cursor < servers.length →
      (∃ n, servers[(cursor + j0) % servers.length]? = some n ∧ n.alive = true) →
      ∃ res w', WeightedRoundRobin.loop servers fuel index choosen count cursor = some (res, w') ∧
        ∃ n, res = Result.ok n ∧ n ∈ servers ∧ n.alive = true := by
  induction j0 with
  | zero =>
    intro fuel index choosen count cursor hi hf hlen hzero hc ⟨n, hn, ha⟩
    obtain ⟨fuel, rfl⟩ : ∃ f, fuel = f + 1 := ⟨fuel - 1, by omega⟩
    rw [Nat.add_zero, Nat.mod_eq_of_lt hc] at hn
    have hi' : index < servers.length := by omega
    have hcl : cursor < count.length := by omega
    obtain ⟨c, hcnt⟩ : ∃ c, count[cursor]? = some c :=
      ⟨count[cursor], List.getElem?_eq_getElem hcl⟩
    have hc0 : c = 0 := hzero _ _ hcnt
    subst hc0
    have hmem : n ∈ servers := List.getElem?_mem hn
    exact ⟨Result.ok n, ⟨some (count.set cursor (wrapInt (0 + 1))), cursor⟩,
      by simp [WeightedRoundRobin.loop, hi', hn, Node.IsAlive, ha, hcnt, hw n hmem],
      n, rfl, hmem, ha⟩
  | succ j0 ih =>
    intro fuel index choosen count cursor hi hf hlen hzero hc ⟨n, hn, ha⟩
    obtain ⟨fuel, rfl⟩ : ∃ f, fuel = f + 1 := ⟨fuel - 1, by omega⟩
    obtain ⟨m, hm⟩ : ∃ m, servers[cursor]? = some m :=
      ⟨servers[cursor], List.getElem?_eq_getElem hc⟩
    have hmem : m ∈ servers := List.getElem?_mem hm
    have hi' : index < servers.length := by omega
    have hcl : cursor < count.length := by omega
    by_cases hma : m.alive = true
    · obtain ⟨c, hcnt⟩ : ∃ c, count[cursor]? = some c :=
        ⟨count[cursor], List.getElem?_eq_getElem hcl⟩
      have hc0 : c = 0 := hzero _ _ hcnt
      subst hc0
      exact ⟨Result.ok m, ⟨some (count.set cursor (wrapInt (0 + 1))), cursor⟩,
        by simp [WeightedRoundRobin.loop, hi', hm, Node.IsAlive, hma, hcnt, hw m hmem],
        m, rfl, hmem, hma⟩
    · have hmd : m.alive = false := by simpa using hma
      have hlt : (cursor + 1) % servers.length < servers.length := Nat.mod_lt _ (by omega)
      obtain ⟨res, w', hloop, hres⟩ := ih fuel (index + 1) (some m) (count.set cursor 0)
        ((cursor + 1) % servers.length) (by omega) (by omega) (by simpa using hlen)
        (set_zero_allZero count cursor (fun i c _ h => hzero i c h)) hlt
        ⟨n, by rw [succ_mod_add]; exact hn, ha⟩
      exact ⟨res, w', by simp [WeightedRoundRobin.loop, hi', hm, Node.IsAlive, hmd, hcl, hloop],
        hres⟩

/-- One call of `WeightedRoundRobin.Next` on a strategy in shape, with
non-negative weights, returns within `len(servers) + 1` loop tests. -/
theorem WeightedRoundRobin.Next_returns (servers : List Node) (w : WeightedRoundRobin)
    (fuel : Nat) (hw : ∀ n, n ∈ servers → 0 ≤ n.GetMetadataInt "weight" 1)
    (hinv : WeightedRoundRobin.Inv servers.length w) (hfuel : servers.length + 1 ≤ fuel) :
    ∃ res w', w.Next fuel servers = some (res, w') := by
  have hzrep : ∀ (i : Nat) (c : Int),
      (List.replicate servers.length (0 : Int))[i]? = some c → c = 0 := by
    intro i c hic
    rw [List.getElem?_replicate] at hic
    split at hic
    · exact (Option.some.inj hic).symm
    · cases hic
  unfold WeightedRoundRobin.Next
  unfold WeightedRoundRobin.Inv at hinv
  split
  · obtain ⟨res, w', hloop, _⟩ := WeightedRoundRobin.loop_zero servers hw servers.length fuel 0
      none (List.replicate servers.length 0) 0 (by omega) (by omega) (by simp) hzrep
      (fun hne => List.length_pos.mpr hne)
    exact ⟨res, w', hloop⟩
  · next count hcount =>
    rw [hcount] at hinv
    obtain ⟨hlen, hcur, hz⟩ := hinv
    by_cases h0 : servers = []
    · have hcz : ∀ (i : Nat) (c : Int), count[i]? = some c → c = 0 := by
        intro i c hic
        have : count = [] := List.length_eq_zero.mp (by rw [hlen, h0]; rfl)
        rw [this] at hic
        cases hic
      obtain ⟨res, w', hloop, _⟩ := WeightedRoundRobin.loop_zero servers hw servers.length
        fuel 0 none count w.cursor (by omega) (by omega) hlen hcz (fun hne => absurd h0 hne)
      exact ⟨res, w', hloop⟩
    · have hN : 0 < servers.length := List.length_pos.mpr h0
      have hc : w.cursor < servers.length := hcur (by omega)
      have hcl : w.cursor < count.length := by rw [hlen]; exact hc
      obtain ⟨fuel, rfl⟩ : ∃ f, fuel = f + 1 := ⟨fuel - 1, by omega⟩
      obtain ⟨m, hm⟩ : ∃ m, servers[w.cursor]? = some m :=
        ⟨servers[w.cursor], List.getElem?_eq_getElem hc⟩
      obtain ⟨c, hcnt⟩ : ∃ c, count[w.cursor]? = some c :=
        ⟨count[w.cursor], List.getElem?_eq_getElem hcl⟩
      have hlt : (w.cursor + 1) % servers.length < servers.length := Nat.mod_lt _ hN
      have hzs := set_zero_allZero count w.cursor hz
      by_cases ha : m.alive = true
      · by_cases hcap : c ≤ m.GetMetadataInt "weight" 1
        · exact ⟨Result.ok m, ⟨some (count.set w.cursor (wrapInt (c + 1))), w.cursor⟩,
            by simp [WeightedRoundRobin.loop, hN, hm, Node.IsAlive, ha, hcnt, hcap]⟩
        · have hback : servers[((w.cursor + 1) % servers.length + (servers.length - 1))
              % servers.length]? = some m := by
            rw [succ_mod_add]
            have : servers.length - 1 + 1 = servers.length := by omega
            rw [this, Nat.add_mod_right, Nat.mod_eq_of_lt hc]
            exact hm
          obtain ⟨res, w', hloop, _⟩ := WeightedRoundRobin.loop_zero_alive servers hw
            (servers.length - 1) fuel 0 (some m) (count.set w.cursor 0)
            ((w.cursor + 1) % servers.length) (by omega) (by omega) (by simpa using hlen) hzs hlt
            ⟨m, hback, ha⟩
          exact ⟨res, w', by
            simp [WeightedRoundRobin.loop, hN, hm, Node.IsAlive, ha, hcnt, hcap, hloop]⟩
      · have hmd : m.alive = false := by simpa using ha
        obtain ⟨res, w', hloop, _⟩ := WeightedRoundRobin.loop_zero servers hw
          (servers.length - 1) fuel 1 (some m) (count.set w.cursor 0)
          ((w.cursor + 1) % servers.length)
          (by omega) (by omega) (by simpa using hlen) hzs (fun _ => hlt)
        exact ⟨res, w', by
          simp [WeightedRoundRobin.loop, hN, hm, Node.IsAlive, hmd, hcl, hloop]⟩

/-- C17 as stated fails: on the pool of one alive replica of weight 1 the
strategy reaches, after two calls, the state with counter 2; the next call
examines the replica twice, once to reset its counter and once to return it,
which is more than the length of the pool. -/
theorem WeightedRoundRobin.scans_more_than_pool :
    WeightedRoundRobin.Reachable poolSingle ⟨some [2], 0⟩ ∧
    WeightedRoundRobin.NextSteps 2 ⟨some [2], 0⟩ poolSingle
      = some (Result.ok R1, ⟨some [1], 0⟩, 2) ∧
    ¬ 2 ≤ poolSingle.length :=
  ⟨WeightedRoundRobin.Reachable.call 2 ⟨some [1], 0⟩ ⟨some [2], 0⟩ poolSingle (Result.ok R1)
      (WeightedRoundRobin.Reachable.call 2 ⟨none, 0⟩ ⟨some [1], 0⟩ poolSingle (Result.ok R1)
        WeightedRoundRobin.Reachable.fresh rfl (by decide))
      rfl (by decide),
    by decide, by decide⟩

/-- C17 as amended. For every pool of length `N` whose replicas have a
non-negative weight and every state of a `WeightedRoundRobin` reachable from a
fresh strategy on that pool, a single call of `Next` returns and has examined
at most `N + 1` candidates. -/
theorem WeightedRoundRobin.scans_at_most_succ (servers : List Node) (w : WeightedRoundRobin)
    (fuel : Nat) (hw : ∀ n, n ∈ servers → 0 ≤ n.GetMetadataInt "weight" 1)
    (hr : WeightedRoundRobin.Reachable servers w) (hfuel : servers.length + 1 ≤ fuel) :
    ∃ res w' m, w.NextSteps fuel servers = some (res, w', m) ∧ m ≤ servers.length + 1 ∧
      w.Next fuel servers = some (res, w') := by
  obtain ⟨res, w', hnext⟩ := WeightedRoundRobin.Next_returns servers w (servers.length + 1) hw
    hr.inv (Nat.le_refl _)
  have herase := WeightedRoundRobin.NextSteps_erase (servers.length + 1) w servers
  rw [hnext] at herase
  obtain ⟨x, hx, hxe⟩ := Option.map_eq_some'.mp herase
  obtain ⟨res0, w0, m⟩ := x
  simp only [Prod.mk.injEq] at hxe
  obtain ⟨rfl, rfl⟩ := hxe
  have hm : m ≤ servers.length + 1 := by
    unfold WeightedRoundRobin.NextSteps at hx
    split at hx
    · have := WeightedRoundRobin.scan_steps_le servers _ _ _ _ _ _ _ _ _ hx; omega
    · have := WeightedRoundRobin.scan_steps_le servers _ _ _ _ _ _ _ _ _ hx; omega
  have hfull : w.NextSteps fuel servers = some (res0, w0, m) := by
    obtain ⟨d, rfl⟩ : ∃ d, fuel = servers.length + 1 + d := ⟨fuel - (servers.length + 1), by omega⟩
    unfold WeightedRoundRobin.NextSteps at hx ⊢
    split at hx
    · exact WeightedRoundRobin.scan_mono servers d _ _ _ _ _ _ _ hx
    · exact WeightedRoundRobin.scan_mono servers d _ _ _ _ _ _ _ hx
  refine ⟨res0, w0, m, hfull, hm, ?_⟩
  have := WeightedRoundRobin.NextSteps_erase fuel w servers
  rw [hfull] at this
  exact this.symm

/-- Instance of the amended C17: the call that examines two candidates on a pool of one. -/
theorem WeightedRoundRobin.scans_at_most_succ_witness :
    ∃ res w' m, WeightedRoundRobin.NextSteps 2 ⟨some [2], 0⟩ poolSingle = some (res, w', m) ∧
      m ≤ poolSingle.length + 1 ∧
      WeightedRoundRobin.Next 2 ⟨some [2], 0⟩ poolSingle = some (res, w') :=
  WeightedRoundRobin.scans_at_most_succ poolSingle ⟨some [2], 0⟩ 2 (by decide)
    (WeightedRoundRobin.Reachable.call 2 ⟨some [1], 0⟩ ⟨some [2], 0⟩ poolSingle (Result.ok R1)
      (WeightedRoundRobin.Reachable.call 2 ⟨none, 0⟩ ⟨some [1], 0⟩ poolSingle (Result.ok R1)
        WeightedRoundRobin.Reachable.fresh rfl (by decide))
      rfl (by decide))
    (by decide)


/-! ## `WeightedRoundRobin`: the counters -/

/-- The integer read from the metadata depends on the metadata alone. -/
theorem Node.GetMetadataInt_congr (n n' : Node) (key : String) (d : Int)
    (h : n.Metadata = n'.Metadata) : n.GetMetadataInt key d = n'.GetMetadataInt key d := by
  unfold Node.GetMetadataInt Node.GetMetadata
  rw [h]

/-- Pools that show the same replicas carry the same weights, position by position. -/
theorem SameReplicas.weight_eq {p q : List Node} (h : SameReplicas p q) (i : Nat) (n n' : Node)
    (hn : p[i]? = some n) (hn' : q[i]? = some n') :
    n.GetMetadataInt "weight" 1 = n'.GetMetadataInt "weight" 1 := by
  have := congrArg (fun l => l[i]?) h
  simp only [List.getElem?_map, hn, hn', Option.map_some', Option.some.injEq,
    Prod.mk.injEq] at this
  exact Node.GetMetadataInt_congr n n' _ _ this.2

theorem wrapInt_succ (c : Int) (h0 : 0 ≤ c) (h1 : c + 1 ≤ maxInt) : wrapInt (c + 1) = c + 1 := by
  unfold wrapInt
  unfold maxInt at h1
  omega

/-- A call that returns keeps the counter at the cursor between 0 and the
weight of the replica there plus 1, for weights from 0 to below the largest `int`. -/
theorem WeightedRoundRobin.loop_bounded (servers pool : List Node)
    (hw : ∀ n, n ∈ servers → 0 ≤ n.GetMetadataInt "weight" 1 ∧ n.GetMetadataInt "weight" 1 < maxInt)
    (hsame : SameReplicas pool servers) :
    ∀ (fuel index : Nat) (choosen : Option Node) (count : List Int) (cursor : Nat)
      (res : Result) (w' : WeightedRoundRobin),
      WeightedRoundRobin.Shape servers.length count cursor →
      (∀ (c : Int) (n : Node), count[cursor]? = some c → servers[cursor]? = some n →
        0 ≤ c ∧ c ≤ n.GetMetadataInt "weight" 1 + 1) →
      WeightedRoundRobin.loop pool fuel index choosen count cursor = some (res, w') →
      ∀ cnt, w'.count = some cnt →
        ∀ (c : Int) (n : Node), cnt[w'.cursor]? = some c → servers[w'.cursor]? = some n →
          0 ≤ c ∧ c ≤ n.GetMetadataInt "weight" 1 + 1 := by
  have hlen : pool.length = servers.length := hsame.length_eq
  have hzero_bound : ∀ (count : List Int) (cursor : Nat),
      WeightedRoundRobin.Shape servers.length count cursor →
      ∀ (c : Int) (n : Node),
        (count.set cursor 0)[(cursor + 1) % pool.length]? = some c →
        servers[(cursor + 1) % pool.length]? = some n →
        0 ≤ c ∧ c ≤ n.GetMetadataInt "weight" 1 + 1 := by
    intro count cursor hs c n hc hn
    have hc0 : c = 0 := set_zero_allZero count cursor hs.2.2 _ _ hc
    have := (hw n (List.getElem?_mem hn)).1
    subst hc0
    omega
  intro fuel
  induction fuel with
  | zero => intro index choosen count cursor res w' _ _ h; simp [WeightedRoundRobin.loop] at h
  | succ fuel ih =>
    intro index choosen count cursor res w' hs hb h
    by_cases hi : index < pool.length
    · have hN : 0 < servers.length := by omega
      have hc : cursor < servers.length := hs.2.1 (by omega)
      have hcl : cursor < count.length := by rw [hs.1]; exact hc
      have hcp : cursor < pool.length := by omega
      obtain ⟨m, hm⟩ : ∃ m, pool[cursor]? = some m :=
        ⟨pool[cursor], List.getElem?_eq_getElem hcp⟩
      obtain ⟨m', hm'⟩ : ∃ m', servers[cursor]? = some m' :=
        ⟨servers[cursor], List.getElem?_eq_getElem hc⟩
      obtain ⟨c, hcnt⟩ : ∃ c, count[cursor]? = some c :=
        ⟨count[cursor], List.getElem?_eq_getElem hcl⟩
      have hadv : WeightedRoundRobin.Shape servers.length (count.set cursor 0)
          ((cursor + 1) % pool.length) := by
        rw [hlen]; exact hs.advance hN
      by_cases ha : m.alive = true
      · by_cases hcap : c ≤ m.GetMetadataInt "weight" 1
        · simp [WeightedRoundRobin.loop, hi, hm, Node.IsAlive, ha, hcnt, hcap] at h
          obtain ⟨rfl, rfl⟩ := h
          intro cnt hcntEq c' n hc' hn
          simp only [Option.some.injEq] at hcntEq
          subst hcntEq
          rw [List.getElem?_set_self hcl] at hc'
          simp only at hn
          rw [hm'] at hn
          cases hn
          cases hc'
          have hweq := hsame.weight_eq cursor m m' hm hm'
          have hbc := hb c m' hcnt hm'
          have hwm := hw m' (List.getElem?_mem hm')
          rw [wrapInt_succ c hbc.1 (by omega)]
          omega
        · simp [WeightedRoundRobin.loop, hi, hm, Node.IsAlive, ha, hcnt, hcap] at h
          exact ih _ _ _ _ _ _ hadv (hzero_bound count cursor hs) h
      · have hmd : m.alive = false := by simpa using ha
        simp [WeightedRoundRobin.loop, hi, hm, Node.IsAlive, hmd, hcl] at h
        exact ih _ _ _ _ _ _ hadv (hzero_bound count cursor hs) h
    · simp only [WeightedRoundRobin.loop, hi, if_false, Option.some.injEq] at h
      unfold WeightedRoundRobin.finish at h
      intro cnt hcntEq
      split at h
      · cases h
        simp only [Option.some.injEq] at hcntEq
        subst hcntEq
        exact hb
      · split at h <;>
        · cases h
          simp only [Option.some.injEq] at hcntEq
          subst hcntEq
          exact hb

/-- Every reachable strategy is in shape and has its counter at the cursor
between 0 and the weight there plus 1. -/
theorem WeightedRoundRobin.Reachable.bounded {servers : List Node} {w : WeightedRoundRobin}
    (hw : ∀ n, n ∈ servers → 0 ≤ n.GetMetadataInt "weight" 1 ∧ n.GetMetadataInt "weight" 1 < maxInt)
    (h : WeightedRoundRobin.Reachable servers w) :
    ∀ cnt, w.count = some cnt →
      ∀ (c : Int) (n : Node), cnt[w.cursor]? = some c → servers[w.cursor]? = some n →
        0 ≤ c ∧ c ≤ n.GetMetadataInt "weight" 1 + 1 := by
  induction h with
  | fresh => intro cnt h; cases h
  | call fuel w w' pool res hreach hsame hnext ih =>
    have hinv := hreach.inv
    unfold WeightedRoundRobin.Next at hnext
    unfold WeightedRoundRobin.Inv at hinv
    split at hnext
    · refine WeightedRoundRobin.loop_bounded servers pool hw hsame _ _ _ _ _ _ _
        ⟨by rw [List.length_replicate]; exact hsame.length_eq, fun h0 => by omega, ?_⟩ ?_ hnext
      · intro i c _ hic
        rw [List.getElem?_replicate] at hic
        split at hic
        · exact (Option.some.inj hic).symm
        · cases hic
      · intro c n hc hn
        rw [List.getElem?_replicate] at hc
        split at hc
        · have := (hw n (List.getElem?_mem hn)).1
          cases hc
          omega
        · cases hc
    · next count hcount =>
      rw [hcount] at hinv
      exact WeightedRoundRobin.loop_bounded servers pool hw hsame _ _ _ _ _ _ _ hinv
        (ih count hcount) hnext

/-- With all counters at 0, a call that fails leaves all counters at 0. -/
theorem WeightedRoundRobin.loop_err_zero (servers : List Node) :
    ∀ (fuel index : Nat) (choosen : Option Node) (count : List Int) (cursor : Nat)
      (msg : String) (w' : WeightedRoundRobin),
      (∀ (i : Nat) (c : Int), count[i]? = some c → c = 0) →
      WeightedRoundRobin.loop servers fuel index choosen count cursor
        = some (Result.err msg, w') →
      ∃ cnt, w'.count = some cnt ∧ ∀ (i : Nat) (c : Int), cnt[i]? = some c → c = 0 := by
  intro fuel
  induction fuel with
  | zero => intro index choosen count cursor msg w' _ h; simp [WeightedRoundRobin.loop] at h
  | succ fuel ih =>
    intro index choosen count cursor msg w' hz h
    have hzs := set_zero_allZero count cursor (fun i c _ h => hz i c h)
    unfold WeightedRoundRobin.loop at h
    split at h
    · split at h
      · cases h
      · simp only at h
        split at h
        · split at h
          · exact ih _ _ _ _ _ _ hzs h
          · cases h
        · split at h
          · cases h
          · split at h
            · cases h
            · exact ih _ _ _ _ _ _ hzs h
    · unfold WeightedRoundRobin.finish at h
      split at h
      · cases h; exact ⟨count, rfl, hz⟩
      · split at h
        · cases h; exact ⟨count, rfl, hz⟩
        · cases h

/-- A call on a strategy in shape that fails leaves all counters at 0. -/
theorem WeightedRoundRobin.Next_err_zero (w : WeightedRoundRobin) (servers : List Node)
    (fuel : Nat) (msg : String) (w' : WeightedRoundRobin)
    (hinv : WeightedRoundRobin.Inv servers.length w)
    (h : w.Next fuel servers = some (Result.err msg, w')) :
    ∃ cnt, w'.count = some cnt ∧ ∀ (i : Nat) (c : Int), cnt[i]? = some c → c = 0 := by
  unfold WeightedRoundRobin.Next at h
  unfold WeightedRoundRobin.Inv at hinv
  split at h
  · refine WeightedRoundRobin.loop_err_zero servers _ _ _ _ _ _ _ ?_ h
    intro i c hic
    rw [List.getElem?_replicate] at hic
    split at hic
    · exact (Option.some.inj hic).symm
    · cases hic
  · next count hcount =>
    rw [hcount] at hinv
    obtain ⟨hlen, hcur, hz⟩ := hinv
    have hzs := set_zero_allZero count w.cursor hz
    cases fuel with
    | zero => simp [WeightedRoundRobin.loop] at h
    | succ fuel =>
      unfold WeightedRoundRobin.loop at h
      split at h
      · split at h
        · cases h
        · simp only at h
          split at h
          · split at h
            · exact WeightedRoundRobin.loop_err_zero servers _ _ _ _ _ _ _ hzs h
            · cases h
          · split at h
            · cases h
            · split at h
              · cases h
              · exact WeightedRoundRobin.loop_err_zero servers _ _ _ _ _ _ _ hzs h
      · next hi =>
        have h0 : count = [] := List.length_eq_zero.mp (by omega)
        unfold WeightedRoundRobin.finish at h
        simp only at h
        cases h
        refine ⟨count, rfl, ?_⟩
        intro i c hic
        rw [h0] at hic
        cases hic

/-- One call on the pool of one alive replica whose weight is the largest
`int`: whatever the counter, the replica is returned and the counter
incremented with wrap-around. -/
theorem WeightedRoundRobin.Next_maxWeight (c : Int) (hc : c ≤ maxInt) :
    WeightedRoundRobin.Next 1 ⟨some [c], 0⟩ poolMaxWeight
      = some (Result.ok poolMaxWeight[0], ⟨some [wrapInt (c + 1)], 0⟩) := by
  have hw : (poolMaxWeight[0]).GetMetadataInt "weight" 1 = maxInt := by decide
  simp [WeightedRoundRobin.Next, WeightedRoundRobin.loop, poolMaxWeight, Node.IsAlive] at hw ⊢
  simp [hw, hc]

/-- On that pool the counter takes every value from 1 to the largest `int`. -/
theorem WeightedRoundRobin.reach_maxWeight (k : Nat) :
    (k : Int) + 1 ≤ maxInt →
    WeightedRoundRobin.Reachable poolMaxWeight ⟨some [(k : Int) + 1], 0⟩ := by
  induction k with
  | zero =>
    intro _
    exact WeightedRoundRobin.Reachable.call 1 ⟨none, 0⟩ _ poolMaxWeight (Result.ok poolMaxWeight[0])
      WeightedRoundRobin.Reachable.fresh rfl (by decide)
  | succ k ih =>
    intro hk
    have hk' : (k : Int) + 1 ≤ maxInt := by push_cast at hk; omega
    have hstep := WeightedRoundRobin.Next_maxWeight ((k : Int) + 1) hk'
    rw [wrapInt_succ _ (by omega) (by push_cast at hk; omega)] at hstep
    have hcast : ((k + 1 : Nat) : Int) + 1 = (k : Int) + 1 + 1 := by push_cast; ring
    rw [hcast]
    exact WeightedRoundRobin.Reachable.call 1 _ _ poolMaxWeight _ (ih hk') rfl hstep

/-- C19 as stated fails: on the pool of one alive replica whose weight is the
largest `int`, a non-negative weight, the strategy reaches a state whose counter
at the cursor is the smallest `int`, which is negative: the increment of the
counter wraps around. -/
theorem WeightedRoundRobin.counter_wraps :
    (∀ n, n ∈ poolMaxWeight → 0 ≤ n.GetMetadataInt "weight" 1) ∧
    WeightedRoundRobin.Reachable poolMaxWeight ⟨some [minInt], 0⟩ ∧
    ¬ (0 : Int) ≤ minInt := by
  refine ⟨by decide, ?_, by decide⟩
  have hreach := WeightedRoundRobin.reach_maxWeight 9223372036854775806 (by decide)
  have hstep := WeightedRoundRobin.Next_maxWeight
    (((9223372036854775806 : Nat) : Int) + 1) (by decide)
  have hwrap : wrapInt (((9223372036854775806 : Nat) : Int) + 1 + 1) = minInt := by decide
  rw [hwrap] at hstep
  exact WeightedRoundRobin.Reachable.call 1 _ _ poolMaxWeight _ hreach rfl hstep

/-- C19 as amended. For every pool of fixed length `N` whose weights are
non-negative and below the largest `int`, after any finite sequence of `Next`
calls from a fresh strategy, with any liveness at each call, the counters have
length `N`, `count[i] = 0` for every index `i` other than the cursor, and
`0 ≤ count[cursor] ≤ weight(pool[cursor]) + 1`; a failed call leaves every
counter at 0. -/
theorem WeightedRoundRobin.counter_invariant (servers : List Node) (w : WeightedRoundRobin)
    (hw : ∀ n, n ∈ servers → 0 ≤ n.GetMetadataInt "weight" 1 ∧ n.GetMetadataInt "weight" 1 < maxInt)
    (hr : WeightedRoundRobin.Reachable servers w) :
    (∀ count, w.count = some count →
      count.length = servers.length ∧
      (∀ (i : Nat) (c : Int), i ≠ w.cursor → count[i]? = some c → c = 0) ∧
      (∀ (c : Int) (n : Node), count[w.cursor]? = some c → servers[w.cursor]? = some n →
        0 ≤ c ∧ c ≤ n.GetMetadataInt "weight" 1 + 1)) ∧
    (∀ (fuel : Nat) (pool : List Node) (msg : String) (w' : WeightedRoundRobin),
      SameReplicas pool servers → w.Next fuel pool = some (Result.err msg, w') →
      ∃ count, w'.count = some count ∧ ∀ (i : Nat) (c : Int), count[i]? = some c → c = 0) := by
  have hinv := hr.inv
  refine ⟨?_, ?_⟩
  · intro count hcount
    have hb := hr.bounded hw count hcount
    unfold WeightedRoundRobin.Inv at hinv
    rw [hcount] at hinv
    exact ⟨hinv.1, hinv.2.2, hb⟩
  · intro fuel pool msg w' hsame hnext
    exact WeightedRoundRobin.Next_err_zero w pool fuel msg w'
      (by rw [hsame.length_eq]; exact hinv) hnext

/-- Instance of the amended C19: the state of the pool `[R1, R2]` after two calls. -/
theorem WeightedRoundRobin.counter_invariant_witness :
    (∀ count, (WeightedRoundRobin.mk (some [2, 0]) 0).count = some count →
      count.length = poolR1R2.length ∧
      (∀ (i : Nat) (c : Int), i ≠ (WeightedRoundRobin.mk (some [2, 0]) 0).cursor →
        count[i]? = some c → c = 0) ∧
      (∀ (c : Int) (n : Node), count[(WeightedRoundRobin.mk (some [2, 0]) 0).cursor]? = some c →
        poolR1R2[(WeightedRoundRobin.mk (some [2, 0]) 0).cursor]? = some n →
        0 ≤ c ∧ c ≤ n.GetMetadataInt "weight" 1 + 1)) ∧
    (∀ (fuel : Nat) (pool : List Node) (msg : String) (w' : WeightedRoundRobin),
      SameReplicas pool poolR1R2 →
      WeightedRoundRobin.Next fuel ⟨some [2, 0], 0⟩ pool = some (Result.err msg, w') →
      ∃ count, w'.count = some count ∧ ∀ (i : Nat) (c : Int), count[i]? = some c → c = 0) :=
  WeightedRoundRobin.counter_invariant poolR1R2 ⟨some [2, 0], 0⟩ (by decide)
    (WeightedRoundRobin.Reachable.call 4 ⟨some [1, 0], 0⟩ ⟨some [2, 0], 0⟩ poolR1R2 (Result.ok R1)
      (WeightedRoundRobin.Reachable.call 4 ⟨none, 0⟩ ⟨some [1, 0], 0⟩ poolR1R2 (Result.ok R1)
        WeightedRoundRobin.Reachable.fresh rfl (by decide))
      rfl (by decide))

/-! ## `ServeHTTP`: when a response is produced -/

/-- `Next` through the interface on a node list that is ready, given
`len + 2` loop tests: it returns an alive member of the list, or it fails and
every replica of the list is dead. -/
theorem BalancingStrategy.Next_ready (sl : NodeList) (fuel : Nat) (hready : sl.Ready)
    (hfuel : sl.Nodes.length + 2 ≤ fuel) :
    ∃ res st, sl.Strategy.Next fuel sl.Nodes = some (res, st) ∧
      ((∃ n, res = Result.ok n ∧ n ∈ sl.Nodes ∧ n.alive = true) ∨
       (res = Result.err "no available servers" ∧ ∀ n, n ∈ sl.Nodes → n.alive = false)) := by
  unfold NodeList.Ready at hready
  cases hst : sl.Strategy with
  | roundRobin r =>
    rw [hst] at hready
    simp only at hready
    by_cases hex : ∃ n, n ∈ sl.Nodes ∧ n.alive = true
    · have hne : sl.Nodes ≠ [] := by
        obtain ⟨n, hn, _⟩ := hex
        exact List.ne_nil_of_mem hn
      obtain ⟨k, n, _, hn, ha, _, hnext⟩ := RoundRobin.Next_alive r sl.Nodes (hready hne) hex
      exact ⟨Result.ok n,
        BalancingStrategy.roundRobin ⟨(r.current + k + 1) % sl.Nodes.length⟩,
        by simp [BalancingStrategy.Next, hnext], Or.inl ⟨n, rfl, List.getElem?_mem hn, ha⟩⟩
    · have hall : ∀ n, n ∈ sl.Nodes → n.alive = false := by
        intro n hn
        by_contra hna
        exact hex ⟨n, hn, by simpa using hna⟩
      have hnext := RoundRobin.Next_dead r sl.Nodes hready hall
      exact ⟨Result.err "no available servers", BalancingStrategy.roundRobin r,
        by simp [BalancingStrategy.Next, hnext], Or.inr ⟨rfl, hall⟩⟩
  | weightedRoundRobin w =>
    rw [hst] at hready
    simp only at hready
    obtain ⟨res, w', hnext, hres⟩ :=
      WeightedRoundRobin.Next_cases sl.Nodes w fuel hready.2 hready.1.inv hfuel
    exact ⟨res, BalancingStrategy.weightedRoundRobin w',
      by simp [BalancingStrategy.Next, hnext], hres⟩

/-- C6 as stated fails: the registry with one `WeightedRoundRobin` service at
"/api" over one alive replica of weight -1 matches the path "/api/x", and
`ServeHTTP` is still waiting for `Next` after any number of loop tests: it
answers neither 404 nor 500 and forwards nothing. -/
theorem Server.ServeHTTP_never_responds :
    Server.findServiceList ⟨[("/api", listNegative)]⟩ "/api/x" = Except.ok listNegative ∧
    (∀ fuel, Server.ServeHTTP fuel ⟨[("/api", listNegative)]⟩ "/api/x" = none) := by
  refine ⟨rfl, ?_⟩
  intro fuel
  have hfind : Server.findServiceList ⟨[("/api", listNegative)]⟩ "/api/x"
      = Except.ok listNegative := rfl
  have hnext : listNegative.Strategy.Next fuel listNegative.Nodes = none := by
    show (WeightedRoundRobin.Next fuel ⟨none, 0⟩ poolNegative).map _ = none
    have h : WeightedRoundRobin.Next fuel ⟨none, 0⟩ poolNegative = none :=
      WeightedRoundRobin.loop_negative fuel none
    rw [h]
    rfl
  unfold Server.ServeHTTP
  rw [hfind]
  simp only [hnext]

/-- C6 as amended. For every registry in which the strategy of every node list
is ready (a `RoundRobin` cursor in range, or a `WeightedRoundRobin` state
reached from a fresh strategy by calls on the replicas of the list, all of
non-negative weight) and every request path, `ServeHTTP` produces a response,
which is one of three: 404, 500, or the hand-over to a replica. It is 404, with
the server as it was, exactly when `findServiceList` fails; otherwise it is 500
exactly when `Next` of the matched list fails, which is exactly when no replica
of that list is alive; otherwise it is the hand-over to exactly the replica that
`Next` returned, an alive member of that list. -/
theorem Server.ServeHTTP_trichotomy (fuel : Nat) (s : Server) (reqPath : String)
    (hready : ∀ m sl, (m, sl) ∈ s.NodeList → sl.Ready ∧ sl.Nodes.length + 2 ≤ fuel) :
    (∃ resp s', s.ServeHTTP fuel reqPath = some (resp, s') ∧
      (resp = Response.status 404 ∨ resp = Response.status 500 ∨
        ∃ n, resp = Response.forward n)) ∧
    ((∃ s', s.ServeHTTP fuel reqPath = some (Response.status 404, s')) ↔
      ∃ e, s.findServiceList reqPath = Except.error e) ∧
    ((∃ e, s.findServiceList reqPath = Except.error e) →
      s.ServeHTTP fuel reqPath = some (Response.status 404, s)) ∧
    (∀ sl, s.findServiceList reqPath = Except.ok sl →
      ((∃ s', s.ServeHTTP fuel reqPath = some (Response.status 500, s')) ↔
        ∃ msg st, sl.Strategy.Next fuel sl.Nodes = some (Result.err msg, st)) ∧
      ((∃ s', s.ServeHTTP fuel reqPath = some (Response.status 500, s')) ↔
        ∀ n, n ∈ sl.Nodes → n.alive = false) ∧
      (∀ n, (∃ s', s.ServeHTTP fuel reqPath = some (Response.forward n, s')) ↔
        ∃ st, sl.Strategy.Next fuel sl.Nodes = some (Result.ok n, st)) ∧
      (∀ n s', s.ServeHTTP fuel reqPath = some (Response.forward n, s') →
        n ∈ sl.Nodes ∧ n.alive = true)) := by
  obtain ⟨h404, h404', hok⟩ := Server.ServeHTTP_cases fuel s reqPath
  have hmatched : ∀ sl, s.findServiceList reqPath = Except.ok sl →
      ∃ res st, sl.Strategy.Next fuel sl.Nodes = some (res, st) ∧
        ((∃ n, res = Result.ok n ∧ n ∈ sl.Nodes ∧ n.alive = true) ∨
         (res = Result.err "no available servers" ∧ ∀ n, n ∈ sl.Nodes → n.alive = false)) := by
    intro sl hf
    unfold Server.findServiceList at hf
    cases hl : findServiceList.loop reqPath s.NodeList with
    | none => rw [hl] at hf; cases hf
    | some sl' =>
      rw [hl] at hf
      cases hf
      obtain ⟨m, hmem, _⟩ := findServiceList.loop_some reqPath _ sl hl
      obtain ⟨hr, hfuel⟩ := hready m sl hmem
      exact BalancingStrategy.Next_ready sl fuel hr hfuel
  refine ⟨?_, h404, h404', ?_⟩
  · cases hf : s.findServiceList reqPath with
    | error e => exact ⟨_, _, h404' ⟨e, hf⟩, Or.inl rfl⟩
    | ok sl =>
      obtain ⟨res, st, hnext, hres⟩ := hmatched sl hf
      rcases hres with ⟨n, rfl, _, _⟩ | ⟨rfl, _⟩
      · obtain ⟨s', hs'⟩ := ((hok sl hf).2 n).mpr ⟨st, hnext⟩
        exact ⟨_, s', hs', Or.inr (Or.inr ⟨n, rfl⟩)⟩
      · obtain ⟨s', hs'⟩ := (hok sl hf).1.mpr ⟨_, st, hnext⟩
        exact ⟨_, s', hs', Or.inr (Or.inl rfl)⟩
  · intro sl hf
    obtain ⟨res, st, hnext, hres⟩ := hmatched sl hf
    refine ⟨(hok sl hf).1, ?_, (hok sl hf).2, ?_⟩
    · constructor
      · intro h500
        obtain ⟨msg, st', hnext'⟩ := (hok sl hf).1.mp h500
        rw [hnext] at hnext'
        rcases hres with ⟨n, rfl, _, _⟩ | ⟨_, hdead⟩
        · cases hnext'
        · exact hdead
      · intro hdead
        rcases hres with ⟨n, rfl, hmem, ha⟩ | ⟨rfl, _⟩
        · have := hdead n hmem
          rw [ha] at this
          cases this
        · exact (hok sl hf).1.mpr ⟨_, st, hnext⟩
    · intro n s' hfw
      obtain ⟨st', hnext'⟩ := ((hok sl hf).2 n).mp ⟨s', hfw⟩
      rw [hnext] at hnext'
      rcases hres with ⟨n', rfl, hmem, ha⟩ | ⟨rfl, _⟩
      · cases hnext'
        exact ⟨hmem, ha⟩
      · cases hnext'

/-- Instance of the amended C6: a request for "/api/x" on the registry with the
service `api` over `R1` behind a fresh `RoundRobin`. -/
theorem Server.ServeHTTP_trichotomy_witness :
    ∃ resp s', Server.ServeHTTP 3 ⟨[("/api", listApi)]⟩ "/api/x" = some (resp, s') ∧
      (resp = Response.status 404 ∨ resp = Response.status 500 ∨
        ∃ n, resp = Response.forward n) :=
  (Server.ServeHTTP_trichotomy 3 ⟨[("/api", listApi)]⟩ "/api/x" (by
    intro m sl hmem
    simp only [List.mem_singleton, Prod.mk.injEq] at hmem
    obtain ⟨_, rfl⟩ := hmem
    refine ⟨?_, by decide⟩
    intro _
    decide)).1

/-! ## `NewServer`: replicas start dead -/

/-- `LoadStrategy` in closed form. -/
theorem LoadStrategy_eq (name : String) (heap : Heap) :
    LoadStrategy name heap = some (heap.length, heap ++ [if name = "WeightedRoundRobin"
      then BalancingStrategy.weightedRoundRobin { count := none, cursor := 0 }
      else BalancingStrategy.roundRobin { current := 0 }]) := by
  by_cases h1 : name = "RoundRobin"
  · subst h1; rfl
  · by_cases h2 : name = "WeightedRoundRobin"
    · subst h2; rfl
    · have b1 : (name == "RoundRobin") = false := by simpa using h1
      have b2 : (name == "WeightedRoundRobin") = false := by simpa using h2
      simp [LoadStrategy, strategies, List.lookup, sRoundRobin, sWeightedRoundRobin, b1, b2, h2,
        Heap.alloc]

/-- The nodes that `NewServer` builds: one per replica, with the parsed
address, the metadata of the replica, and dead. -/
theorem NewServer.nodes_eq (urlParse : String → Option String) :
    ∀ (replicas : List config.Replica) (servers : List Node),
      NewServer.nodes urlParse replicas = some servers →
      servers.map (fun n => (some n.Url, n.Metadata, n.alive))
        = replicas.map (fun r => (urlParse r.Url, r.Metadata, false)) := by
  intro replicas
  induction replicas with
  | nil =>
    intro servers h
    simp only [NewServer.nodes, Option.some.injEq] at h
    subst h
    rfl
  | cons replica rest ih =>
    intro servers h
    unfold NewServer.nodes at h
    split at h
    · cases h
    · next ur hur =>
      split at h
      · cases h
      · next tail htail =>
        cases h
        simp only [List.map_cons, ih tail htail, hur]

/-- `NewServer` builds the nodes of a service whenever all its addresses parse. -/
theorem NewServer.nodes_isSome (urlParse : String → Option String) :
    ∀ replicas : List config.Replica,
      (∀ r, r ∈ replicas → (urlParse r.Url).isSome = true) →
      ∃ servers, NewServer.nodes urlParse replicas = some servers := by
  intro replicas
  induction replicas with
  | nil => intro _; exact ⟨[], rfl⟩
  | cons replica rest ih =>
    intro h
    obtain ⟨ur, hur⟩ := Option.isSome_iff_exists.mp (h replica (List.mem_cons_self _ _))
    obtain ⟨tail, htail⟩ := ih (fun r hr => h r (List.mem_cons_of_mem _ hr))
    exact ⟨{ Url := ur, Metadata := replica.Metadata, alive := false } :: tail,
      by simp [NewServer.nodes, hur, htail]⟩

theorem mapStore_mem (key : String) (value : NodeList) :
    ∀ (m : List (String × NodeList)) (e : String × NodeList),
      e ∈ mapStore key value m → e = (key, value) ∨ e ∈ m := by
  intro m
  induction m with
  | nil =>
    intro e h
    simp only [mapStore, List.mem_singleton] at h
    exact Or.inl h
  | cons head rest ih =>
    intro e h
    obtain ⟨k, v⟩ := head
    unfold mapStore at h
    split at h
    · rcases List.mem_cons.mp h with h | h
      · exact Or.inl h
      · exact Or.inr (List.mem_cons_of_mem _ h)
    · rcases List.mem_cons.mp h with h | h
      · exact Or.inr (by rw [h]; exact List.mem_cons_self _ _)
      · rcases ih e h with h | h
        · exact Or.inl h
        · exact Or.inr (List.mem_cons_of_mem _ h)

theorem mapStore_self (key : String) (value : NodeList) :
    ∀ m : List (String × NodeList), (key, value) ∈ mapStore key value m := by
  intro m
  induction m with
  | nil => simp [mapStore]
  | cons head rest ih =>
    obtain ⟨k, v⟩ := head
    unfold mapStore
    split
    · exact List.mem_cons_self _ _
    · exact List.mem_cons_of_mem _ ih

theorem mapStore_keep (key : String) (value : NodeList) :
    ∀ (m : List (String × NodeList)) (k : String) (v : NodeList),
      (k, v) ∈ m → ∃ v', (k, v') ∈ mapStore key value m := by
  intro m
  induction m with
  | nil => intro k v h; cases h
  | cons head rest ih =>
    intro k v h
    obtain ⟨k0, v0⟩ := head
    unfold mapStore
    split
    · next heq =>
      rcases List.mem_cons.mp h with h | h
      · simp only [Prod.mk.injEq] at h
        exact ⟨value, by rw [h.1, heq]; exact List.mem_cons_self _ _⟩
      · exact ⟨v, List.mem_cons_of_mem _ h⟩
    · rcases List.mem_cons.mp h with h | h
      · exact ⟨v, by rw [h]; exact List.mem_cons_self _ _⟩
      · obtain ⟨v', hv'⟩ := ih k v h
        exact ⟨v', List.mem_cons_of_mem _ hv'⟩

/-- The map that `NewServer` fills: every entry was there before or is built
from one of the services, and every key that was there or is the matcher of a
service is a key of the result. -/
theorem NewServer.services_built (urlParse : String → Option String) :
    ∀ (services : List config.Service) (nodeMap : List (String × NodeList)) (heap : Heap)
      (nodeMap' : List (String × NodeList)) (heap' : Heap),
      NewServer.services urlParse services nodeMap heap = some (nodeMap', heap') →
      (∀ e, e ∈ nodeMap' →
        e ∈ nodeMap ∨ ∃ service, service ∈ services ∧ NewServer.Built urlParse service e) ∧
      (∀ m, ((∃ sl, (m, sl) ∈ nodeMap) ∨ ∃ service, service ∈ services ∧ service.Matcher = m) →
        ∃ sl, (m, sl) ∈ nodeMap') := by
  intro services
  induction services with
  | nil =>
    intro nodeMap heap nodeMap' heap' h
    simp only [NewServer.services, Option.some.injEq, Prod.mk.injEq] at h
    rw [← h.1]
    refine ⟨fun e he => Or.inl he, ?_⟩
    rintro m (hm | ⟨service, hs, _⟩)
    · exact hm
    · cases hs
  | cons service rest ih =>
    intro nodeMap heap nodeMap' heap' h
    unfold NewServer.services at h
    split at h
    · cases h
    · next servers hservers =>
      split at h
      · cases h
      · rw [LoadStrategy_eq] at h
        simp only [List.getElem?_concat_length] at h
        obtain ⟨hent, hkey⟩ := ih _ _ _ _ h
        refine ⟨?_, ?_⟩
        · intro e he
          rcases hent e he with he | ⟨svc, hsvc, hb⟩
          · rcases mapStore_mem _ _ _ e he with rfl | he
            · exact Or.inr ⟨service, List.mem_cons_self _ _,
                rfl, rfl, NewServer.nodes_eq urlParse _ _ hservers, rfl⟩
            · exact Or.inl he
          · exact Or.inr ⟨svc, List.mem_cons_of_mem _ hsvc, hb⟩
        · rintro m (⟨sl, hm⟩ | ⟨svc, hsvc, hmatch⟩)
          · exact hkey m (Or.inl (mapStore_keep _ _ _ m sl hm))
          · rcases List.mem_cons.mp hsvc with rfl | hsvc
            · exact hkey m (Or.inl ⟨_, by rw [← hmatch]; exact mapStore_self _ _ _⟩)
            · exact hkey m (Or.inr ⟨svc, hsvc, hmatch⟩)

/-- The loop of `NewServer` runs through when every service has a replica and
all addresses parse. -/
theorem NewServer.services_isSome (urlParse : String → Option String) :
    ∀ (services : List config.Service) (nodeMap : List (String × NodeList)) (heap : Heap),
      (∀ service, service ∈ services → service.Replicas ≠ [] ∧
        ∀ r, r ∈ service.Replicas → (urlParse r.Url).isSome = true) →
      ∃ nodeMap' heap', NewServer.services urlParse services nodeMap heap
        = some (nodeMap', heap') := by
  intro services
  induction services with
  | nil => intro nodeMap heap _; exact ⟨nodeMap, heap, rfl⟩
  | cons service rest ih =>
    intro nodeMap heap h
    obtain ⟨hne, hparse⟩ := h service (List.mem_cons_self _ _)
    obtain ⟨servers, hservers⟩ := NewServer.nodes_isSome urlParse service.Replicas hparse
    have hlen : servers.length ≠ 0 := by
      have := congrArg List.length (NewServer.nodes_eq urlParse _ _ hservers)
      simp only [List.length_map] at this
      rw [this]
      exact fun h0 => hne (List.length_eq_zero.mp h0)
    obtain ⟨nodeMap', heap', hrest⟩ := ih
      (mapStore service.Matcher
        { Nodes := servers, Name := service.Name,
          Strategy := (if service.Strategy = "WeightedRoundRobin"
            then BalancingStrategy.weightedRoundRobin { count := none, cursor := 0 }
            else BalancingStrategy.roundRobin { current := 0 }) } nodeMap)
      (heap ++ [if service.Strategy = "WeightedRoundRobin"
            then BalancingStrategy.weightedRoundRobin { count := none, cursor := 0 }
            else BalancingStrategy.roundRobin { current := 0 }])
      (fun svc hsvc => h svc (List.mem_cons_of_mem _ hsvc))
    refine ⟨nodeMap', heap', ?_⟩
    unfold NewServer.services
    simp only [hservers, health.NewChecker, hlen, if_false, LoadStrategy_eq,
      List.getElem?_concat_length]
    exact hrest

/-- On a pool without an alive replica the loop of `WeightedRoundRobin.Next`
fails after passing the candidates that are left, whatever the weights. -/
theorem WeightedRoundRobin.loop_all_dead (servers : List Node)
    (hdead : ∀ n, n ∈ servers → n.alive = false) (k : Nat) :
    ∀ (fuel index : Nat) (choosen : Option Node) (count : List Int) (cursor : Nat),
      index + k = servers.length → k < fuel → count.length = servers.length →
      (servers ≠ [] → cursor < servers.length) →
      ∃ w', WeightedRoundRobin.loop servers fuel index choosen count cursor
        = some (Result.err "no available servers", w') := by
  induction k with
  | zero =>
    intro fuel index choosen count cursor hi hf _ _
    obtain ⟨fuel, rfl⟩ : ∃ f, fuel = f + 1 := ⟨fuel - 1, by omega⟩
    have hidx : index = servers.length := by omega
    refine ⟨⟨some count, cursor⟩, ?_⟩
    cases choosen <;> simp [WeightedRoundRobin.loop, WeightedRoundRobin.finish, hidx]
  | succ k ih =>
    intro fuel index choosen count cursor hi hf hlen hc
    obtain ⟨fuel, rfl⟩ : ∃ f, fuel = f + 1 := ⟨fuel - 1, by omega⟩
    have hne : servers ≠ [] := by
      intro h0
      simp [h0] at hi
    have hc' := hc hne
    obtain ⟨m, hm⟩ : ∃ m, servers[cursor]? = some m :=
      ⟨servers[cursor], List.getElem?_eq_getElem hc'⟩
    have hmd : m.alive = false := hdead m (List.getElem?_mem hm)
    have hi' : index < servers.length := by omega
    have hcl : cursor < count.length := by omega
    obtain ⟨w', hloop⟩ := ih fuel (index + 1) (some m) (count.set cursor 0)
      ((cursor + 1) % servers.length) (by omega) (by omega) (by simpa using hlen)
      (fun _ => Nat.mod_lt _ (by omega))
    exact ⟨w', by simp [WeightedRoundRobin.loop, hi', hm, Node.IsAlive, hmd, hcl, hloop]⟩

/-- A strategy of either kind in a safe state fails on a pool without an alive replica. -/
theorem BalancingStrategy.Next_dead_safe (st : BalancingStrategy) (servers : List Node)
    (fuel : Nat) (hfuel : servers.length < fuel)
    (hsafe : BalancingStrategy.Safe servers.length st)
    (hdead : ∀ n, n ∈ servers → n.alive = false) :
    ∃ st', st.Next fuel servers = some (Result.err "no available servers", st') := by
  cases st with
  | roundRobin r =>
    simp only [BalancingStrategy.Safe] at hsafe
    have := RoundRobin.Next_dead r servers
      (fun hne => hsafe (fun h0 => hne (List.length_eq_zero.mp h0))) hdead
    exact ⟨BalancingStrategy.roundRobin r, by simp [BalancingStrategy.Next, this]⟩
  | weightedRoundRobin w =>
    simp only [BalancingStrategy.Safe, WeightedRoundRobin.Inv] at hsafe
    cases hcnt : w.count with
    | none =>
      obtain ⟨w', hloop⟩ := WeightedRoundRobin.loop_all_dead servers hdead servers.length fuel 0
        none (List.replicate servers.length 0) 0 (by omega) hfuel (by simp)
        (fun hne => List.length_pos.mpr hne)
      exact ⟨BalancingStrategy.weightedRoundRobin w',
        by simp [BalancingStrategy.Next, WeightedRoundRobin.Next, hcnt, hloop]⟩
    | some count =>
      rw [hcnt] at hsafe
      obtain ⟨w', hloop⟩ := WeightedRoundRobin.loop_all_dead servers hdead servers.length fuel 0
        none count w.cursor (by omega) hfuel hsafe.1
        (fun hne => hsafe.2.1 (fun h0 => hne (List.length_eq_zero.mp h0)))
      exact ⟨BalancingStrategy.weightedRoundRobin w',
        by simp [BalancingStrategy.Next, WeightedRoundRobin.Next, hcnt, hloop]⟩

/-- A call of `Next` that returns leaves a safe strategy safe. -/
theorem BalancingStrategy.Next_safe (st st' : BalancingStrategy) (servers : List Node)
    (fuel : Nat) (res : Result) (hsafe : BalancingStrategy.Safe servers.length st)
    (h : st.Next fuel servers = some (res, st')) :
    BalancingStrategy.Safe servers.length st' := by
  cases st with
  | roundRobin r =>
    simp only [BalancingStrategy.Safe] at hsafe
    simp only [BalancingStrategy.Next, Option.map_eq_some', Prod.mk.injEq] at h
    obtain ⟨⟨res0, r'⟩, hnext, _, rfl⟩ := h
    simp only [BalancingStrategy.Safe]
    intro hN
    obtain ⟨res1, r1, hnext1, _, hc⟩ := RoundRobin.Next_in_range r servers (hsafe hN)
    rw [hnext] at hnext1
    cases hnext1
    exact hc
  | weightedRoundRobin w =>
    simp only [BalancingStrategy.Safe] at hsafe
    simp only [BalancingStrategy.Next, Option.map_eq_some', Prod.mk.injEq] at h
    obtain ⟨⟨res0, w'⟩, hnext, _, rfl⟩ := h
    exact (WeightedRoundRobin.Next_shape _ w servers fuel res0 w' rfl hsafe hnext).1

/-- The entries after the write of a strategy: the old ones, but for the first
match, which has the new strategy and is otherwise as it was. -/
theorem Server.storeStrategy_mem (reqPath : String) (st : BalancingStrategy) :
    ∀ (l : List (String × Golb.NodeList)) (e : String × Golb.NodeList),
      e ∈ Server.storeStrategy reqPath st l →
      e ∈ l ∨ ∃ sl, (e.1, sl) ∈ l ∧ findServiceList.loop reqPath l = some sl ∧
        e.2 = { sl with Strategy := st } := by
  intro l
  induction l with
  | nil => intro e h; cases h
  | cons head rest ih =>
    intro e h
    obtain ⟨m, sl⟩ := head
    unfold Server.storeStrategy at h
    split at h
    · next hp =>
      rcases List.mem_cons.mp h with h | h
      · subst h
        exact Or.inr ⟨sl, List.mem_cons_self _ _, by simp [findServiceList.loop, hp], rfl⟩
      · exact Or.inl (List.mem_cons_of_mem _ h)
    · next hp =>
      rcases List.mem_cons.mp h with h | h
      · exact Or.inl (by rw [h]; exact List.mem_cons_self _ _)
      · rcases ih e h with h | ⟨sl', hmem, hloop, heq⟩
        · exact Or.inl (List.mem_cons_of_mem _ h)
        · exact Or.inr ⟨sl', List.mem_cons_of_mem _ hmem, by
            simp [findServiceList.loop, hp, hloop], heq⟩

/-- The write of a strategy keeps every key of the registry. -/
theorem Server.storeStrategy_keep (reqPath : String) (st : BalancingStrategy) :
    ∀ (l : List (String × Golb.NodeList)) (k : String) (v : Golb.NodeList),
      (k, v) ∈ l → ∃ v', (k, v') ∈ Server.storeStrategy reqPath st l := by
  intro l
  induction l with
  | nil => intro k v h; cases h
  | cons head rest ih =>
    intro k v h
    obtain ⟨m, sl⟩ := head
    unfold Server.storeStrategy
    split
    · rcases List.mem_cons.mp h with h | h
      · simp only [Prod.mk.injEq] at h
        exact ⟨{ sl with Strategy := st }, by rw [h.1]; exact List.mem_cons_self _ _⟩
      · exact ⟨v, List.mem_cons_of_mem _ h⟩
    · rcases List.mem_cons.mp h with h | h
      · exact ⟨v, by rw [h]; exact List.mem_cons_self _ _⟩
      · obtain ⟨v', hv'⟩ := ih k v h
        exact ⟨v', List.mem_cons_of_mem _ hv'⟩

/-- The server after a request that returned: as it was, or with the strategy
state that `Next` of the matched node list left. -/
theorem Server.ServeHTTP_state (fuel : Nat) (s s' : Server) (reqPath : String)
    (resp : Response) (h : s.ServeHTTP fuel reqPath = some (resp, s')) :
    s' = s ∨ ∃ sl res st, findServiceList.loop reqPath s.NodeList = some sl ∧
      sl.Strategy.Next fuel sl.Nodes = some (res, st) ∧
      s' = ⟨Server.storeStrategy reqPath st s.NodeList⟩ := by
  unfold Server.ServeHTTP Server.findServiceList at h
  cases hl : findServiceList.loop reqPath s.NodeList with
  | none =>
    rw [hl] at h
    simp only [Option.some.injEq, Prod.mk.injEq] at h
    exact Or.inl h.2.symm
  | some sl =>
    rw [hl] at h
    simp only at h
    cases hn : sl.Strategy.Next fuel sl.Nodes with
    | none => rw [hn] at h; cases h
    | some x =>
      obtain ⟨res, st⟩ := x
      rw [hn] at h
      refine Or.inr ⟨sl, res, st, rfl, hn, ?_⟩
      cases res <;>
      · simp only [Option.some.injEq, Prod.mk.injEq] at h
        exact h.2.symm

/-- Requests keep the keys and the nodes of the registry, and leave every
strategy in a safe state. -/
theorem Server.Served.keeps (s s1 : Server)
    (hbase : ∀ m sl, (m, sl) ∈ s.NodeList → BalancingStrategy.Safe sl.Nodes.length sl.Strategy)
    (h : Server.Served s s1) :
    (∀ m sl1, (m, sl1) ∈ s1.NodeList → ∃ sl, (m, sl) ∈ s.NodeList ∧ sl1.Nodes = sl.Nodes ∧
      BalancingStrategy.Safe sl1.Nodes.length sl1.Strategy) ∧
    (∀ m sl, (m, sl) ∈ s.NodeList → ∃ sl1, (m, sl1) ∈ s1.NodeList) := by
  induction h with
  | start => exact ⟨fun m sl1 h => ⟨sl1, h, rfl, hbase m sl1 h⟩, fun m sl h => ⟨sl, h⟩⟩
  | request fuel sA s1 s2 reqPath resp _ hperm hserve ih =>
    obtain ⟨ihA, ihB⟩ := ih
    rcases Server.ServeHTTP_state fuel s1 s2 reqPath resp hserve with rfl | ⟨slf, res, st, hl, hnext, rfl⟩
    · exact ⟨fun m sl1 h => ihA m sl1 (hperm.mem_iff.mp h),
        fun m sl h => by
          obtain ⟨slA, hA⟩ := ihB m sl h
          exact ⟨slA, hperm.mem_iff.mpr hA⟩⟩
    · refine ⟨?_, ?_⟩
      · intro m sl2 hmem
        rcases Server.storeStrategy_mem reqPath st _ _ hmem with hold | ⟨sl', hmem', hl', heq⟩
        · exact ihA m sl2 (hperm.mem_iff.mp hold)
        · rw [hl] at hl'
          cases hl'
          simp only at hmem' heq
          obtain ⟨sl, hsl, hnodes, hsafe⟩ := ihA m slf (hperm.mem_iff.mp hmem')
          refine ⟨sl, hsl, by rw [heq]; exact hnodes, ?_⟩
          rw [heq]
          exact BalancingStrategy.Next_safe slf.Strategy st slf.Nodes fuel res hsafe hnext
      · intro m sl h
        obtain ⟨slA, hA⟩ := ihB m sl h
        exact Server.storeStrategy_keep reqPath st _ m slA (hperm.mem_iff.mpr hA)

theorem NewServer.built_dead (urlParse : String → Option String) (servers : List Node)
    (replicas : List config.Replica)
    (h : servers.map (fun n => (some n.Url, n.Metadata, n.alive))
      = replicas.map (fun r => (urlParse r.Url, r.Metadata, false))) :
    ∀ n, n ∈ servers → n.alive = false := by
  intro n hn
  have hmem : (some n.Url, n.Metadata, n.alive)
      ∈ replicas.map (fun r => (urlParse r.Url, r.Metadata, false)) := by
    rw [← h]
    exact List.mem_map.mpr ⟨n, hn, rfl⟩
  obtain ⟨r, _, hr⟩ := List.mem_map.mp hmem
  simp only [Prod.mk.injEq] at hr
  exact hr.2.2.symm

/-- C20. `NewServer` returns a server whenever every configured service has a
replica and all addresses parse. The server it returns registers every
configured service under its matcher, and every entry of its registry is built
from a configured service: its name, one node per replica with the parsed
address and the metadata of the replica, and a fresh strategy, a
`WeightedRoundRobin` for the strategy name "WeightedRoundRobin" and a
`RoundRobin` otherwise. Every node reports `IsAlive = false` and stays so under
any sequence of `SetLiveness(false)`, the only other write being
`SetLiveness(true)`. On that server, after any number of requests and in every
iteration order of the registry, every request whose path begins with the
matcher of a configured service is answered with 500. -/
theorem NewServer_starts_dead (urlParse : String → Option String) (conf : config.Config)
    (heap : Heap) :
    ((∀ service, service ∈ conf.Services → service.Replicas ≠ [] ∧
        ∀ r, r ∈ service.Replicas → (urlParse r.Url).isSome = true) →
      ∃ s heap', NewServer urlParse conf heap = some (s, heap')) ∧
    (∀ s heap', NewServer urlParse conf heap = some (s, heap') →
      (∀ service, service ∈ conf.Services → ∃ sl, (service.Matcher, sl) ∈ s.NodeList) ∧
      (∀ m sl, (m, sl) ∈ s.NodeList → ∃ service, service ∈ conf.Services ∧
        service.Matcher = m ∧ sl.Name = service.Name ∧
        sl.Nodes.map (fun n => (some n.Url, n.Metadata, n.alive))
          = service.Replicas.map (fun r => (urlParse r.Url, r.Metadata, false)) ∧
        sl.Strategy = (if service.Strategy = "WeightedRoundRobin"
          then BalancingStrategy.weightedRoundRobin { count := none, cursor := 0 }
          else BalancingStrategy.roundRobin { current := 0 })) ∧
      (∀ m sl, (m, sl) ∈ s.NodeList → ∀ n, n ∈ sl.Nodes →
        n.IsAlive = false ∧
        (∀ vs : List Bool, (∀ v, v ∈ vs → v = false) →
          vs.foldl (fun node v => (node.SetLiveness v).2) n = n) ∧
        (n.SetLiveness true).2.IsAlive = true) ∧
      (∀ s1, Server.Served s s1 →
        ∀ (s2 : Server) (fuel : Nat) (reqPath : String), s2.NodeList.Perm s1.NodeList →
        (∀ service, service ∈ conf.Services → service.Replicas.length < fuel) →
        (∃ service, service ∈ conf.Services ∧ ∃ rest : String,
          reqPath = service.Matcher ++ rest) →
        ∃ s3, s2.ServeHTTP fuel reqPath = some (Response.status 500, s3))) := by
  refine ⟨?_, ?_⟩
  · intro hconf
    obtain ⟨nodeMap, heap', hsv⟩ := NewServer.services_isSome urlParse conf.Services [] heap hconf
    exact ⟨⟨nodeMap⟩, heap', by simp [NewServer, hsv]⟩
  intro s heap' h
  have hsv : ∃ heap1, NewServer.services urlParse conf.Services [] heap
      = some (s.NodeList, heap1) := by
    unfold NewServer at h
    cases hsv : NewServer.services urlParse conf.Services [] heap with
    | none =>
      rw [hsv] at h
      cases h
    | some p =>
      obtain ⟨nodeMap, heap1⟩ := p
      rw [hsv] at h
      cases h
      exact ⟨_, rfl⟩
  obtain ⟨heap1, hsv⟩ := hsv
  obtain ⟨hent, hkey⟩ := NewServer.services_built urlParse _ _ _ _ _ hsv
  have hbuilt : ∀ m sl, (m, sl) ∈ s.NodeList →
      ∃ service, service ∈ conf.Services ∧ NewServer.Built urlParse service (m, sl) := by
    intro m sl hmem
    rcases hent (m, sl) hmem with h0 | hb
    · cases h0
    · exact hb
  have hdead : ∀ m sl, (m, sl) ∈ s.NodeList → ∀ n, n ∈ sl.Nodes → n.alive = false := by
    intro m sl hmem
    obtain ⟨service, _, _, _, hnodes, _⟩ := hbuilt m sl hmem
    exact NewServer.built_dead urlParse _ _ hnodes
  have hbase : ∀ m sl, (m, sl) ∈ s.NodeList →
      BalancingStrategy.Safe sl.Nodes.length sl.Strategy := by
    intro m sl hmem
    obtain ⟨service, _, _, _, _, hst⟩ := hbuilt m sl hmem
    simp only at hst
    rw [hst]
    split
    · simp [BalancingStrategy.Safe, WeightedRoundRobin.Inv]
    · simp only [BalancingStrategy.Safe]
      omega
  refine ⟨?_, ?_, ?_, ?_⟩
  · intro service hsvc
    exact hkey service.Matcher (Or.inr ⟨service, hsvc, rfl⟩)
  · intro m sl hmem
    obtain ⟨service, hsvc, hm, hname, hnodes, hst⟩ := hbuilt m sl hmem
    exact ⟨service, hsvc, hm.symm, hname, hnodes, hst⟩
  · intro m sl hmem n hn
    have hd : n.alive = false := hdead m sl hmem n hn
    refine ⟨hd, ?_, rfl⟩
    intro vs
    induction vs with
    | nil => intro _; rfl
    | cons v rest ih =>
      intro hv
      have hv0 : v = false := hv v (List.mem_cons_self _ _)
      subst hv0
      have hkeep : (n.SetLiveness false).2 = n := by
        cases n
        simp only at hd
        subst hd
        rfl
      rw [List.foldl_cons, hkeep]
      exact ih (fun x hx => hv x (List.mem_cons_of_mem _ hx))
  · intro s1 hserved s2 fuel reqPath hperm hfuel ⟨service, hsvc, hpre⟩
    obtain ⟨kA, kB⟩ := Server.Served.keeps s s1 hbase hserved
    obtain ⟨sl0, hsl0⟩ := hkey service.Matcher (Or.inr ⟨service, hsvc, rfl⟩)
    obtain ⟨sl1, hsl1⟩ := kB _ _ hsl0
    cases hl : findServiceList.loop reqPath s2.NodeList with
    | none =>
      have := (findServiceList.loop_none reqPath s2.NodeList).mp hl _ sl1
        (hperm.mem_iff.mpr hsl1)
      rw [(strings.HasPrefix_iff _ _).mpr hpre] at this
      cases this
    | some sl' =>
      obtain ⟨m', hmem', _⟩ := findServiceList.loop_some reqPath _ sl' hl
      obtain ⟨sl, hsl, hnodes, hsafe⟩ := kA m' sl' (hperm.mem_iff.mp hmem')
      obtain ⟨service', hsvc', _, _, hmap, _⟩ := hbuilt m' sl hsl
      have hlen : sl'.Nodes.length < fuel := by
        have := congrArg List.length hmap
        simp only [List.length_map] at this
        rw [hnodes, this]
        exact hfuel service' hsvc'
      obtain ⟨st', hnext⟩ := BalancingStrategy.Next_dead_safe sl'.Strategy sl'.Nodes fuel
        hlen hsafe (by rw [hnodes]; exact hdead m' sl hsl)
      exact ⟨⟨Server.storeStrategy reqPath st' s2.NodeList⟩,
        by simp [Server.ServeHTTP, Server.findServiceList, hl, hnext,
          StatusInternalServerError]⟩

/-- Instance of C20: the server built from `sampleConfig` answers two
consecutive requests for its `WeightedRoundRobin` service with 500. -/
theorem NewServer_starts_dead_witness :
    ∃ s1 s2, sampleServer.ServeHTTP 3 "/img/logo.png" = some (Response.status 500, s1) ∧
      s1.ServeHTTP 3 "/img/logo.png" = some (Response.status 500, s2) :=
  have h := (NewServer_starts_dead (fun u => some u) sampleConfig []).2 sampleServer
    [BalancingStrategy.roundRobin ⟨0⟩, BalancingStrategy.weightedRoundRobin ⟨none, 0⟩] rfl
  have hfuel : ∀ service, service ∈ sampleConfig.Services → service.Replicas.length < 3 := by
    decide
  have hmatch : ∃ service, service ∈ sampleConfig.Services ∧ ∃ rest : String,
      "/img/logo.png" = service.Matcher ++ rest :=
    ⟨_, List.mem_cons_of_mem _ (List.mem_cons_self _ _), "/logo.png", by decide⟩
  have first := h.2.2.2 sampleServer Server.Served.start sampleServer 3 "/img/logo.png"
    (List.Perm.refl _) hfuel hmatch
  first.elim fun s1 h1 =>
    (h.2.2.2 s1 (Server.Served.request 3 sampleServer sampleServer s1 "/img/logo.png" _
      Server.Served.start (List.Perm.refl _) h1) s1 3 "/img/logo.png" (List.Perm.refl _)
      hfuel hmatch).elim fun s2 h2 => ⟨s1, s2, h1, h2⟩

end Golb
